import Mathlib

/-!
Shell skeleton (`shell-skeleton.c`): command parser, executor, line editor, completion

A shallow embedding of the C sources of the repository and the properties
established about them.

Conventions of the embedding.

* A `char *` is the list of the bytes from the pointer to the end of the
  memory that is modelled.  A C string is the part of that list before its
  first `NUL`; a read past the end of the list sees `NUL`.
* `buf++` is `List.tail`, `buf[i] = c` is `List.set`.
* The hidden pointer of `strtok` is passed explicitly.
* `malloc`, `realloc` and `strdup` always succeed.  The block `malloc`
  returns for the node after a `|` is not cleared by `parse_command`: what it
  holds is a parameter, `fresh i` for the call of `parse_command` nested `i`
  deep.  The blocks for the strings are allocated with the length of the
  string copied into them.
* `temp_buf` has 1024 bytes.  The copy of a token that does not fit writes
  past the array; what the program does from there on is not followed, and
  `parse_command` has no result (`none`).
* `process_command` runs against a record of the operating system that
  holds the answers to the calls that can fail and the trace of the calls
  made; the run is that of one process, a `fork` that returns 0 being
  followed into the child.
* The line editor works on the memory of `buf` and records the offset of
  every store through `buf`; `size_t` has 64 bits.
-/

namespace Shell

/-! ## Strings -/

/-- The byte that terminates a C string. -/
def NUL : Char := Char.ofNat 0

/-- The C string a pointer designates: the bytes before the first `NUL`. -/
def cstr (p : List Char) : List Char := p.takeWhile (fun c => c != NUL)

/-- `strlen(p)`. -/
def strlen (p : List Char) : Nat := (cstr p).length

/-- `strchr(splitters, c) != NULL` for `splitters = " \t"`: the terminator of
`splitters` is found as well. -/
def strchr_splitters (c : Char) : Bool := c == ' ' || c == '\t' || c == NUL

/-- Membership of a byte in the delimiter set `" \t"` as `strtok` uses it. -/
def isSplitter (c : Char) : Bool := c == ' ' || c == '\t'

/-- `strtok(s, " \t")` with its hidden pointer made explicit: the argument is
the pointer scanning starts from, the result is the returned pointer (`none`
for `NULL`) and the new hidden pointer.  When the token is followed by a
delimiter, that byte is overwritten by `NUL`. -/
def strtok (s : List Char) : Option (List Char) × List Char :=
  let s1 := s.dropWhile isSplitter
  match s1 with
  | [] => (none, [])
  | c :: _ =>
    if c == NUL then (none, s1)
    else
      let tok := s1.takeWhile (fun c => !isSplitter c && c != NUL)
      match s1.drop tok.length with
      | [] => (some tok, [])
      | e :: rest =>
        if e == NUL then (some s1, e :: rest)
        else (some (tok ++ NUL :: rest), rest)

/-! ## The command node -/

/-- The `struct command_t`.  `args` is the `char **` vector, `none` being a
`NULL` entry; `redirects0`, `redirects1`, `redirects2` are `redirects[0..2]`
(input, truncating output, appending output). -/
structure command_t where
  name : List Char
  background : Bool
  auto_complete : Bool
  arg_count : Nat
  args : List (Option (List Char))
  redirects0 : Option (List Char)
  redirects1 : Option (List Char)
  redirects2 : Option (List Char)
  next : Option command_t

/-- The node `main` hands to `prompt`: all bytes set to 0 by `memset`. -/
def zeroed : command_t :=
  { name := [], background := false, auto_complete := false, arg_count := 0,
    args := [], redirects0 := none, redirects1 := none, redirects2 := none,
    next := none }

/-- `sizeof(temp_buf)` in `parse_command`. -/
def TEMP_BUF_SIZE : Nat := 1024

/-- `command->redirects[redirect_index] = value`. -/
def set_redirect (command : command_t) (redirect_index : Nat)
    (value : List Char) : command_t :=
  match redirect_index with
  | 0 => { command with redirects0 := some value }
  | 1 => { command with redirects1 := some value }
  | _ => { command with redirects2 := some value }

/-! ## `parse_command` -/

/-- The loop `while (len > 0 && strchr(splitters, buf[0]) != NULL) { buf++; len--; }`. -/
def trim_left : Nat → List Char → Nat × List Char
  | 0, buf => (0, buf)
  | len + 1, buf =>
    if strchr_splitters (buf.headD NUL) then trim_left len buf.tail
    else (len + 1, buf)

/-- The loop `while (len > 0 && strchr(splitters, buf[len - 1]) != NULL) buf[--len] = 0;`. -/
def trim_right : Nat → List Char → Nat × List Char
  | 0, buf => (0, buf)
  | len + 1, buf =>
    if strchr_splitters (buf.getD len NUL) then trim_right len (buf.set len NUL)
    else (len + 1, buf)

/-- The loop `for (i = arg_count - 2; i > 0; --i) args[i] = args[i - 1];`,
started at `i`. -/
def shift_args : Nat → List (Option (List Char)) → List (Option (List Char))
  | 0, args => args
  | i + 1, args => shift_args i (args.set (i + 1) (args.getD i none))

/-- The statements of `parse_command` after its `while (1)` loop: the vector
grows by two entries, is shifted by one, `args[0]` becomes a copy of the name
and the last entry `NULL`. -/
def finish_args (command : command_t) (arg_index : Nat) : command_t :=
  let arg_count := arg_index + 2
  let args := command.args ++ [none, none]
  let args := shift_args (arg_count - 2) args
  let args := args.set 0 (some command.name)
  let args := args.set (arg_count - 1) none
  { command with arg_count := arg_count, args := args }

/-- The statements under `// handle input redirection`: `redirect_index`
(`none` for -1) from the first bytes of the argument; for `>>` the argument
is advanced by one byte. -/
def redirect_of (arg : List Char) (len : Nat) : Option Nat × List Char × Nat :=
  let redirect_index : Option Nat := none
  let redirect_index := if arg.headD NUL == '<' then some 0 else redirect_index
  if arg.headD NUL == '>' then
    if len > 1 && arg.getD 1 NUL == '>' then (some 2, arg.tail, len - 1)
    else (some 1, arg, len)
  else (redirect_index, arg, len)

/-- The statements under `// normal arguments`: an argument of length > 2
between two `"` or two `'` has its last byte overwritten by `NUL` and is
advanced by one byte. -/
def unquote (arg : List Char) (len : Nat) : List Char :=
  if len > 2 &&
      ((arg.headD NUL == '"' && arg.getD (len - 1) NUL == '"') ||
       (arg.headD NUL == '\'' && arg.getD (len - 1) NUL == '\'')) then
    (arg.set (len - 1) NUL).tail
  else arg

/-- The `while (1)` loop of `parse_command`.  `malloc_command` is what the
block holds that `malloc` returns for the node after a `|`; `parse` is
`parse_command` itself, for the recursive call; `save` is the hidden pointer
of `strtok`; the `Nat` bounds the number of iterations.  The result is the
node, the number `arg_index` of arguments stored, and the hidden pointer at
exit; there is none when the bound is reached and when a token with its
terminator does not fit `temp_buf`. -/
def parse_loop (malloc_command : command_t)
    (parse : List Char → command_t → Option (command_t × List Char)) :
    Nat → List Char → command_t → Nat → Option (command_t × Nat × List Char)
  | 0, _, _, _ => none
  | fuel + 1, save, command, arg_index =>
    match strtok save with
    | (none, save) => some (command, arg_index, save)
    | (some pch, save) =>
      -- strcpy(temp_buf, pch), with `char temp_buf[1024]`
      if TEMP_BUF_SIZE < strlen pch + 1 then none
      else
      let arg := cstr pch ++ [NUL]
      let len := strlen arg
      if len == 0 then parse_loop malloc_command parse fuel save command arg_index
      else
      let (len, arg) := trim_left len arg
      let (len, arg) := trim_right len arg
      if len == 0 then parse_loop malloc_command parse fuel save command arg_index
      else
      if cstr arg == ['|'] then
        -- struct command_t *c = malloc(sizeof(struct command_t));
        let l := strlen pch
        let pch := pch.set l ' '
        -- index = 1; while (pch[index] == ' ' || pch[index] == '\t') index++;
        match parse ((pch.drop 1).dropWhile isSplitter) malloc_command with
        | none => none
        | some (c, save) =>
          parse_loop malloc_command parse fuel save { command with next := some c } arg_index
      else if cstr arg == ['&'] then
        parse_loop malloc_command parse fuel save command arg_index
      else
      let (redirect_index, arg, len) := redirect_of arg len
      match redirect_index with
      | some i =>
        parse_loop malloc_command parse fuel save (set_redirect command i (cstr arg.tail))
          arg_index
      | none =>
        let arg := unquote arg len
        parse_loop malloc_command parse fuel save
          { command with args := command.args ++ [some (cstr arg)] } (arg_index + 1)

/-- The statements under `// auto-complete` and `// background`: a flag is
set when the trimmed line is not empty and its last byte is `?`, `&`. -/
def set_flags (command : command_t) (len : Nat) (buf : List Char) : command_t :=
  let command :=
    if len > 0 && buf.getD (len - 1) NUL == '?' then { command with auto_complete := true }
    else command
  if len > 0 && buf.getD (len - 1) NUL == '&' then { command with background := true }
  else command

/-- The name, from the first call of `strtok` (the empty string when it
returns `NULL`), and the freshly allocated argument vector. -/
def set_name (command : command_t) (pch : Option (List Char)) : command_t :=
  let command :=
    match pch with
    | none => { command with name := [] }
    | some pch => { command with name := cstr pch }
  { command with args := [] }

/-- The function `parse_command(buf, command)` with a bound on the depth of
its recursion and on the iterations of its loop.  `fresh 0` is what the block
holds that this call gets from `malloc` for the node after a `|`, and
`fresh (i + 1)` is `fresh i` of the call that parses that node.  The result is
the node and the hidden pointer of `strtok` at return; there is none when the
bound is reached and when a token does not fit `temp_buf`. -/
def parse_command_fuel :
    Nat → (Nat → command_t) → List Char → command_t → Option (command_t × List Char)
  | 0, _, _, _ => none
  | fuel + 1, fresh, buf, command =>
    let len := strlen buf
    let (len, buf) := trim_left len buf
    let (len, buf) := trim_right len buf
    let command := set_flags command len buf
    let (pch, save) := strtok buf
    let command := set_name command pch
    match parse_loop (fresh 0) (parse_command_fuel fuel (fun i => fresh (i + 1))) fuel save
        command 0 with
    | none => none
    | some (command, arg_index, save) => some (finish_args command arg_index, save)

/-- The function `parse_command(buf, command)`: the bound is two more than the
length of the memory at `buf`, which is not reached (`parse_fuel_chain`). -/
def parse_command (fresh : Nat → command_t) (buf : List Char) (command : command_t) :
    Option command_t :=
  (parse_command_fuel (buf.length + 2) fresh buf command).map Prod.fst

/-- Blocks from `malloc` that hold zero bytes. -/
def no_junk : Nat → command_t := fun _ => zeroed

/-- The line `s` as `prompt` hands it to `parse_command`: the bytes of `s`,
the terminator, and whatever the buffer holds after it. -/
def line (s : List Char) (beyond : List Char) : List Char := s ++ NUL :: beyond

/-- Number of nodes of a chain. -/
def chain_length : command_t → Nat
  | ⟨_, _, _, _, _, _, _, _, none⟩ => 1
  | ⟨_, _, _, _, _, _, _, _, some c⟩ => chain_length c + 1


/-- The names of the nodes of a chain, in order. -/
def chain_names : command_t → List (List Char)
  | ⟨name, _, _, _, _, _, _, _, none⟩ => [name]
  | ⟨name, _, _, _, _, _, _, _, some c⟩ => name :: chain_names c

/-- A block that held other data before `malloc` returns it for a node: the
bytes of `background`, of `redirects[1]` and of `next` are not zero. -/
def stale_block : command_t :=
  { name := [], background := true, auto_complete := false, arg_count := 0, args := [],
    redirects0 := none, redirects1 := some "old.txt".toList, redirects2 := none,
    next := some { zeroed with name := "gone".toList } }

/-! ## The parser in the words of the specification -/

/-- The pieces of a line between single blanks (space or tab); two adjacent
blanks have an empty piece between them. -/
def split_blank : List Char → List (List Char)
  | [] => [[]]
  | c :: cs =>
    if isSplitter c then [] :: split_blank cs
    else
      match split_blank cs with
      | [] => [[c]]
      | t :: ts => (c :: t) :: ts

/-- The whitespace-separated tokens of a line: tokenizing on whitespace runs,
empty runs skipped. -/
def tokens (s : List Char) : List (List Char) :=
  (split_blank s).filter (fun t => !t.isEmpty)

/-- A token that starts with `<` or `>`. -/
def is_redirect (t : List Char) : Bool :=
  t.head? == some '<' || t.head? == some '>'

/-- A token of length > 2 wrapped in a matching pair of double or single
quotes loses that pair. -/
def strip_quotes (t : List Char) : List Char :=
  if t.length > 2 &&
      ((t.head? == some '"' && t.getLast? == some '"') ||
       (t.head? == some '\'' && t.getLast? == some '\'')) then
    t.tail.dropLast
  else t

/-- The positional arguments among the tokens after the name: every token
that is not exactly `&` and does not start with `<` or `>`, quotes stripped. -/
def positional (ts : List (List Char)) : List (List Char) :=
  (ts.filter (fun t => t != ['&'] && !is_redirect t)).map strip_quotes

/-- The effect of one token, other than the separator, on the node and on
`arg_index`. -/
def arg_step (st : command_t × Nat) (t : List Char) : command_t × Nat :=
  if t = ['&'] then st
  else if t.head? = some '<' then (set_redirect st.1 0 t.tail, st.2)
  else if t.head? = some '>' then
    if t.tail.head? = some '>' then (set_redirect st.1 2 (t.drop 2), st.2)
    else (set_redirect st.1 1 t.tail, st.2)
  else ({ st.1 with args := st.1.args ++ [some (strip_quotes t)] }, st.2 + 1)

/-- The tokens of a segment folded into the node, from left to right. -/
def fold_args (st : command_t × Nat) (ts : List (List Char)) : command_t × Nat :=
  ts.foldl arg_step st

/-- The number of segments the tokens of a line fall into: a token `|` that
is not the first token of its segment ends the segment.  The flag tells
whether the next token is the first of its segment. -/
def count_segments : Bool → List (List Char) → Nat
  | _, [] => 1
  | true, _ :: ts => count_segments false ts
  | false, t :: ts => if t = ['|'] then count_segments true ts + 1 else count_segments false ts

/-- The tokens of a line that `parse_command` copies to `temp_buf` fit: every
token but the first of its segment, the tokens `|` included, has less than
1024 bytes.  The flag tells whether the next token is the first of its
segment. -/
def fits_temp_buf : Bool → List (List Char) → Bool
  | _, [] => true
  | true, _ :: ts => fits_temp_buf false ts
  | false, t :: ts =>
    decide (t.length < TEMP_BUF_SIZE) && fits_temp_buf (decide (t = ['|'])) ts

/-- The last token of a line is a `|` that ends a segment.  The flag tells
whether the next token is the first of its segment. -/
def ends_with_separator : Bool → List (List Char) → Bool
  | _, [] => false
  | true, _ :: ts => ends_with_separator false ts
  | false, t :: ts =>
    if t = ['|'] then ts.isEmpty || ends_with_separator true ts
    else ends_with_separator false ts

/-- The string at `m` does not end in `|` right before a terminator that is
followed by further bytes other than `NUL`: when `parse_command` overwrites
the terminator after a final `|`, what it then reads is an empty string. -/
def terminated_after_pipe (m : List Char) : Prop :=
  ∀ p x, m = p ++ '|' :: NUL :: x → NUL ∉ p → x.headD NUL = NUL

/-- A token that starts with `<`. -/
def is_in (t : List Char) : Bool := t.head? == some '<'

/-- A token that starts with `>>`. -/
def is_append (t : List Char) : Bool := t.head? == some '>' && t.tail.head? == some '>'

/-- A token that starts with `>` but not with `>>`. -/
def is_truncate (t : List Char) : Bool := t.head? == some '>' && !(t.tail.head? == some '>')

/-- The tokens of the first segment of a line after its name: the tokens after
the first one, up to the first token that is exactly `|`. -/
def first_segment (ts : List (List Char)) : List (List Char) :=
  ts.tail.takeWhile (fun t => t != ['|'])

/-! ## The operating system as `process_command` sees it -/

/-- The values of `enum return_codes`, and `EXIT_FAILURE`. -/
def SUCCESS : Nat := 0

/-- The return code `EXIT`. -/
def EXIT : Nat := 1

/-- The return code `UNKNOWN`. -/
def UNKNOWN : Nat := 2

/-- The status `EXIT_FAILURE` of `stdlib.h`. -/
def EXIT_FAILURE : Nat := 1

/-- The flags of the three calls of `open` in `process_command`:
`O_RDONLY`, `O_WRONLY | O_TRUNC | O_CREAT` and `O_WRONLY | O_APPEND | O_CREAT`
(the last two with mode 0666). -/
inductive open_flags where
  | rdonly
  | wronly_trunc_creat
  | wronly_append_creat
  deriving DecidableEq

/-- What an open descriptor refers to: what it referred to when the shell
started, a file opened by path, or an end of the `n`-th pipe. -/
inductive file_ref where
  | inherited (fd : Int)
  | file (path : List Char) (flags : open_flags)
  | pipe_read (n : Nat)
  | pipe_write (n : Nat)
  deriving DecidableEq

/-- A call of the operating system or of the C library, as recorded in the
trace of a run, with its arguments and, where it matters, its result. -/
inductive sys_call where
  | pipe (ret : Int)
  | fork (ret : Int)
  | dup2 (oldfd : Option Int) (newfd : Int)
  | close (fd : Option Int)
  | open_ (path : List Char) (flags : open_flags) (ret : Int)
  | wait (ret : Int)
  | waitpid (pid : Int)
  | chdir (path : Option (List Char)) (ret : Int)
  | access (path : List Char) (ret : Int)
  | execv (path : List Char) (args : List (Option (List Char)))
  | system (command : List Char) (ret : Int)
  | kuhex_dump (filename : Option (List Char)) (group_size : Int)
  | print (text : String)
  | exit (status : Nat)

/-- The state of the operating system around the process that is followed,
with the answers it gives to the calls that can fail.  `fork_results` are
the values the next calls of `fork` return in the process followed (`0`: the
process followed is the child), `pipe_fails` tells of the next calls of `pipe`
whether they fail; when a list is used up the call succeeds.  `children` are
the children of the process that have not been waited for; a call of `wait`
returns when one of them has terminated.  `trace` holds the calls made, the
latest first. -/
structure os where
  fds : List (Int × file_ref)
  children : List Int
  next_pid : Int
  pipes : Nat
  fork_results : List Int
  pipe_fails : List Bool
  opens : List Char → open_flags → Bool
  executable : List Char → Bool
  execv_fails : List Char → Bool
  path : List (List Char)
  chdir_result : Option (List Char) → Int
  proc_modules : Option (List (List Char))
  system_results : List Int
  readlink : Option (List Char)
  proc_psvis_writable : Bool
  proc_psvis : Option (List (List Char))
  dot_file_opens : Bool
  trace : List sys_call

/-- How the run of `process_command` ends in the process followed: it
returns a code to `main`, the process terminates by `exit`, or `execv`
replaces the process image. -/
inductive ending where
  | returns (code : Nat)
  | exits (status : Nat)
  | replaced (path : List Char) (args : List (Option (List Char)))

/-- The record of a call in the trace. -/
def os.log (k : os) (c : sys_call) : os := { k with trace := c :: k.trace }

/-- The lowest descriptor that is not open. -/
def lowest_free (fds : List (Int × file_ref)) : Int :=
  Int.ofNat
    (((List.range (fds.length + 1)).find? (fun n => !(fds.any (fun e => e.1 == Int.ofNat n)))).getD
      fds.length)

/-- The descriptor table without the descriptor `fd`. -/
def drop_fd (fds : List (Int × file_ref)) (fd : Int) : List (Int × file_ref) :=
  fds.filter (fun e => e.1 != fd)

/-- What the descriptor `fd` refers to. -/
def lookup_fd (fds : List (Int × file_ref)) (fd : Int) : Option file_ref :=
  (fds.find? (fun e => e.1 == fd)).map Prod.snd

/-- `pipe(pipefd)`: on success the two lowest free descriptors become the
read end and the write end of a new pipe. -/
def sys_pipe (k : os) (pipefd : Int × Int) : Int × (Int × Int) × os :=
  let (fails, script) :=
    match k.pipe_fails with
    | [] => (false, [])
    | r :: rs => (r, rs)
  let k := { k with pipe_fails := script }
  if !fails then
    let rd := lowest_free k.fds
    let fds := (rd, file_ref.pipe_read k.pipes) :: k.fds
    let wr := lowest_free fds
    let fds := (wr, file_ref.pipe_write k.pipes) :: fds
    (0, (rd, wr), ({ k with fds := fds, pipes := k.pipes + 1 }).log (sys_call.pipe 0))
  else (-1, pipefd, k.log (sys_call.pipe (-1)))

/-- `fork()`: in the parent the new child joins its children, the child has
no children. -/
def sys_fork (k : os) : Int × os :=
  let (ret, script, next_pid) :=
    match k.fork_results with
    | [] => (k.next_pid, [], k.next_pid + 1)
    | r :: rs => (r, rs, k.next_pid)
  let k := { k with fork_results := script, next_pid := next_pid }
  let k := k.log (sys_call.fork ret)
  if ret == 0 then (ret, { k with children := [] })
  else if ret > 0 then (ret, { k with children := k.children ++ [ret] })
  else (ret, k)

/-- `dup2(oldfd, newfd)`; an `oldfd` that is not open leaves the table as it
is.  `none` is a variable that was never assigned. -/
def sys_dup2 (k : os) (oldfd : Option Int) (newfd : Int) : os :=
  let k := k.log (sys_call.dup2 oldfd newfd)
  match oldfd with
  | none => k
  | some fd =>
    match lookup_fd k.fds fd with
    | none => k
    | some r => if fd == newfd then k else { k with fds := (newfd, r) :: drop_fd k.fds newfd }

/-- `close(fd)`. -/
def sys_close (k : os) (fd : Option Int) : os :=
  let k := k.log (sys_call.close fd)
  match fd with
  | none => k
  | some fd => { k with fds := drop_fd k.fds fd }

/-- `open(path, flags, 0666)`: the lowest free descriptor, or -1. -/
def sys_open (k : os) (path : List Char) (flags : open_flags) : Int × os :=
  if k.opens path flags then
    let fd := lowest_free k.fds
    (fd, ({ k with fds := (fd, file_ref.file path flags) :: k.fds }).log
      (sys_call.open_ path flags fd))
  else (-1, k.log (sys_call.open_ path flags (-1)))

/-- `wait(NULL)`: -1 when the process has no child, else the identifier of a
child that has terminated, which is a child no longer. -/
def sys_wait (k : os) : Int × os :=
  match k.children with
  | [] => (-1, k.log (sys_call.wait (-1)))
  | c :: cs => (c, ({ k with children := cs }).log (sys_call.wait c))

/-- `waitpid(pid, NULL, 0)`. -/
def sys_waitpid (k : os) (pid : Int) : os :=
  ({ k with children := k.children.filter (fun c => c != pid) }).log (sys_call.waitpid pid)

/-- `system(command)`. -/
def sys_system (k : os) (command : List Char) : Int × os :=
  let (ret, script) :=
    match k.system_results with
    | [] => ((0 : Int), [])
    | r :: rs => (r, rs)
  (ret, ({ k with system_results := script }).log (sys_call.system command ret))

/-- `atoi`: optional blanks, an optional sign, decimal digits. -/
def atoi_digits : List Char → Int → Int
  | [], acc => acc
  | c :: cs, acc => if c.isDigit then atoi_digits cs (acc * 10 + (c.toNat - '0'.toNat : Nat)) else acc

/-- The function `atoi` of the C library. -/
def atoi (s : List Char) : Int :=
  match s.dropWhile (fun c => c == ' ' || c == '\t' || c == '\n') with
  | '-' :: cs => - atoi_digits cs 0
  | '+' :: cs => atoi_digits cs 0
  | cs => atoi_digits cs 0

/-- `strstr(haystack, needle) != NULL`. -/
def strstr (haystack needle : List Char) : Bool :=
  haystack.tails.any (fun t => needle.isPrefixOf t)

/-! ## `process_command` -/

/-- The loop over the directories of `PATH` in a spawned process:
`execv` on the first `dir/name` that `access` finds executable; `none` when
the loop is left without the process image having been replaced. -/
def search_path (name : List Char) (args : List (Option (List Char))) :
    List (List Char) → os → Option ending × os
  | [], k => (none, k)
  | dir :: dirs, k =>
    let full_path := dir ++ ['/'] ++ name
    if k.executable full_path then
      let k := k.log (sys_call.access full_path 0)
      let k := k.log (sys_call.execv full_path args)
      if k.execv_fails full_path then (none, k)
      else (some (ending.replaced full_path args), k)
    else search_path name args dirs (k.log (sys_call.access full_path (-1)))

/-- The branch `strcmp(command->name, "exit") == 0`. -/
def builtin_exit (k : os) : ending × os :=
  match k.proc_modules with
  | none => (ending.returns EXIT, k.log (sys_call.print "Failed to open /proc/modules"))
  | some lines =>
    let module_loaded := lines.any (fun l => strstr l "mymodule".toList)
    let k := if module_loaded then k.log (sys_call.print "Removing Kernel Module.\n") else k
    if module_loaded then
      let (r, k) := sys_system k "sudo rmmod mymodule".toList
      if r != 0 then
        (ending.returns EXIT, k.log (sys_call.print "Failed to remove psvis kernel module"))
      else (ending.returns EXIT, k)
    else (ending.returns EXIT, k)

/-- The branch `strcmp(command->name, "cd") == 0`. -/
def builtin_cd (command : command_t) (k : os) : ending × os :=
  if command.arg_count > 1 then
    let target := (command.args.getD 1 none)
    let r := k.chdir_result target
    let k := k.log (sys_call.chdir target r)
    let k := if r == -1 then k.log (sys_call.print "cd: error") else k
    (ending.returns SUCCESS, k)
  else (ending.returns SUCCESS, k.log (sys_call.print "cd: missing argument\n"))

/-- The child in the loop over a piped chain (`pid == 0`): standard input
from the previous pipe, standard output to the pipe just made, then the search
of `PATH`. -/
def pipe_child (current_command : command_t) (prev_pipe_read_end : Int)
    (pipefd : Int × Int) (k : os) : ending × os :=
  let k :=
    if prev_pipe_read_end != -1 then
      sys_close (sys_dup2 k (some prev_pipe_read_end) 0) (some prev_pipe_read_end)
    else k
  let k :=
    if current_command.next.isSome then
      sys_close (sys_close (sys_dup2 k (some pipefd.2) 1) (some pipefd.2)) (some pipefd.1)
    else k
  match search_path current_command.name current_command.args k.path k with
  | (some e, k) => (e, k)
  | (none, k) =>
    let k := k.log (sys_call.print "Command execution failed")
    (ending.exits EXIT_FAILURE, k.log (sys_call.exit EXIT_FAILURE))

/-- One turn of the loop `while (current_command != NULL)` of the piped
branch, up to the point where the parent moves on to the next node: the
`pipe` call when there is a next node, the `fork`, and in the parent the two
`close` calls.  The first component is `none` when the loop goes on, and the
ending of the followed process when it does not (a failed `pipe` or `fork`,
or the child); the second is `pipefd` after the turn. -/
def pipe_turn (current_command : command_t) (prev_pipe_read_end : Int) (pipefd : Int × Int)
    (k : os) : Option ending × (Int × Int) × os :=
  -- (result of pipe, pipefd, state)
  let piped :=
    if current_command.next.isSome then sys_pipe k pipefd else ((0 : Int), pipefd, k)
  if piped.1 == -1 then
    (some (ending.returns UNKNOWN), piped.2.1, piped.2.2.log (sys_call.print "Pipe failed"))
  else
    -- (pid, state)
    let forked := sys_fork piped.2.2
    if forked.1 == 0 then
      (some (pipe_child current_command prev_pipe_read_end piped.2.1 forked.2).1, piped.2.1,
        (pipe_child current_command prev_pipe_read_end piped.2.1 forked.2).2)
    else if forked.1 > 0 then
      let k :=
        if current_command.next.isSome then sys_close forked.2 (some piped.2.1.2) else forked.2
      let k :=
        if prev_pipe_read_end != -1 then sys_close k (some prev_pipe_read_end) else k
      (none, piped.2.1, k)
    else
      (some (ending.returns UNKNOWN), piped.2.1, forked.2.log (sys_call.print "Fork failed"))

/-- The loop `while (current_command != NULL)` of the piped branch of
`process_command`: one `pipe_turn` per node, then
`prev_pipe_read_end = pipefd[0]; current_command = current_command->next`.
The first component is `none` when the loop ran to the end of the chain in
the parent. -/
def pipe_loop : command_t → Int → Int × Int → os → Option ending × os
  | ⟨name, background, auto_complete, arg_count, args, r0, r1, r2, none⟩,
      prev_pipe_read_end, pipefd, k =>
    let turn :=
      pipe_turn ⟨name, background, auto_complete, arg_count, args, r0, r1, r2, none⟩
        prev_pipe_read_end pipefd k
    (turn.1, turn.2.2)
  | ⟨name, background, auto_complete, arg_count, args, r0, r1, r2, some c⟩,
      prev_pipe_read_end, pipefd, k =>
    let turn :=
      pipe_turn ⟨name, background, auto_complete, arg_count, args, r0, r1, r2, some c⟩
        prev_pipe_read_end pipefd k
    match turn.1 with
    | some e => (some e, turn.2.2)
    | none => pipe_loop c turn.2.1.1 turn.2.1 turn.2.2

/-- The loop `while (wait(NULL) > 0);`, the list being the children at its
start. -/
def wait_while : List Int → os → os
  | [], k => (sys_wait k).2
  | _ :: cs, k => if (sys_wait k).1 > 0 then wait_while cs (sys_wait k).2 else (sys_wait k).2

/-- The branch `// Handle piping` of `process_command`. -/
def process_piped (command : command_t) (k : os) : ending × os :=
  match pipe_loop command (-1) (0, 0) k with
  | (some e, k) => (e, k)
  | (none, k) => (ending.returns SUCCESS, wait_while k.children k)

/-- One of the three `open` of the first spawned process, for the redirect
target `target` (`none`: `NULL`, nothing is opened): the descriptor variable
(`none`: never assigned), whether the process has reported and called
`exit(EXIT)` because the descriptor equals `EXIT`, and the state after. -/
def open_redirect (target : Option (List Char)) (flags : open_flags) (message : String)
    (k : os) : Option Int × Bool × os :=
  match target with
  | none => (none, false, k)
  | some path =>
    let (fd, k) := sys_open k path flags
    if fd == Int.ofNat EXIT then
      (some fd, true, (k.log (sys_call.print message)).log (sys_call.exit EXIT))
    else (some fd, false, k)

/-- The builtin `kuhex` in the process that runs the command. -/
def run_kuhex (command : command_t) (k : os) : ending × os :=
  if command.arg_count < 3 then
    (ending.returns UNKNOWN,
      k.log (sys_call.print "Usage: kuhex <filename> [-g <group_size>]\n"))
  else
    let filename := command.args.getD 1 none
    if command.arg_count == 5 && command.args.getD 1 none == some ['-', 'g'] then
      let group_size := atoi ((command.args.getD 2 none).getD [])
      if group_size != 1 && group_size != 2 && group_size != 4 && group_size != 8 &&
          group_size != 16 then
        (ending.returns UNKNOWN,
          k.log (sys_call.print "Invalid group size. Supported values: 1, 2, 4, 8, 16.\n"))
      else
        let filename := command.args.getD 3 none
        let k := k.log (sys_call.kuhex_dump filename group_size)
        (ending.exits SUCCESS, k.log (sys_call.exit SUCCESS))
    else
      let k := k.log (sys_call.kuhex_dump filename 1)
      (ending.exits SUCCESS, k.log (sys_call.exit SUCCESS))

/-- `dirname` of a path: the part before its last `/`. -/
def dirname (p : List Char) : List Char :=
  match (p.reverse.dropWhile (fun c => c != '/')).drop 1 with
  | [] => if p.head? == some '/' then ['/'] else ['.']
  | d => d.reverse

/-- The builtin `psvis` in the process that runs the command. -/
def run_psvis (command : command_t) (k : os) : ending × os :=
  if command.arg_count < 3 then
    (ending.returns UNKNOWN, k.log (sys_call.print "Usage: psvis <PID> <output_file>\n"))
  else
    let pid := (command.args.getD 1 none).getD []
    let output_file := (command.args.getD 2 none).getD []
    match k.proc_modules with
    | none => (ending.returns UNKNOWN, k.log (sys_call.print "Failed to open /proc/modules"))
    | some lines =>
      let module_loaded := lines.any (fun l => strstr l "mymodule".toList)
      let k :=
        if module_loaded then k.log (sys_call.print "Kernel Module is already loaded.\n") else k
      match k.readlink with
      | none =>
        (ending.returns UNKNOWN,
          k.log (sys_call.print "Failed to determine the path to the executable"))
      | some exe =>
        let path_to_module := dirname exe ++ "/module/mymodule.ko".toList
        let (failed, k) :=
          if !module_loaded then
            let (r, k) := sys_system k ("sudo insmod ".toList ++ path_to_module)
            (r != 0, k)
          else (false, k)
        if failed then
          (ending.returns UNKNOWN, k.log (sys_call.print "Failed to load psvis kernel module"))
        else if !k.proc_psvis_writable then
          (ending.returns UNKNOWN,
            k.log (sys_call.print "Failed to open /proc/psvis for writing"))
        else
          let _written := pid
          match k.proc_psvis with
          | none =>
            (ending.returns UNKNOWN,
              k.log (sys_call.print "Failed to open /proc/psvis for reading"))
          | some _edges =>
            if !k.dot_file_opens then
              (ending.returns UNKNOWN, k.log (sys_call.print "Failed to create DOT file"))
            else
              let (r, k) :=
                sys_system k ("dot -Tpng process_tree.dot -o ".toList ++ output_file)
              if r != 0 then
                (ending.returns UNKNOWN,
                  k.log (sys_call.print "Failed to generate graph image using Graphviz"))
              else
                let k := k.log (sys_call.print "Process tree visualization saved\n")
                (ending.exits SUCCESS, k.log (sys_call.exit SUCCESS))

/-- The process spawned by the second `fork` (`pid2 == 0`): the
redirections, then a builtin or the search of `PATH`. -/
def run_command (command : command_t) (fd_read fd_write fd_append : Option Int) (k : os) :
    ending × os :=
  let k := if command.redirects0.isSome then sys_close (sys_dup2 k fd_read 0) fd_read else k
  let k := if command.redirects1.isSome then sys_close (sys_dup2 k fd_write 1) fd_write else k
  let k := if command.redirects2.isSome then sys_close (sys_dup2 k fd_append 1) fd_append else k
  if command.name == "kuhex".toList then run_kuhex command k
  else if command.name == "psvis".toList then run_psvis command k
  else
    match search_path command.name command.args k.path k with
    | (some e, k) => (e, k)
    | (none, k) =>
      let k := k.log (sys_call.print "command not found\n")
      (ending.exits EXIT_FAILURE, k.log (sys_call.exit EXIT_FAILURE))

/-- The process spawned by the first `fork` (`pid == 0`) for a command that
is not piped: it opens the redirect targets, spawns the process that runs the
command, waits for it and terminates. -/
def spawned_single (command : command_t) (k : os) : ending × os :=
  let (fd_read, stop, k) :=
    open_redirect command.redirects0 open_flags.rdonly "failed to open input redirect file" k
  if stop then (ending.exits EXIT, k)
  else
    let (fd_write, stop, k) :=
      open_redirect command.redirects1 open_flags.wronly_trunc_creat
        "failed to open write redirect file" k
    if stop then (ending.exits EXIT, k)
    else
      let (fd_append, stop, k) :=
        open_redirect command.redirects2 open_flags.wronly_append_creat
          "failed to open append redirect file" k
      if stop then (ending.exits EXIT, k)
      else
        let (pid2, k) := sys_fork k
        if pid2 == 0 then run_command command fd_read fd_write fd_append k
        else
          let k := sys_waitpid k pid2
          let k := sys_close k fd_read
          let k := sys_close k fd_write
          let k := sys_close k fd_append
          (ending.exits SUCCESS, k.log (sys_call.exit SUCCESS))

/-- The branch of `process_command` for a command that is not piped. -/
def process_single (command : command_t) (k : os) : ending × os :=
  let (pid, k) := sys_fork k
  if pid == 0 then spawned_single command k
  else if command.background then
    (ending.returns SUCCESS, k.log (sys_call.print "Running in background\n"))
  else (ending.returns SUCCESS, (sys_wait k).2)

/-- The function `process_command(command)`, in the process followed. -/
def process_command (command : command_t) (k : os) : ending × os :=
  if command.name == [] then (ending.returns SUCCESS, k)
  else if command.name == "exit".toList then builtin_exit k
  else if command.name == "cd".toList then builtin_cd command k
  else if command.next.isSome then process_piped command k
  else process_single command k

/-- The calls of `open` in a trace, the earliest first: path and flags. -/
def opens_of (trace : List sys_call) : List (List Char × open_flags) :=
  trace.reverse.filterMap (fun c =>
    match c with
    | sys_call.open_ path flags _ => some (path, flags)
    | _ => none)

/-- The number of calls of `pipe` in a trace. -/
def count_pipe (trace : List sys_call) : Nat :=
  (trace.filter (fun c => match c with | sys_call.pipe _ => true | _ => false)).length

/-- The number of calls of `fork` in a trace. -/
def count_fork (trace : List sys_call) : Nat :=
  (trace.filter (fun c => match c with | sys_call.fork _ => true | _ => false)).length

/-- An operating system in which every call succeeds, with the three
standard descriptors open, no child, and an empty trace. -/
def os0 : os :=
  { fds := [(0, file_ref.inherited 0), (1, file_ref.inherited 1), (2, file_ref.inherited 2)],
    children := [], next_pid := 100, pipes := 0, fork_results := [], pipe_fails := [],
    opens := fun _ _ => true, executable := fun p => p.take 5 == "/bin/".toList,
    execv_fails := fun _ => false, path := ["/usr/bin".toList, "/bin".toList],
    chdir_result := fun _ => 0, proc_modules := some [], system_results := [],
    readlink := some "/home/u/shell".toList, proc_psvis_writable := true,
    proc_psvis := some [], dot_file_opens := true, trace := [] }

/-- Every coming call of `pipe` and of `fork` succeeds, `fork` returning in
the parent, and process identifiers are positive. -/
def succeeding (k : os) : Prop :=
  true ∉ k.pipe_fails ∧ (∀ r ∈ k.fork_results, r > 0) ∧ k.next_pid > 0 ∧
    ∀ p ∈ k.children, p > 0

/-- The number of calls of `wait` in a trace that returned a child. -/
def count_reaped (trace : List sys_call) : Nat :=
  (trace.filter (fun c => match c with | sys_call.wait r => r > 0 | _ => false)).length

/-- The chain that `parse_command` builds from the line `a | b | c &` when the
blocks `malloc` returns hold zero bytes. -/
def chain_abc : command_t :=
  (parse_command no_junk (line "a | b | c &".toList []) zeroed).getD zeroed

/-! ## The line editor: `prompt`, `auto_complete`, `list_commands`, `list_files`

The edit buffer `buf` is the list of the bytes from `buf[0]` on: its 4096
bytes and what lies behind them.  Every store through `buf` is recorded with
its byte offset from `buf[0]`, so that a store outside `buf[0 .. 4095]` is
seen in the record; what such a store destroys is not modelled.
`getchar` takes the bytes of a list; when the list is used up the call of
`prompt` has not returned.  The listings that `popen("ls ...")` gives are
inputs. -/

/-- The two bits of `c_lflag` that `prompt` clears. -/
structure termios where
  icanon : Bool
  echo : Bool
  deriving DecidableEq

/-- What completion, the prompt text and the parser take from the
surroundings: `path_listing` has, for each directory of `PATH` in order, the
lines of `ls dir` without their newline (`none` when `popen` fails),
`cwd_listing` the lines of `ls`, `prompt_text` is what `show_prompt` prints,
and `fresh` what the blocks hold that `malloc` returns to `parse_command`. -/
structure surroundings where
  path_listing : List (Option (List (List Char)))
  cwd_listing : Option (List (List Char))
  prompt_text : List Char
  fresh : Nat → command_t

/-- The state of the editor: the memory of `buf`, `index`, the static
`oldbuf`, the attributes of standard input, the offsets of the stores through
`buf` (newest first), and standard output. -/
structure editor where
  buf : List Char
  index : Nat
  oldbuf : List Char
  stdin_termios : termios
  writes : List Int
  out : List Char

/-- `sizeof(buf)` in `prompt`, where `buf` is `char buf[4096]`. -/
def BUF_SIZE : Nat := 4096

/-- `sizeof(buf)` in `list_files`, where `buf` is a `char *` parameter. -/
def sizeof_pointer : Nat := 8

/-- The number of values of `size_t`. -/
def SIZE_MOD : Nat := 2 ^ 64

/-- The read `m[i]`. -/
def peek (m : List Char) (i : Nat) : Char := m.getD i NUL

/-- The store `m[i] = c`, for memory given as a list that reads `NUL` past
its end. -/
def poke (m : List Char) (i : Nat) (c : Char) : List Char :=
  (m ++ List.replicate (i - m.length) NUL).take i ++ c :: m.drop (i + 1)

/-- The store `buf[off] = c` of one byte, recorded; a store before `buf[0]`
leaves the bytes of the model as they are. -/
def editor.store (s : editor) (off : Int) (c : Char) : editor :=
  { s with buf := if 0 ≤ off then poke s.buf off.toNat c else s.buf,
           writes := off :: s.writes }

/-- The stores of consecutive bytes from `buf + off` on. -/
def editor.store_bytes (s : editor) (off : Int) : List Char → editor
  | [] => s
  | c :: cs => (s.store off c).store_bytes (off + 1) cs

/-- Output by `putchar` and `printf`. -/
def editor.print (s : editor) (text : List Char) : editor :=
  { s with out := s.out ++ text }

/-- `strchr(s, c)` for `c` other than `NUL`: the offset of the first `c`
before the terminator. -/
def strchr (s : List Char) (c : Char) : Option Nat :=
  if c ∈ cstr s then some ((cstr s).indexOf c) else none

/-- `strrchr(s, c)` for `c` other than `NUL`: the offset of the last `c`
before the terminator. -/
def strrchr (s : List Char) (c : Char) : Option Nat :=
  if c ∈ cstr s then some ((cstr s).length - 1 - (cstr s).reverse.indexOf c) else none

/-- `strncmp(a, b, n) == 0`. -/
def strncmp_eq : List Char → List Char → Nat → Bool
  | _, _, 0 => true
  | a, b, n + 1 =>
    if a.headD NUL != b.headD NUL then false
    else if a.headD NUL == NUL then true
    else strncmp_eq a.tail b.tail n

/-- The body of the loops over candidate names in `list_commands` and
`list_files`, for one name: `matches` (here `n_matches`) and `match` (here `found`) are
updated, and every match but the first is printed. -/
def scan_line (target : List Char) (st : Nat × List Char × editor) (name : List Char) :
    Nat × List Char × editor :=
  if strncmp_eq name target (strlen target) then
    if st.1 + 1 == 1 then (st.1 + 1, cstr name, st.2.2)
    else (st.1 + 1, st.2.1, st.2.2.print ('\n' :: cstr name))
  else st

/-- The array `builtins` of `list_commands`. -/
def builtins : List (List Char) := ["cd".toList, "exit".toList]

/-- The names `list_commands` looks at, in order: the builtins, then the lines
of the listing of each directory of `PATH` that could be listed. -/
def command_names (env : surroundings) : List (List Char) :=
  builtins ++ (env.path_listing.filterMap id).flatten

/-- `list_commands(target, buf, index)`; the first parameter of the source is
called `prefix` there. -/
def list_commands (target : List Char) (s : editor) (env : surroundings) : editor :=
  let scanned := (command_names env).foldl (scan_line target) (0, [], s)
  let n_matches := scanned.1
  let found := scanned.2.1
  let s := scanned.2.2
  if n_matches ≤ 2 then
    let target_len := strlen target
    let match_len := strlen found
    let off : Int := (s.index : Int) - target_len
    -- strncpy(buf + *index - target_len, match, match_len)
    let s := s.store_bytes off (found.take match_len)
    let s := s.store (off + match_len) ' '
    let s := s.store (off + match_len + 1) NUL
    let s := { s with index := strlen s.buf }
    s.print ('\r' :: cstr s.buf)
  else
    ((s.print ['\n']).print env.prompt_text).print (cstr s.buf)

/-- `snprintf(buf + off, size, "%s ", match)`: at most `size - 1` bytes of the
text and a terminator, nothing when `size` is 0. -/
def snprintf_match (s : editor) (off : Int) (size : Nat) (found : List Char) : editor :=
  if size = 0 then s
  else s.store_bytes off ((cstr found ++ [' ']).take (size - 1) ++ [NUL])

/-- `list_files(target, buf, index)`; the first parameter of the source is
called `prefix` there. -/
def list_files (target : List Char) (s : editor) (env : surroundings) : editor :=
  match env.cwd_listing with
  | none => s
  | some lines =>
    let scanned := lines.foldl (scan_line target) (0, [], s)
    let n_matches := scanned.1
    let found := scanned.2.1
    let s := scanned.2.2
    if n_matches == 1 then
      let target_len := strlen target
      let off : Int := (s.index : Int) - target_len
      -- sizeof(buf) - *index + target_len, in size_t
      let size := (((sizeof_pointer : Int) - s.index + target_len) % SIZE_MOD).toNat
      let s := snprintf_match s off size found
      let s := { s with index := strlen s.buf }
      s.print (cstr (found.drop target_len))
    else if n_matches > 1 then
      ((s.print ['\n']).print env.prompt_text).print (cstr s.buf)
    else
      s.print ("\nNo matches found\n".toList ++ cstr s.buf)

/-- `auto_complete(buf, index)`. -/
def auto_complete (s : editor) (env : surroundings) : editor :=
  let last_token := strrchr s.buf ' '
  let target :=
    match last_token with
    | some i => s.buf.drop (i + 1)
    | none => s.buf
  if (strchr s.buf ' ').isNone then list_commands target s env
  else list_files target s env

/-- `prompt_backspace()`. -/
def prompt_backspace (s : editor) : editor :=
  s.print [Char.ofNat 8, ' ', Char.ofNat 8]

/-- The loop `while (index > 0) { prompt_backspace(); index--; }`. -/
def erase_line : Nat → editor → editor
  | 0, s => { s with index := 0 }
  | n + 1, s => erase_line n (prompt_backspace s)

/-- `strcpy(dst, src)` on memory given as lists. -/
def strcpy (dst src : List Char) : List Char :=
  (cstr src ++ [NUL]) ++ dst.drop ((cstr src).length + 1)

/-- The branch of the loop of `prompt` for the byte 65, which ends an
up-arrow sequence: the line on the screen is erased, `oldbuf` is printed, and
`buf` and `oldbuf` are swapped through `tmpbuf`; `index` becomes the length of
the line recalled. -/
def recall_line (s : editor) : editor :=
  let s := erase_line s.index s
  let s := s.print (cstr s.oldbuf)
  let tmpbuf := strcpy [] s.buf
  let s := s.store_bytes 0 (cstr s.oldbuf ++ [NUL])
  let s := { s with oldbuf := strcpy s.oldbuf tmpbuf }
  { s with index := s.index + strlen s.buf }

/-- The statements `putchar(c); buf[index++] = c;` of the loop of `prompt`. -/
def insert_byte (c : Char) (s : editor) : editor :=
  let s := s.print [c]
  { s.store s.index c with index := s.index + 1 }

/-- The loop `while (1)` of `prompt`, on the bytes `getchar` gives.  The
result is `none` when the bytes are used up before the loop is left;
otherwise its first part is `none` when the loop is left by `break` and the
value returned when it is left by `return`, and its last part the bytes not
read. -/
def prompt_loop (env : surroundings) :
    List Char → editor → Option (Option Nat × editor × List Char)
  | [], _ => none
  | c :: rest, s =>
    if c == Char.ofNat 9 then prompt_loop env rest (auto_complete s env)
    else if c == Char.ofNat 127 then
      prompt_loop env rest
        (if s.index > 0 then { prompt_backspace s with index := s.index - 1 } else s)
    else if c == Char.ofNat 27 || c == Char.ofNat 91 then prompt_loop env rest s
    else if c == Char.ofNat 65 then prompt_loop env rest (recall_line s)
    else
      let s := insert_byte c s
      if s.index ≥ BUF_SIZE - 1 then some (none, s, rest)
      else if c == '\n' then some (none, s, rest)
      else if c == Char.ofNat 4 then some (some EXIT, s, rest)
      else prompt_loop env rest s

/-- The start of `prompt`, up to the loop: the attributes of standard input
with `ICANON` and `ECHO` cleared are set, the prompt text is shown, and
`buf[0] = 0`. -/
def prompt_enter (env : surroundings) (s : editor) : editor :=
  let backup_termios := s.stdin_termios
  let new_termios : termios := { backup_termios with icanon := false, echo := false }
  let s := { s with stdin_termios := new_termios, index := 0 }
  let s := s.print env.prompt_text
  s.store 0 NUL

/-- What `prompt` does to `buf`, `index` and `oldbuf` between the loop and the
call of `parse_command`: a newline at the end is dropped, the terminator is
stored, and the line is copied to `oldbuf`. -/
def prompt_leave (s : editor) : editor :=
  let s :=
    if s.index > 0 && peek s.buf (s.index - 1) == '\n' then { s with index := s.index - 1 }
    else s
  let s := { s.store s.index NUL with index := s.index + 1 }
  { s with oldbuf := strcpy s.oldbuf s.buf }

/-- `prompt(command)` on the bytes `getchar` gives: the value returned, the
node as `parse_command` leaves it (`command` itself when `parse_command` is
not reached), the state, and the bytes not read.  The stores of
`parse_command` into `buf` are not recorded. -/
def prompt (command : command_t) (env : surroundings) (input : List Char) (s : editor) :
    Option (Nat × Option command_t × editor × List Char) :=
  let backup_termios := s.stdin_termios
  match prompt_loop env input (prompt_enter env s) with
  | none => none
  | some (some code, s, rest) => some (code, some command, s, rest)
  | some (none, s, rest) =>
    let s := prompt_leave s
    let parsed := parse_command env.fresh s.buf command
    -- restore the old settings
    some (SUCCESS, parsed, { s with stdin_termios := backup_termios }, rest)

/-- A terminal in its usual mode. -/
def cooked : termios := { icanon := true, echo := true }

/-- The editor before the first call of `prompt`: `oldbuf` is static, so all
zero, and the terminal is in its usual mode; the frame of `prompt` is taken
zero-filled. -/
def editor0 : editor :=
  { buf := [], index := 0, oldbuf := [], stdin_termios := cooked, writes := [], out := [] }

/-- Surroundings with two directories on `PATH`, three files in the current
directory, and blocks from `malloc` that hold zero bytes. -/
def surroundings0 : surroundings :=
  { path_listing := [some ["ls".toList, "cat".toList], some ["grep".toList]],
    cwd_listing := some ["notes.txt".toList, "main.c".toList, "makefile".toList],
    prompt_text := "u@h:/ dash> ".toList,
    fresh := no_junk }

end Shell

/-!
Memory allocator (`comp-304-project-2/starter-code.c`)

Conventions of the embedding.

* A `MemoryBlock *` is `Option Nat`: `none` is `NULL`, `some a` the address of
  a block.  The heap maps the addresses of the live blocks to their contents;
  `malloc` always succeeds and gives an address never used before, from 1 on,
  `free` takes the block out of the heap.  The address 0 is that of no block:
  `some 0` is a pointer that is not `NULL` and designates no block.
* A function that the C program runs to its end returns `Except.ok`; a
  dereference of `NULL` or of an address that is not live is
  `Except.error`.  The loops that follow `next` pointers run on a bound, the
  number of addresses handed out plus one; the bound being reached is an
  error of its own.
* `int` is `Int`; a PID is the list of its characters.  The texts printed are
  recorded without their arguments.
* `strcpy` into the field `PID[10]` has no bound.  The block is laid out as on
  a machine with pointers of 8 bytes: `start`, `size` and `is_free` in the
  bytes 0 to 11, `PID` in 12 to 21, two bytes of padding, `next` in 24 to 31,
  `prev` in 32 to 39.  A PID of 10 or 11 characters ends in the padding; a PID
  of 12 to 27 characters runs over `next`, and from 20 characters on over
  `prev` (`strcpy_PID`); a longer one leaves the block, and what it destroys
  there is not followed: the run ends with `Except.error`.
-/

namespace Allocator

/-- The `struct MemoryBlock`; `is_free` is `true` for 1. -/
structure MemoryBlock where
  start : Int
  size : Int
  is_free : Bool
  PID : List Char
  next : Option Nat
  prev : Option Nat
  deriving DecidableEq

/-- What stops a run of the program model. -/
inductive fault where
  | null_dereference
  | invalid_pointer
  | buffer_overflow
  | out_of_fuel
  deriving DecidableEq

/-- The state of the program: the heap, the number of addresses handed out,
the global `head`, standard output and standard error. -/
structure allocator where
  heap : Nat → Option MemoryBlock
  brk : Nat
  head : Option Nat
  out : List String
  err : List String

/-- The state when the program starts: `head` is `NULL`, and the first address
`malloc` hands out is 1. -/
def start_state : allocator :=
  { heap := fun _ => none, brk := 1, head := none, out := [], err := [] }

/-- A pointer that is not `NULL` and designates no block: what a pointer field
holds when characters have been copied over it. -/
def wild : Option Nat := some 0

/-- `malloc(sizeof(MemoryBlock))`. -/
def malloc (s : allocator) : Nat × allocator := (s.brk, { s with brk := s.brk + 1 })

/-- The contents `b` written to the block at `a`. -/
def allocator.store (s : allocator) (a : Nat) (b : MemoryBlock) : allocator :=
  { s with heap := fun x => if x = a then some b else s.heap x }

/-- `free(a)`. -/
def allocator.free (s : allocator) (a : Nat) : allocator :=
  { s with heap := fun x => if x = a then none else s.heap x }

/-- A read through the pointer `a`. -/
def get (s : allocator) (a : Nat) : Except fault MemoryBlock :=
  match s.heap a with
  | none => Except.error fault.invalid_pointer
  | some b => Except.ok b

/-- An assignment to fields of the block at `a`. -/
def modify (s : allocator) (a : Nat) (f : MemoryBlock → MemoryBlock) : Except fault allocator :=
  match s.heap a with
  | none => Except.error fault.invalid_pointer
  | some b => Except.ok (s.store a (f b))

/-- `printError(error)`. -/
def printError (s : allocator) (error : String) : allocator :=
  { s with err := s.err ++ [error] }

/-- `printf` of a text. -/
def printf (s : allocator) (text : String) : allocator :=
  { s with out := s.out ++ [text] }

/-- `initializeMemory(size)`. -/
def initializeMemory (size : Int) (s : allocator) : allocator :=
  let s1 := (malloc s).2
  { s1.store (malloc s).1
      { start := 0, size := size, is_free := true, PID := [], next := none, prev := none } with
    head := some (malloc s).1 }

/-- The pointer field `next` of a block after `strcpy(block->PID, PID)`, for a
PID of `n` characters, 12 ≤ `n`: with 12 characters the terminator falls on
the first byte of the field, which leaves `NULL` as it is and makes of the
address of a block an address that is not followed (`none` here); with more
characters the field holds characters. -/
def next_after_copy (n : Nat) (next : Option Nat) : Option (Option Nat) :=
  if n = 12 then (if next = none then some none else none) else some wild

/-- The pointer field `prev` of a block after `strcpy(block->PID, PID)`, for a
PID of `n` characters: untouched below 20 characters, then as `next` is from
12 on. -/
def prev_after_copy (n : Nat) (prev : Option Nat) : Option (Option Nat) :=
  if n < 20 then some prev
  else if n = 20 then (if prev = none then some none else none)
  else some wild

/-- `strcpy(block->PID, PID)` on the block `b`, with no later assignment to
the pointer fields of `b`: a PID of less than 12 characters lies in the field
and the padding; one of 12 to 27 characters lies on `next` and, from 20 on, on
`prev` as well, and is read back whole as long as these fields are not
assigned; one of 28 characters or more leaves the block. -/
def strcpy_PID (PID : List Char) (b : MemoryBlock) : Except fault MemoryBlock :=
  if PID.length < 12 then Except.ok { b with PID := PID }
  else if 28 ≤ PID.length then Except.error fault.buffer_overflow
  else
    match next_after_copy PID.length b.next, prev_after_copy PID.length b.prev with
    | some next, some prev => Except.ok { b with PID := PID, next := next, prev := prev }
    | _, _ => Except.error fault.buffer_overflow

/-- `strcpy(new_block->PID, PID)` where `new_block->next` and `new_block->prev`
are assigned afterwards: the characters of the PID.  With 12 characters or
more the assignments overwrite the end of the PID with the bytes of
addresses; what the field then reads as is not followed. -/
def strcpy_PID_new (PID : List Char) : Except fault (List Char) :=
  if PID.length < 12 then Except.ok PID else Except.error fault.buffer_overflow

/-- The loop of `Allocate` that looks for a block, from `current` on with
`best_block` as found so far; `type0` is `type[0]`. -/
def find_block (type0 : Char) (size : Int) :
    Nat → Option Nat → Option Nat → allocator → Except fault (Option Nat)
  | 0, _, _, _ => Except.error fault.out_of_fuel
  | _ + 1, none, best_block, _ => Except.ok best_block
  | fuel + 1, some current, best_block, s =>
    match s.heap current with
    | none => Except.error fault.invalid_pointer
    | some c =>
      if c.is_free && decide (c.size ≥ size) then
        if type0 == 'F' then Except.ok (some current)
        else if type0 == 'B' then
          match best_block with
          | none => find_block type0 size fuel c.next (some current) s
          | some b =>
            match s.heap b with
            | none => Except.error fault.invalid_pointer
            | some best =>
              if c.size < best.size then find_block type0 size fuel c.next (some current) s
              else find_block type0 size fuel c.next best_block s
        else if type0 == 'W' then
          match best_block with
          | none => find_block type0 size fuel c.next (some current) s
          | some b =>
            match s.heap b with
            | none => Except.error fault.invalid_pointer
            | some best =>
              if c.size > best.size then find_block type0 size fuel c.next (some current) s
              else find_block type0 size fuel c.next best_block s
        else find_block type0 size fuel c.next best_block s
      else find_block type0 size fuel c.next best_block s

/-- The branch `// split the block` of `Allocate`. -/
def split_block (PID : List Char) (size : Int) (best_block : Nat) (s : allocator) :
    Except fault allocator :=
  (get s best_block).bind fun best =>
  let new_block := (malloc s).1
  let s := (malloc s).2
  -- new_block->start = best_block->start; ->size = size; ->is_free = 0; PID
  (strcpy_PID_new PID).bind fun pid =>
  -- new_block->next = best_block; new_block->prev = best_block->prev
  let s := s.store new_block
    { start := best.start, size := size, is_free := false, PID := pid,
      next := some best_block, prev := best.prev }
  -- best_block->start += size; best_block->size -= size
  (modify s best_block (fun b => { b with start := b.start + size, size := b.size - size })).bind
    fun s =>
  (match best.prev with
    | none => Except.ok { s with head := some new_block }
    | some p => modify s p (fun b => { b with next := some new_block })).bind fun s =>
  -- best_block->prev = new_block
  modify s best_block (fun b => { b with prev := some new_block })

/-- `Allocate(PID, size, type)`. -/
def Allocate (PID : List Char) (size : Int) (type : List Char) (s : allocator) :
    Except fault allocator :=
  (find_block (type.headD (Char.ofNat 0)) size (s.brk + 1) s.head none s).bind fun found =>
  match found with
  | none => Except.ok (printError s "ERROR: Not enough memory available.")
  | some best_block =>
    (get s best_block).bind fun best =>
    (if best.size == size then
      -- best_block->is_free = 0; strcpy(best_block->PID, PID)
      (strcpy_PID PID { best with is_free := false }).bind fun b =>
      Except.ok (s.store best_block b)
    else split_block PID size best_block s).bind fun s =>
    Except.ok (printf s "Allocated %d bytes to process %s.\n")

/-- The loop of `Deallocate` up to the block it frees: the first block that
is allocated to `PID`. -/
def find_pid (PID : List Char) : Nat → Option Nat → allocator → Except fault (Option Nat)
  | 0, _, _ => Except.error fault.out_of_fuel
  | _ + 1, none, _ => Except.ok none
  | fuel + 1, some current, s =>
    match s.heap current with
    | none => Except.error fault.invalid_pointer
    | some c =>
      if !c.is_free && c.PID == PID then Except.ok (some current)
      else find_pid PID fuel c.next s

/-- The step `// merge with the previous block if it is free` of
`Deallocate`; the result has the new value of `current`. -/
def merge_prev (current : Nat) (s : allocator) : Except fault (Nat × allocator) :=
  (get s current).bind fun c =>
  match c.prev with
  | none => Except.ok (current, s)
  | some prev =>
    (get s prev).bind fun p =>
    if p.is_free then
      -- prev->size += current->size; prev->next = current->next
      (modify s prev (fun b => { b with size := b.size + c.size })).bind fun s =>
      (modify s prev (fun b => { b with next := c.next })).bind fun s =>
      (match c.next with
        | none => Except.ok s
        | some n => modify s n (fun b => { b with prev := some prev })).bind fun s =>
      Except.ok (prev, s.free current)
    else Except.ok (current, s)

/-- The step `// merge with the next block if it is free` of `Deallocate`. -/
def merge_next (current : Nat) (s : allocator) : Except fault allocator :=
  (get s current).bind fun c =>
  match c.next with
  | none => Except.ok s
  | some next =>
    (get s next).bind fun n =>
    if n.is_free then
      -- current->size += next->size; current->next = next->next
      (modify s current (fun b => { b with size := b.size + n.size })).bind fun s =>
      (modify s current (fun b => { b with next := n.next })).bind fun s =>
      (match n.next with
        | none => Except.ok s
        | some nn => modify s nn (fun b => { b with prev := some current })).bind fun s =>
      Except.ok (s.free next)
    else Except.ok s

/-- `Deallocate(PID)`. -/
def Deallocate (PID : List Char) (s : allocator) : Except fault allocator :=
  (find_pid PID (s.brk + 1) s.head s).bind fun found =>
  match found with
  | none => Except.ok (printError s "ERROR: Process ID not found.")
  | some current =>
    -- current->is_free = 1; strcpy(current->PID, "")
    (modify s current (fun b => { b with is_free := true, PID := [] })).bind fun s =>
    (merge_prev current s).bind fun r =>
    (merge_next r.1 r.2).bind fun s =>
    Except.ok (printf s "Deallocated memory from process %s.\n")

/-- The first loop of `Compact`, from `current` on with `hole_size` as summed
so far: free blocks are taken out of the list and freed, allocated blocks are
moved down by `hole_size`.  The result has the final `hole_size`. -/
def compact_loop : Nat → Option Nat → Int → allocator → Except fault (Int × allocator)
  | 0, _, _, _ => Except.error fault.out_of_fuel
  | _ + 1, none, hole_size, s => Except.ok (hole_size, s)
  | fuel + 1, some current, hole_size, s =>
    match s.heap current with
    | none => Except.error fault.invalid_pointer
    | some c =>
      if c.is_free then
        -- if (current->prev != NULL) current->prev->next = current->next;
        -- else head = current->next;
        (match c.prev with
          | some p => modify s p (fun b => { b with next := c.next })
          | none => Except.ok { s with head := c.next }).bind fun s =>
        -- if (current->next != NULL) current->next->prev = current->prev;
        (match c.next with
          | some n => modify s n (fun b => { b with prev := c.prev })
          | none => Except.ok s).bind fun s =>
        compact_loop fuel c.next (hole_size + c.size) (s.free current)
      else
        -- current->start -= hole_size
        compact_loop fuel c.next hole_size
          (s.store current { c with start := c.start - hole_size })

/-- The loop `while (current->next != NULL) current = current->next;` of
`Compact`: the address of the last block. -/
def find_last : Nat → Option Nat → allocator → Except fault Nat
  | 0, _, _ => Except.error fault.out_of_fuel
  | _ + 1, none, _ => Except.error fault.null_dereference
  | fuel + 1, some current, s =>
    match s.heap current with
    | none => Except.error fault.invalid_pointer
    | some c =>
      match c.next with
      | none => Except.ok current
      | some n => find_last fuel (some n) s

/-- `Compact()`. -/
def Compact (s : allocator) : Except fault allocator :=
  let s := printf s "Compacting memory...\n"
  (compact_loop (s.brk + 1) s.head 0 s).bind fun r =>
  let hole_size := r.1
  let s := r.2
  let compact_hole := (malloc s).1
  let s := (malloc s).2
  (find_last (s.brk + 1) s.head s).bind fun current =>
  (get s current).bind fun c =>
  -- compact_hole: size, is_free, next, PID, then start and prev
  let s := s.store compact_hole
    { start := c.start + c.size, size := hole_size, is_free := true, PID := [],
      next := none, prev := some current }
  (modify s current (fun b => { b with next := some compact_hole })).bind fun s =>
  Except.ok (printf s "Compacting is successful\n")

/-- The blocks from `current` on, following `next`, at most `fuel` of them. -/
def walk (heap : Nat → Option MemoryBlock) : Nat → Option Nat → List MemoryBlock
  | 0, _ => []
  | _ + 1, none => []
  | fuel + 1, some a =>
    match heap a with
    | none => []
    | some b => b :: walk heap fuel b.next

/-- The list of the blocks, from `head`. -/
def blocks (s : allocator) : List MemoryBlock := walk s.heap (s.brk + 1) s.head

/-! ## The block list as a list -/

/-- A block without its links. -/
structure block where
  start : Int
  size : Int
  is_free : Bool
  PID : List Char
  deriving DecidableEq

/-- The fields of a block other than its links. -/
def MemoryBlock.view (b : MemoryBlock) : block :=
  { start := b.start, size := b.size, is_free := b.is_free, PID := b.PID }

/-- A stretch of the doubly linked list in the heap: following `next` from the
pointer `cur` one meets the blocks at the addresses of `l`, with the contents
of `l`, and then the pointer `e`; the `prev` of each block is the address of
the block met before it, and `p` for the first. -/
def seg (heap : Nat → Option MemoryBlock) :
    Option Nat → Option Nat → List (Nat × block) → Option Nat → Prop
  | _, cur, [], e => cur = e
  | p, cur, (a, v) :: rest, e =>
    cur = some a ∧ ∃ b, heap a = some b ∧ b.view = v ∧ b.prev = p ∧
      seg heap (some a) b.next rest e

/-- The state holds the block list `l`, given with the addresses of the
blocks: from `head` to `NULL`, the `prev` of each block being the block whose
`next` points to it and that of the first block `NULL`; the blocks are distinct
and were handed out by `malloc`. -/
def represents (s : allocator) (l : List (Nat × block)) : Prop :=
  seg s.heap none s.head l none ∧ (l.map Prod.fst).Nodup ∧ ∀ a ∈ l.map Prod.fst, a < s.brk

/-- The address of the last block of `l`, and `p` when `l` is empty. -/
def last_addr (p : Option Nat) (l : List (Nat × block)) : Option Nat :=
  match l.getLast? with
  | some x => some x.1
  | none => p

/-- The address of the first block of `l`, and `e` when `l` is empty. -/
def first_addr (l : List (Nat × block)) (e : Option Nat) : Option Nat :=
  match l with
  | x :: _ => some x.1
  | [] => e

/-- A free block is large enough for a request. -/
def fits (size : Int) (v : block) : Bool := v.is_free && decide (size ≤ v.size)

/-- The block that the strategy `type0` picks in `l1 ++ v :: l2` for a
request of `size`: for `F` the first free block that is large enough, for `B`
the smallest such block and among equal sizes the earliest, for `W` the
largest such block and among equal sizes the earliest. -/
def picks (type0 : Char) (size : Int) (l1 : List block) (v : block) (l2 : List block) : Prop :=
  fits size v = true ∧
    (type0 = 'F' → ∀ w ∈ l1, fits size w = false) ∧
    (type0 = 'B' → (∀ w ∈ l1, fits size w = true → v.size < w.size) ∧
      ∀ w ∈ l2, fits size w = true → v.size ≤ w.size) ∧
    (type0 = 'W' → (∀ w ∈ l1, fits size w = true → w.size < v.size) ∧
      ∀ w ∈ l2, fits size w = true → w.size ≤ v.size)

/-- The block `v` marked as allocated to `PID`. -/
def taken (PID : List Char) (v : block) : block := { v with is_free := false, PID := PID }

/-- An allocated block of `size` at the start of the block `v`. -/
def split_new (PID : List Char) (size : Int) (v : block) : block :=
  { start := v.start, size := size, is_free := false, PID := PID }

/-- What is left of the block `v` when `size` is cut off at its start. -/
def split_rest (size : Int) (v : block) : block :=
  { v with start := v.start + size, size := v.size - size }

/-- What an allocation of `size` to `PID` makes of the block `v` picked: the
block itself, allocated, when the fit is exact; else an allocated block of
`size` at the start of `v`, followed by the rest of `v`, free. -/
def allocated (PID : List Char) (size : Int) (v : block) : List block :=
  if v.size = size then [taken PID v]
  else [split_new PID size v, split_rest size v]

/-- The loop of `Allocate` on a list: the block picked, `best` being the one
found so far. -/
def choose (type0 : Char) (size : Int) :
    List (Nat × block) → Option (Nat × block) → Option (Nat × block)
  | [], best => best
  | x :: rest, best =>
    if fits size x.2 then
      if type0 == 'F' then some x
      else if type0 == 'B' then
        match best with
        | none => choose type0 size rest (some x)
        | some b => if x.2.size < b.2.size then choose type0 size rest (some x)
          else choose type0 size rest best
      else if type0 == 'W' then
        match best with
        | none => choose type0 size rest (some x)
        | some b => if x.2.size > b.2.size then choose type0 size rest (some x)
          else choose type0 size rest best
      else choose type0 size rest best
    else choose type0 size rest best

/-- The blocks tile the memory of `n` bytes: there is a first block, it starts
at 0, each block starts where the block before it ends, and the sizes add up
to `n`. -/
def tiles (n : Int) (l : List block) : Prop :=
  (∃ v rest, l = v :: rest ∧ v.start = 0) ∧
    (∀ l1 v w l2, l = l1 ++ v :: w :: l2 → w.start = v.start + v.size) ∧
    (l.map (fun v => v.size)).sum = n

/-- The blocks of a list lie one after the other from the address `a` to the
address `e`. -/
def contig : Int → List block → Int → Prop
  | a, [], e => a = e
  | a, v :: rest, e => v.start = a ∧ contig (a + v.size) rest e

/-- The first loop of `Compact` on a list: the allocated blocks, each moved
down by the sizes of the free blocks before it and by `hole`. -/
def compacted (hole : Int) : List (Nat × block) → List (Nat × block)
  | [] => []
  | x :: rest =>
    if x.2.is_free then compacted (hole + x.2.size) rest
    else (x.1, { x.2 with start := x.2.start - hole }) :: compacted hole rest

/-- The sum of `hole` and the sizes of the free blocks of a list. -/
def hole_total (hole : Int) : List (Nat × block) → Int
  | [] => hole
  | x :: rest => if x.2.is_free then hole_total (hole + x.2.size) rest else hole_total hole rest

/-- The states the program reaches from `initializeMemory(n)` by calls of
`Allocate` with a positive size and a PID of less than 12 characters, of
`Deallocate` and of `Compact` that run to their end. -/
inductive reachable (n : Int) : allocator → Prop where
  | init : reachable n (initializeMemory n start_state)
  | allocate (s s' : allocator) (PID : List Char) (size : Int) (type : List Char) :
      reachable n s → 0 < size → PID.length < 12 →
      Allocate PID size type s = Except.ok s' → reachable n s'
  | deallocate (s s' : allocator) (PID : List Char) :
      reachable n s → Deallocate PID s = Except.ok s' → reachable n s'
  | compact (s s' : allocator) :
      reachable n s → Compact s = Except.ok s' → reachable n s'

end Allocator

namespace Shell
/-! ## Facts about strings and tokens -/

theorem NUL_not_splitter : isSplitter NUL = false := by decide

theorem strchr_splitters_eq (c : Char) (h : c ≠ NUL) : strchr_splitters c = isSplitter c := by
  simp [strchr_splitters, isSplitter, h]

theorem cstr_nil : cstr [] = [] := rfl

theorem cstr_cons_NUL (p : List Char) : cstr (NUL :: p) = [] := by
  simp [cstr]

theorem cstr_cons (c : Char) (p : List Char) (h : c ≠ NUL) : cstr (c :: p) = c :: cstr p := by
  simp [cstr, h]

theorem cstr_append (s p : List Char) (h : NUL ∉ s) : cstr (s ++ p) = s ++ cstr p := by
  induction s with
  | nil => rfl
  | cons c s ih =>
    have hc : c ≠ NUL := fun e => h (by simp [e])
    have hs : NUL ∉ s := fun e => h (by simp [e])
    simp [cstr_cons, hc, ih hs]

theorem cstr_line (s beyond : List Char) (h : NUL ∉ s) : cstr (line s beyond) = s := by
  simp [line, cstr_append _ _ h, cstr_cons_NUL]

theorem NUL_not_mem_cstr (p : List Char) : NUL ∉ cstr p := by
  intro h
  have := List.mem_takeWhile_imp h
  simp at this

theorem cstr_of_not_mem (s : List Char) (h : NUL ∉ s) : cstr s = s := by
  have := cstr_append s [] h
  simpa [cstr_nil] using this

theorem split_blank_ne_nil (s : List Char) : split_blank s ≠ [] := by
  cases s with
  | nil => simp [split_blank]
  | cons c cs =>
    simp only [split_blank]
    split
    · simp
    · split <;> simp

theorem split_blank_token (t : List Char) (ht : ∀ c ∈ t, isSplitter c = false)
    (d : Char) (hd : isSplitter d = true) (rest : List Char) :
    split_blank (t ++ d :: rest) = t :: split_blank rest := by
  induction t with
  | nil => simp [split_blank, hd]
  | cons c t ih =>
    have hc : isSplitter c = false := ht c (by simp)
    have := ih (fun x hx => ht x (by simp [hx]))
    simp [split_blank, hc, this]

theorem split_blank_single (t : List Char) (ht : ∀ c ∈ t, isSplitter c = false) :
    split_blank t = [t] := by
  induction t with
  | nil => simp [split_blank]
  | cons c t ih =>
    have hc : isSplitter c = false := ht c (by simp)
    have := ih (fun x hx => ht x (by simp [hx]))
    simp [split_blank, hc, this]

theorem split_blank_snoc (s : List Char) (d : Char) (hd : isSplitter d = true) :
    split_blank (s ++ [d]) = split_blank s ++ [[]] := by
  induction s with
  | nil => simp [split_blank, hd]
  | cons c s ih =>
    by_cases hc : isSplitter c = true
    · simp [split_blank, hc, ih]
    · cases hsp : split_blank s with
      | nil => exact absurd hsp (split_blank_ne_nil s)
      | cons t ts => simp [split_blank, hc, ih, hsp]

theorem tokens_nil : tokens [] = [] := by decide

theorem tokens_cons_splitter (d : Char) (hd : isSplitter d = true) (s : List Char) :
    tokens (d :: s) = tokens s := by
  simp [tokens, split_blank, hd]

theorem tokens_dropWhile (s : List Char) : tokens (s.dropWhile isSplitter) = tokens s := by
  induction s with
  | nil => rfl
  | cons c s ih =>
    by_cases hc : isSplitter c = true
    · rw [List.dropWhile_cons_of_pos hc, ih, tokens_cons_splitter c hc]
    · rw [List.dropWhile_cons_of_neg hc]

theorem tokens_token_cons (t : List Char) (hne : t ≠ []) (ht : ∀ c ∈ t, isSplitter c = false)
    (d : Char) (hd : isSplitter d = true) (rest : List Char) :
    tokens (t ++ d :: rest) = t :: tokens rest := by
  simp [tokens, split_blank_token t ht d hd rest, List.filter_cons, hne]

theorem tokens_single (t : List Char) (hne : t ≠ []) (ht : ∀ c ∈ t, isSplitter c = false) :
    tokens t = [t] := by
  simp [tokens, split_blank_single t ht, List.filter_cons, hne]

theorem tokens_snoc (s : List Char) (d : Char) (hd : isSplitter d = true) :
    tokens (s ++ [d]) = tokens s := by
  simp [tokens, split_blank_snoc s d hd, List.filter_append]

theorem drop_length_takeWhile (p : Char → Bool) (l : List Char) :
    l.drop (l.takeWhile p).length = l.dropWhile p := by
  induction l with
  | nil => rfl
  | cons c l ih =>
    by_cases h : p c = true
    · simp [List.takeWhile_cons_of_pos h, List.dropWhile_cons_of_pos h, ih]
    · simp [List.takeWhile_cons_of_neg h, List.dropWhile_cons_of_neg h]

theorem head_dropWhile_false (p : Char → Bool) (l : List Char) (c : Char) (tl : List Char)
    (h : l.dropWhile p = c :: tl) : p c = false := by
  induction l with
  | nil => simp at h
  | cons a l ih =>
    by_cases ha : p a = true
    · rw [List.dropWhile_cons_of_pos ha] at h; exact ih h
    · rw [List.dropWhile_cons_of_neg ha] at h
      cases h; simpa using ha

theorem strtok_cases (s : List Char) :
    (cstr (s.dropWhile isSplitter) = [] ∧ strtok s = (none, s.dropWhile isSplitter)) ∨
    ∃ tok, tok ≠ [] ∧ (∀ c ∈ tok, isSplitter c = false) ∧ NUL ∉ tok ∧
      ((s.dropWhile isSplitter = tok ∧ strtok s = (some tok, [])) ∨
       (∃ rest, s.dropWhile isSplitter = tok ++ NUL :: rest ∧
          strtok s = (some (tok ++ NUL :: rest), NUL :: rest)) ∨
       (∃ d rest, isSplitter d = true ∧ s.dropWhile isSplitter = tok ++ d :: rest ∧
          strtok s = (some (tok ++ NUL :: rest), rest))) := by
  cases hs1 : s.dropWhile isSplitter with
  | nil => left; simp [strtok, hs1, cstr]
  | cons c tl =>
    by_cases hc : c = NUL
    · left; subst hc; simp [strtok, hs1, cstr]
    · right
      have hcs : isSplitter c = false := head_dropWhile_false _ _ _ _ hs1
      let q : Char → Bool := fun c => !isSplitter c && c != NUL
      have hq : q c = true := by simp [q, hcs, hc]
      refine ⟨(c :: tl).takeWhile q, ?_, ?_, ?_, ?_⟩
      · simp [List.takeWhile_cons_of_pos hq]
      · intro x hx
        have := List.mem_takeWhile_imp hx
        simp [q] at this
        simpa using this.1
      · intro hx
        have := List.mem_takeWhile_imp hx
        simp [q] at this
      · have hsplit : (c :: tl) = (c :: tl).takeWhile q ++ (c :: tl).dropWhile q :=
          (List.takeWhile_append_dropWhile q (c :: tl)).symm
        have hdrop := drop_length_takeWhile q (c :: tl)
        cases hr : (c :: tl).dropWhile q with
        | nil =>
          left
          rw [hr] at hsplit hdrop
          refine ⟨by simpa using hsplit, ?_⟩
          simp only [strtok, hs1]
          have hc' : (c == NUL) = false := by simpa using hc
          simp only [hc', Bool.false_eq_true, if_false]
          show (match List.drop (List.takeWhile q (c :: tl)).length (c :: tl) with
            | [] => (some (List.takeWhile q (c :: tl)), [])
            | e :: rest => if (e == NUL) = true then (some (c :: tl), e :: rest)
                else (some (List.takeWhile q (c :: tl) ++ NUL :: rest), rest)) = _
          rw [hdrop]
        | cons e rest =>
          rw [hr] at hsplit hdrop
          have he : q e = false := head_dropWhile_false _ _ _ _ hr
          have hstr : strtok s = if (e == NUL) = true then (some (c :: tl), e :: rest)
                else (some (List.takeWhile q (c :: tl) ++ NUL :: rest), rest) := by
            simp only [strtok, hs1]
            have hc' : (c == NUL) = false := by simpa using hc
            simp only [hc', Bool.false_eq_true, if_false]
            show (match List.drop (List.takeWhile q (c :: tl)).length (c :: tl) with
              | [] => (some (List.takeWhile q (c :: tl)), [])
              | e :: rest => if (e == NUL) = true then (some (c :: tl), e :: rest)
                  else (some (List.takeWhile q (c :: tl) ++ NUL :: rest), rest)) = _
            rw [hdrop]
          by_cases heN : e = NUL
          · right; left
            subst heN
            refine ⟨rest, hsplit, ?_⟩
            rw [hstr]; simp
            exact hsplit
          · right; right
            have hes : isSplitter e = true := by
              simp [q, heN] at he; exact he
            refine ⟨e, rest, hes, hsplit, ?_⟩
            rw [hstr]; simp [heN]

theorem cstr_dropWhile (s : List Char) :
    cstr (s.dropWhile isSplitter) = (cstr s).dropWhile isSplitter := by
  induction s with
  | nil => rfl
  | cons c s ih =>
    by_cases hc : c = NUL
    · subst hc
      rw [List.dropWhile_cons_of_neg (by simp [NUL_not_splitter]), cstr_cons_NUL]; rfl
    · by_cases hs : isSplitter c = true
      · rw [List.dropWhile_cons_of_pos hs, cstr_cons c s hc, List.dropWhile_cons_of_pos hs, ih]
      · rw [List.dropWhile_cons_of_neg hs, cstr_cons c s hc, List.dropWhile_cons_of_neg hs]

theorem tokens_cstr_dropWhile (s : List Char) :
    tokens (cstr (s.dropWhile isSplitter)) = tokens (cstr s) := by
  rw [cstr_dropWhile, tokens_dropWhile]

theorem length_dropWhile_le (p : Char → Bool) (s : List Char) :
    (s.dropWhile p).length ≤ s.length := by
  induction s with
  | nil => simp
  | cons c s ih =>
    by_cases h : p c = true
    · rw [List.dropWhile_cons_of_pos h]; simp; omega
    · rw [List.dropWhile_cons_of_neg h]

theorem dropWhile_idem (p : Char → Bool) (s : List Char) :
    (s.dropWhile p).dropWhile p = s.dropWhile p := by
  cases h : s.dropWhile p with
  | nil => rfl
  | cons c tl =>
    have := head_dropWhile_false p s c tl h
    rw [List.dropWhile_cons_of_neg (by simp [this])]

/-- What `strtok` returns when the string holds no token. -/
theorem strtok_of_tokens_nil (s : List Char) (h : tokens (cstr s) = []) :
    strtok s = (none, s.dropWhile isSplitter) := by
  rcases strtok_cases s with ⟨_, h2⟩ | ⟨tok, hne, hsp, hnul, hc⟩
  · exact h2
  · exfalso
    rw [← tokens_cstr_dropWhile] at h
    rcases hc with ⟨h1, _⟩ | ⟨rest, h1, _⟩ | ⟨d, rest, hd, h1, _⟩
    · rw [h1, cstr_of_not_mem tok hnul, tokens_single tok hne hsp] at h; simp at h
    · rw [h1, cstr_append tok _ hnul, cstr_cons_NUL, List.append_nil,
        tokens_single tok hne hsp] at h; simp at h
    · have hdN : d ≠ NUL := fun e => by rw [e, NUL_not_splitter] at hd; simp at hd
      rw [h1, cstr_append tok _ hnul, cstr_cons d rest hdN,
        tokens_token_cons tok hne hsp d hd] at h; simp at h

/-- What `strtok` returns when the string holds the tokens `t :: ts`. -/
theorem strtok_of_tokens_cons (s t : List Char) (ts : List (List Char))
    (h : tokens (cstr s) = t :: ts) :
    ∃ pch save, strtok s = (some pch, save) ∧ cstr pch = t ∧ tokens (cstr save) = ts ∧
      save.length < s.length ∧ t ≠ [] ∧ (∀ c ∈ t, isSplitter c = false) ∧ NUL ∉ t := by
  have hlen := length_dropWhile_le isSplitter s
  rcases strtok_cases s with ⟨h1, _⟩ | ⟨tok, hne, hsp, hnul, hc⟩
  · exfalso
    rw [← tokens_cstr_dropWhile, h1, tokens_nil] at h; simp at h
  · rw [← tokens_cstr_dropWhile] at h
    have hpos : 0 < tok.length := List.length_pos.mpr hne
    rcases hc with ⟨h1, h2⟩ | ⟨rest, h1, h2⟩ | ⟨d, rest, hd, h1, h2⟩
    · rw [h1, cstr_of_not_mem tok hnul, tokens_single tok hne hsp] at h
      simp only [List.cons.injEq] at h
      obtain ⟨rfl, rfl⟩ := h
      refine ⟨tok, [], h2, cstr_of_not_mem tok hnul, by simp [cstr_nil, tokens_nil], ?_, hne, hsp, hnul⟩
      rw [h1] at hlen; simp; omega
    · rw [h1, cstr_append tok _ hnul, cstr_cons_NUL, List.append_nil,
        tokens_single tok hne hsp] at h
      simp only [List.cons.injEq] at h
      obtain ⟨rfl, rfl⟩ := h
      refine ⟨_, _, h2, by rw [cstr_append tok _ hnul, cstr_cons_NUL, List.append_nil],
        by rw [cstr_cons_NUL, tokens_nil], ?_, hne, hsp, hnul⟩
      rw [h1] at hlen; simp at hlen ⊢; omega
    · have hdN : d ≠ NUL := fun e => by rw [e, NUL_not_splitter] at hd; simp at hd
      rw [h1, cstr_append tok _ hnul, cstr_cons d rest hdN,
        tokens_token_cons tok hne hsp d hd] at h
      simp only [List.cons.injEq] at h
      obtain ⟨rfl, rfl⟩ := h
      refine ⟨_, _, h2, by rw [cstr_append tok _ hnul, cstr_cons_NUL, List.append_nil],
        rfl, ?_, hne, hsp, hnul⟩
      rw [h1] at hlen; simp at hlen; omega

/-- Once `strtok` has returned `NULL`, it returns `NULL` again. -/
theorem strtok_none_again (s : List Char) (h : tokens (cstr s) = []) :
    strtok (s.dropWhile isSplitter) = (none, s.dropWhile isSplitter) := by
  have := strtok_of_tokens_nil (s.dropWhile isSplitter) (by rw [tokens_cstr_dropWhile, h])
  rw [dropWhile_idem] at this
  exact this

theorem strlen_append_NUL (t rest : List Char) (h : NUL ∉ t) : strlen (t ++ NUL :: rest) = t.length := by
  simp [strlen, cstr_append t _ h, cstr_cons_NUL]

theorem cstr_append_NUL (t rest : List Char) (h : NUL ∉ t) : cstr (t ++ NUL :: rest) = t := by
  simp [cstr_append t _ h, cstr_cons_NUL]

/-- A token is left as it is by the left trim. -/
theorem trim_left_token (a : Char) (t rest : List Char) (ha : strchr_splitters a = false) (n : Nat) :
    trim_left (n + 1) (a :: t ++ rest) = (n + 1, a :: t ++ rest) := by
  simp [trim_left, ha]

/-- A token is left as it is by the right trim. -/
theorem trim_right_token (u : List Char) (z : Char) (rest : List Char)
    (hz : strchr_splitters z = false) :
    trim_right (u.length + 1) (u ++ z :: rest) = (u.length + 1, u ++ z :: rest) := by
  have hg : (u ++ z :: rest).getD u.length NUL = z := by
    rw [List.getD_eq_getElem?_getD, List.getElem?_append_right (Nat.le_refl _)]
    simp
  simp only [trim_right, hg, hz, Bool.false_eq_true, if_false]

theorem strchr_splitters_false (c : Char) (h1 : isSplitter c = false) (h2 : c ≠ NUL) :
    strchr_splitters c = false := by
  rw [strchr_splitters_eq c h2, h1]

theorem exists_snoc (t : List Char) (h : t ≠ []) : ∃ u z, t = u ++ [z] := by
  refine ⟨t.dropLast, t.getLast h, ?_⟩
  exact (List.dropLast_append_getLast h).symm

theorem token_trim_left (t : List Char) (hne : t ≠ []) (hsp : ∀ c ∈ t, isSplitter c = false)
    (hnul : NUL ∉ t) :
    trim_left t.length (t ++ [NUL]) = (t.length, t ++ [NUL]) := by
  cases t with
  | nil => exact absurd rfl hne
  | cons a u =>
    have ha : strchr_splitters a = false :=
      strchr_splitters_false a (hsp a (by simp)) (fun e => hnul (by simp [e]))
    simp [trim_left, ha]

theorem token_trim_right (t : List Char) (hne : t ≠ []) (hsp : ∀ c ∈ t, isSplitter c = false)
    (hnul : NUL ∉ t) :
    trim_right t.length (t ++ [NUL]) = (t.length, t ++ [NUL]) := by
  obtain ⟨u, z, rfl⟩ := exists_snoc t hne
  have hz : strchr_splitters z = false :=
    strchr_splitters_false z (hsp z (by simp)) (fun e => hnul (by simp [e]))
  have := trim_right_token u z [NUL] hz
  simpa using this

theorem redirect_of_token (a : Char) (u : List Char) (hnul : NUL ∉ a :: u) :
    redirect_of (a :: u ++ [NUL]) (u.length + 1) =
      if a = '<' then (some 0, a :: u ++ [NUL], u.length + 1)
      else if a = '>' then
        (if u.head? = some '>' then (some 2, u ++ [NUL], u.length)
         else (some 1, a :: u ++ [NUL], u.length + 1))
      else (none, a :: u ++ [NUL], u.length + 1) := by
  by_cases h1 : a = '<'
  · subst h1; simp [redirect_of]
  · by_cases h2 : a = '>'
    · subst h2
      cases u with
      | nil => simp [redirect_of, NUL]
      | cons b u => 
        by_cases h3 : b = '>'
        · subst h3; simp [redirect_of]
        · simp [redirect_of, h3]
    · simp [redirect_of, h1, h2]

theorem cstr_unquote_token (t : List Char) (hnul : NUL ∉ t) :
    cstr (unquote (t ++ [NUL]) t.length) = strip_quotes t := by
  cases t with
  | nil => simp [unquote, strip_quotes, cstr]
  | cons a t' =>
    by_cases hne : t' = []
    · subst hne
      have := cstr_append_NUL [a] [] hnul
      simpa [unquote, strip_quotes] using this
    · obtain ⟨u, z, rfl⟩ := exists_snoc t' hne
      have hg : (a :: (u ++ [z]) ++ [NUL]).getD ((a :: (u ++ [z])).length - 1) NUL = z := by
        have : a :: (u ++ [z]) ++ [NUL] = (a :: u) ++ z :: [NUL] := by simp
        rw [this, List.getD_eq_getElem?_getD, List.getElem?_append_right (by simp)]
        simp
      have hset : ((a :: (u ++ [z]) ++ [NUL]).set ((a :: (u ++ [z])).length - 1) NUL).tail
          = u ++ NUL :: [NUL] := by
        have : a :: (u ++ [z]) ++ [NUL] = (a :: u) ++ z :: [NUL] := by simp
        rw [this]
        have hl : (a :: (u ++ [z])).length - 1 = (a :: u).length := by simp
        rw [hl, List.set_append_right _ _ (Nat.le_refl _)]
        simp
      have hu : NUL ∉ u := fun e => hnul (by simp [e])
      have hlast : (a :: (u ++ [z])).getLast? = some z := by
        have : a :: (u ++ [z]) = (a :: u) ++ [z] := by simp
        rw [this, List.getLast?_append]; simp
      have hdl : (u ++ [z]).dropLast = u := by simp
      unfold unquote strip_quotes
      rw [hg, hlast]
      simp only [List.headD_cons, List.cons_append, List.head?_cons, List.tail_cons, hdl]
      by_cases hc : (decide ((a :: (u ++ [z])).length > 2) &&
          ((a == '"' && z == '"') || (a == '\'' && z == '\''))) = true
      · have hc' : (decide ((a :: (u ++ [z])).length > 2) &&
          ((some a == some '"' && some z == some '"') ||
            (some a == some '\'' && some z == some '\''))) = true := by
          simpa using hc
        rw [if_pos hc, if_pos hc']
        have := hset
        simp only [List.cons_append] at this
        rw [this]
        exact cstr_append_NUL u [NUL] hu
      · have hc' : ¬ (decide ((a :: (u ++ [z])).length > 2) &&
          ((some a == some '"' && some z == some '"') ||
            (some a == some '\'' && some z == some '\''))) = true := by
          simpa using hc
        rw [if_neg hc, if_neg hc']
        have := cstr_append_NUL (a :: (u ++ [z])) [] hnul
        simpa using this

theorem parse_loop_step (node : command_t)
    (parse : List Char → command_t → Option (command_t × List Char))
    (fuel : Nat) (s pch save t : List Char) (command : command_t) (arg_index : Nat)
    (hst : strtok s = (some pch, save)) (hpch : cstr pch = t)
    (hne : t ≠ []) (hsp : ∀ c ∈ t, isSplitter c = false) (hnul : NUL ∉ t)
    (hpipe : t ≠ ['|']) (hfit : t.length < TEMP_BUF_SIZE) :
    parse_loop node parse (fuel + 1) s command arg_index =
      parse_loop node parse fuel save (arg_step (command, arg_index) t).1
        (arg_step (command, arg_index) t).2 := by
  have hlen : strlen (t ++ [NUL]) = t.length := strlen_append_NUL t [] hnul
  have hpos : (t.length == 0) = false := by
    cases t with
    | nil => exact absurd rfl hne
    | cons a u => simp
  have hcs : cstr (t ++ [NUL]) = t := cstr_append_NUL t [] hnul
  have hp : (t == ['|']) = false := by simpa using hpipe
  have huq := cstr_unquote_token t hnul
  have hroom : ¬ (TEMP_BUF_SIZE < strlen pch + 1) := by
    unfold strlen; rw [hpch]; omega
  simp only [parse_loop, hst, hroom, if_false, hpch, hlen, token_trim_left t hne hsp hnul,
    token_trim_right t hne hsp hnul, hcs, hpos, hp, Bool.false_eq_true, if_false]
  by_cases hamp : t = ['&']
  · subst hamp; simp [arg_step]
  · have ha : (t == ['&']) = false := by simpa using hamp
    simp only [ha, Bool.false_eq_true, if_false]
    cases t with
    | nil => exact absurd rfl hne
    | cons a u =>
      have hri := redirect_of_token a u hnul
      simp only [List.cons_append, List.length_cons] at hri huq ⊢
      rw [hri]
      by_cases h1 : a = '<'
      · subst h1
        have : cstr (u ++ [NUL]) = u := cstr_append_NUL u [] (fun e => hnul (by simp [e]))
        simp [arg_step, hamp, set_redirect, this]
      · by_cases h2 : a = '>'
        · subst h2
          cases u with
          | nil => simp [arg_step, set_redirect, cstr]
          | cons b v =>
            have hv : cstr (v ++ [NUL]) = v :=
              cstr_append_NUL v [] (fun e => hnul (by simp [e]))
            have hbv : cstr (b :: (v ++ [NUL])) = b :: v := by
              have := cstr_append_NUL (b :: v) [] (fun e => hnul (List.mem_cons_of_mem _ e))
              simpa using this
            by_cases h3 : b = '>'
            · subst h3
              simp [arg_step, set_redirect, hv]
            · simp [arg_step, set_redirect, h3, hbv]
        · simp only [if_neg h1, if_neg h2]
          rw [huq]
          simp [arg_step, hamp, h1, h2]

theorem NUL_not_mem_takeWhile_splitter (s : List Char) : NUL ∉ s.takeWhile isSplitter := by
  intro h
  have := List.mem_takeWhile_imp h
  rw [NUL_not_splitter] at this
  simp at this

/-- The hidden pointer after a successful `strtok` is a suffix of the scanned
memory, and no terminator lies before it. -/
theorem strtok_suffix (s pch save : List Char) (h : strtok s = (some pch, save)) :
    ∃ q, NUL ∉ q ∧ s = q ++ save := by
  have hs : s = s.takeWhile isSplitter ++ s.dropWhile isSplitter :=
    (List.takeWhile_append_dropWhile isSplitter s).symm
  have hl := NUL_not_mem_takeWhile_splitter s
  rcases strtok_cases s with ⟨_, h2⟩ | ⟨tok, hne, hsp, hnul, hc⟩
  · rw [h2] at h; simp at h
  · rcases hc with ⟨h1, h2⟩ | ⟨rest, h1, h2⟩ | ⟨d, rest, hd, h1, h2⟩
    · rw [h2] at h; simp only [Prod.mk.injEq] at h
      refine ⟨s, ?_, by rw [← h.2]; simp⟩
      rw [hs, h1]; simp [hl, hnul]
    · rw [h2] at h; simp only [Prod.mk.injEq] at h
      refine ⟨s.takeWhile isSplitter ++ tok, by simp [hl, hnul], ?_⟩
      rw [← h.2, List.append_assoc, ← h1]; exact hs
    · rw [h2] at h; simp only [Prod.mk.injEq] at h
      have hdN : d ≠ NUL := fun e => by rw [e, NUL_not_splitter] at hd; simp at hd
      refine ⟨s.takeWhile isSplitter ++ tok ++ [d], ?_, ?_⟩
      · simp [hl, hnul]; exact fun e => hdN e.symm
      · rw [← h.2]
        have : s.takeWhile isSplitter ++ tok ++ [d] ++ rest
            = s.takeWhile isSplitter ++ (tok ++ d :: rest) := by simp
        rw [this, ← h1]; exact hs

theorem loop_prefix (node : command_t)
    (parse : List Char → command_t → Option (command_t × List Char))
    (pre : List (List Char)) :
    ∀ (s : List Char) (command : command_t) (arg_index : Nat) (rest : List (List Char)),
      tokens (cstr s) = pre ++ rest → ['|'] ∉ pre →
      (∀ t ∈ pre, t.length < TEMP_BUF_SIZE) →
      ∃ s', (∃ q, NUL ∉ q ∧ s = q ++ s') ∧ tokens (cstr s') = rest ∧
        s'.length + pre.length ≤ s.length ∧
        ∀ k, parse_loop node parse (k + pre.length) s command arg_index =
          parse_loop node parse k s' (fold_args (command, arg_index) pre).1
            (fold_args (command, arg_index) pre).2 := by
  induction pre with
  | nil =>
    intro s command arg_index rest h _ _
    exact ⟨s, ⟨[], by simp, by simp⟩, by simpa using h, by simp, fun k => by simp [fold_args]⟩
  | cons t pre ih =>
    intro s command arg_index rest h hp hfit
    obtain ⟨pch, save, hst, hpch, htk, hlen, hne, hsp, hnul⟩ :=
      strtok_of_tokens_cons s t (pre ++ rest) (by simpa using h)
    obtain ⟨q1, hq1, hs1⟩ := strtok_suffix s pch save hst
    have ht : t ≠ ['|'] := fun e => hp (by simp [e])
    have hp' : ['|'] ∉ pre := fun e => hp (by simp [e])
    obtain ⟨s', ⟨q2, hq2, hs2⟩, htk', hlen', hloop⟩ :=
      ih save (arg_step (command, arg_index) t).1 (arg_step (command, arg_index) t).2 rest htk hp'
        (fun u hu => hfit u (List.mem_cons_of_mem _ hu))
    refine ⟨s', ⟨q1 ++ q2, by simp [hq1, hq2], by rw [hs1, hs2]; simp⟩, htk', ?_, ?_⟩
    · simp; omega
    · intro k
      have := parse_loop_step node parse (k + pre.length) s pch save t command arg_index
        hst hpch hne hsp hnul ht (hfit t (List.mem_cons_self _ _))
      rw [show k + (t :: pre).length = k + pre.length + 1 by simp; omega, this, hloop k]
      simp [fold_args]

/-! ## The trimming loops -/

theorem strlen_cons_NUL (p : List Char) : strlen (NUL :: p) = 0 := by
  simp [strlen, cstr_cons_NUL]

theorem strlen_cons (c : Char) (p : List Char) (h : c ≠ NUL) :
    strlen (c :: p) = strlen p + 1 := by
  simp [strlen, cstr_cons c p h]

/-- The left trim drops the leading blanks and keeps `len = strlen(buf)`. -/
theorem trim_left_spec (m : List Char) :
    trim_left (strlen m) m = (strlen (m.dropWhile isSplitter), m.dropWhile isSplitter) := by
  induction m with
  | nil => simp [strlen, cstr, trim_left]
  | cons c m ih =>
    by_cases hc : c = NUL
    · subst hc
      rw [List.dropWhile_cons_of_neg (by simp [NUL_not_splitter]), strlen_cons_NUL]
      rfl
    · rw [strlen_cons c m hc]
      by_cases hs : isSplitter c = true
      · rw [List.dropWhile_cons_of_pos hs]
        simp only [trim_left, List.headD_cons, strchr_splitters_eq c hc, hs, if_true,
          List.tail_cons]
        exact ih
      · rw [List.dropWhile_cons_of_neg hs, strlen_cons c m hc]
        simp only [trim_left, List.headD_cons, strchr_splitters_eq c hc, hs]
        simp

/-- The right trim overwrites the trailing blanks of the string by `NUL`. -/
theorem trim_right_spec (xs : List Char) :
    ∀ rest : List Char, NUL ∉ xs →
      trim_right xs.length (xs ++ rest) =
        ((xs.rdropWhile isSplitter).length,
          xs.rdropWhile isSplitter ++
            List.replicate (xs.length - (xs.rdropWhile isSplitter).length) NUL ++ rest) := by
  induction xs using List.reverseRecOn with
  | nil => intro rest _; simp [trim_right]
  | append_singleton xs c ih =>
    intro rest hnul
    have hc : c ≠ NUL := fun e => hnul (by simp [e])
    have hxs : NUL ∉ xs := fun e => hnul (by simp [e])
    have hg : (xs ++ [c] ++ rest).getD xs.length NUL = c := by
      rw [List.append_assoc, List.getD_eq_getElem?_getD,
        List.getElem?_append_right (Nat.le_refl _)]
      simp
    have hlen : (xs ++ [c]).length = xs.length + 1 := by simp
    rw [hlen]
    simp only [trim_right, hg, strchr_splitters_eq c hc]
    by_cases hs : isSplitter c = true
    · have hset : (xs ++ [c] ++ rest).set xs.length NUL = xs ++ NUL :: rest := by
        rw [List.append_assoc, List.set_append_right _ _ (Nat.le_refl _)]
        simp
      rw [if_pos hs, hset, ih (NUL :: rest) hxs, List.rdropWhile_concat_pos _ _ _ hs]
      have hle : (xs.rdropWhile isSplitter).length ≤ xs.length :=
        (List.rdropWhile_prefix isSplitter xs).length_le
      have : xs.length + 1 - (xs.rdropWhile isSplitter).length
          = (xs.length - (xs.rdropWhile isSplitter).length) + 1 := by omega
      rw [this, List.replicate_succ']
      simp
    · rw [if_neg hs, List.rdropWhile_concat_neg _ _ _ hs]
      simp

theorem tokens_rdropWhile (xs : List Char) : tokens (xs.rdropWhile isSplitter) = tokens xs := by
  induction xs using List.reverseRecOn with
  | nil => simp [List.rdropWhile]
  | append_singleton xs c ih =>
    by_cases hs : isSplitter c = true
    · rw [List.rdropWhile_concat_pos _ _ _ hs, ih, tokens_snoc xs c hs]
    · rw [List.rdropWhile_concat_neg _ _ _ hs]

theorem append_cstr_drop (m : List Char) : m = cstr m ++ m.drop (strlen m) := by
  unfold strlen cstr
  rw [drop_length_takeWhile]
  exact (List.takeWhile_append_dropWhile _ m).symm

theorem NUL_not_mem_rdropWhile (xs : List Char) (h : NUL ∉ xs) :
    NUL ∉ xs.rdropWhile isSplitter :=
  fun e => h ((List.rdropWhile_prefix isSplitter xs).subset e)

theorem cstr_drop_strlen (m : List Char) : cstr (m.drop (strlen m)) = [] := by
  induction m with
  | nil => rfl
  | cons c m ih =>
    by_cases hc : c = NUL
    · subst hc; simp [strlen_cons_NUL, cstr_cons_NUL]
    · simp [strlen_cons c m hc, ih]

/-- The two trims together, on the memory at `buf`: the string that is left
is the old one without its leading and trailing blanks. -/
theorem trims_spec (m : List Char) :
    ∃ len m', trim_right (trim_left (strlen m) m).1 (trim_left (strlen m) m).2 = (len, m') ∧
      cstr m' = ((cstr m).dropWhile isSplitter).rdropWhile isSplitter ∧
      len = strlen m' ∧ m'.length ≤ m.length := by
  rw [trim_left_spec]
  set m1 := m.dropWhile isSplitter with hm1
  have hdec := append_cstr_drop m1
  have hn := NUL_not_mem_cstr m1
  have hspec := trim_right_spec (cstr m1) (m1.drop (strlen m1)) hn
  rw [← hdec] at hspec
  have hcs : cstr (List.rdropWhile isSplitter (cstr m1) ++
      List.replicate ((cstr m1).length - (List.rdropWhile isSplitter (cstr m1)).length) NUL ++
        List.drop (strlen m1) m1) = List.rdropWhile isSplitter (cstr m1) := by
    rw [List.append_assoc, cstr_append _ _ (NUL_not_mem_rdropWhile _ hn)]
    have : cstr (List.replicate ((cstr m1).length - (List.rdropWhile isSplitter (cstr m1)).length) NUL
        ++ List.drop (strlen m1) m1) = [] := by
      cases h : (cstr m1).length - (List.rdropWhile isSplitter (cstr m1)).length with
      | zero => simpa using cstr_drop_strlen m1
      | succ n => simp [List.replicate_succ, cstr_cons_NUL]
    rw [this]; simp
  refine ⟨_, _, hspec, ?_, ?_, ?_⟩
  · rw [hcs, hm1, cstr_dropWhile]
  · rw [show ∀ p, strlen p = (cstr p).length from fun _ => rfl, hcs]
  · have hle : (List.rdropWhile isSplitter (cstr m1)).length ≤ (cstr m1).length :=
      (List.rdropWhile_prefix isSplitter _).length_le
    have h1 : m1.length ≤ m.length := length_dropWhile_le _ _
    have h2 : m1.length = (cstr m1).length + (m1.drop (strlen m1)).length := by
      conv_lhs => rw [hdec]
      simp
    simp only [List.length_append, List.length_replicate]
    omega

theorem tokens_trims (m : List Char) :
    tokens (((cstr m).dropWhile isSplitter).rdropWhile isSplitter) = tokens (cstr m) := by
  rw [tokens_rdropWhile, tokens_dropWhile]

/-! ## The argument vector -/

theorem arg_step_name (st : command_t × Nat) (t : List Char) :
    (arg_step st t).1.name = st.1.name := by
  unfold arg_step
  split_ifs <;> simp [set_redirect]

theorem arg_step_next (st : command_t × Nat) (t : List Char) :
    (arg_step st t).1.next = st.1.next := by
  unfold arg_step
  split_ifs <;> simp [set_redirect]

theorem arg_step_args (st : command_t × Nat) (t : List Char) :
    (arg_step st t).1.args = st.1.args ++ (positional [t]).map some ∧
      (arg_step st t).2 = st.2 + (positional [t]).length := by
  unfold arg_step positional is_redirect
  by_cases h0 : t = ['&']
  · subst h0; simp
  · by_cases h1 : t.head? = some '<'
    · simp [h0, h1, set_redirect]
    · by_cases h2 : t.head? = some '>'
      · simp only [h0, h1, h2, if_false, if_true]
        split_ifs <;> simp [set_redirect, h1, h2]
      · simp [h0, h1, h2]

theorem positional_cons (t : List Char) (ts : List (List Char)) :
    positional (t :: ts) = positional [t] ++ positional ts := by
  unfold positional
  by_cases h : (t != ['&'] && !is_redirect t) = true
  · simp [List.filter_cons, h]
  · simp [List.filter_cons, h]

theorem fold_args_name (ts : List (List Char)) :
    ∀ st : command_t × Nat, (fold_args st ts).1.name = st.1.name := by
  induction ts with
  | nil => intro st; rfl
  | cons t ts ih =>
    intro st
    show (fold_args (arg_step st t) ts).1.name = _
    rw [ih, arg_step_name]

theorem fold_args_next (ts : List (List Char)) :
    ∀ st : command_t × Nat, (fold_args st ts).1.next = st.1.next := by
  induction ts with
  | nil => intro st; rfl
  | cons t ts ih =>
    intro st
    show (fold_args (arg_step st t) ts).1.next = _
    rw [ih, arg_step_next]

theorem fold_args_args (ts : List (List Char)) :
    ∀ st : command_t × Nat,
      (fold_args st ts).1.args = st.1.args ++ (positional ts).map some ∧
        (fold_args st ts).2 = st.2 + (positional ts).length := by
  induction ts with
  | nil => intro st; simp [fold_args, positional]
  | cons t ts ih =>
    intro st
    show (fold_args (arg_step st t) ts).1.args = _ ∧ (fold_args (arg_step st t) ts).2 = _
    obtain ⟨h1, h2⟩ := ih (arg_step st t)
    obtain ⟨h3, h4⟩ := arg_step_args st t
    rw [h1, h2, h3, h4, positional_cons t ts]
    simp [Nat.add_assoc]

/-- Entry `j` of the vector after the shifting loop started at `k`. -/
theorem shift_args_getElem? (k : Nat) :
    ∀ (l : List (Option (List Char))) (j : Nat), k < l.length →
      (shift_args k l)[j]? = if 1 ≤ j ∧ j ≤ k then l[j - 1]? else l[j]? := by
  induction k with
  | zero =>
    intro l j _
    have : ¬ (1 ≤ j ∧ j ≤ 0) := by omega
    rw [shift_args, if_neg this]
  | succ k ih =>
    intro l j hk
    have hk' : k < (l.set (k + 1) (l.getD k none)).length := by simp; omega
    rw [shift_args, ih _ j hk']
    have hgk : l.getD k none = l[k] := by
      rw [List.getD_eq_getElem?_getD, List.getElem?_eq_getElem (by omega)]; rfl
    by_cases h1 : 1 ≤ j ∧ j ≤ k
    · have h2 : 1 ≤ j ∧ j ≤ k + 1 := by omega
      rw [if_pos h1, if_pos h2, List.getElem?_set_ne (by omega)]
    · rw [if_neg h1]
      by_cases h3 : j = k + 1
      · subst h3
        rw [if_pos (by omega), List.getElem?_set_eq_of_lt _ hk, hgk]
        simp
      · rw [if_neg (by omega), List.getElem?_set_ne (by omega)]

theorem shift_args_length (k : Nat) :
    ∀ l : List (Option (List Char)), (shift_args k l).length = l.length := by
  induction k with
  | zero => intro l; rfl
  | succ k ih => intro l; rw [shift_args, ih]; simp

/-- The argument vector the final statements of `parse_command` build:
the name, the arguments stored by the loop, `NULL`. -/
theorem finish_args_args (command : command_t) :
    (finish_args command command.args.length).args
      = some command.name :: command.args ++ [none] := by
  unfold finish_args
  simp only [Nat.add_sub_cancel, show command.args.length + 2 - 1 = command.args.length + 1 from rfl]
  apply List.ext_getElem?
  intro j
  have hlen : command.args.length < (command.args ++ [none, none]).length := by simp
  rw [List.getElem?_set, List.getElem?_set, shift_args_getElem? _ _ _ hlen]
  simp only [List.length_set, shift_args_length, List.length_append, List.length_cons,
    List.length_nil]
  by_cases hj1 : command.args.length + 1 = j
  · subst hj1
    simp
  · rw [if_neg hj1]
    by_cases hj0 : 0 = j
    · subst hj0; simp
    · rw [if_neg hj0]
      by_cases hj : 1 ≤ j ∧ j ≤ command.args.length
      · rw [if_pos hj]
        obtain ⟨i, rfl⟩ : ∃ i, j = i + 1 := ⟨j - 1, by omega⟩
        have hi : i < command.args.length := by omega
        simp [List.getElem?_append_left hi]
      · rw [if_neg hj]
        have h2 : command.args.length + 2 ≤ j := by omega
        rw [List.getElem?_eq_none (by simp; omega), List.getElem?_eq_none (by simp; omega)]

theorem finish_args_fields (command : command_t) (i : Nat) :
    (finish_args command i).name = command.name ∧
      (finish_args command i).next = command.next ∧
      (finish_args command i).arg_count = i + 2 ∧
      (finish_args command i).redirects0 = command.redirects0 ∧
      (finish_args command i).redirects1 = command.redirects1 ∧
      (finish_args command i).redirects2 = command.redirects2 ∧
      (finish_args command i).background = command.background ∧
      (finish_args command i).auto_complete = command.auto_complete := by
  simp [finish_args]

/-! ## Lines without a separator -/

theorem parse_loop_done (node : command_t)
    (parse : List Char → command_t → Option (command_t × List Char))
    (k : Nat) (s : List Char) (command : command_t) (i : Nat) (h : tokens (cstr s) = []) :
    parse_loop node parse (k + 1) s command i = some (command, i, s.dropWhile isSplitter) := by
  simp only [parse_loop, strtok_of_tokens_nil s h]

/-- The loop on a string none of whose tokens is `|`: every token is folded
into the node, and `strtok` is left exhausted. -/
theorem loop_no_pipe (node : command_t)
    (parse : List Char → command_t → Option (command_t × List Char))
    (f : Nat) (s : List Char) (command : command_t) (i : Nat)
    (hf : s.length < f) (hp : ['|'] ∉ tokens (cstr s))
    (hfit : ∀ t ∈ tokens (cstr s), t.length < TEMP_BUF_SIZE) :
    ∃ sv, parse_loop node parse f s command i =
        some ((fold_args (command, i) (tokens (cstr s))).1,
          (fold_args (command, i) (tokens (cstr s))).2, sv) ∧
      strtok sv = (none, sv) := by
  obtain ⟨s', _, htk, hlen, hloop⟩ :=
    loop_prefix node parse (tokens (cstr s)) s command i [] (by simp) hp hfit
  obtain ⟨k, hk⟩ : ∃ k, f = (k + 1) + (tokens (cstr s)).length :=
    ⟨f - (tokens (cstr s)).length - 1, by omega⟩
  refine ⟨s'.dropWhile isSplitter, ?_, strtok_none_again s' htk⟩
  rw [hk, hloop (k + 1), parse_loop_done node parse k s' _ _ htk]

theorem parse_command_fuel_succ (f : Nat) (fresh : Nat → command_t) (m : List Char) (command : command_t)
    (len : Nat) (m' : List Char)
    (ht : trim_right (trim_left (strlen m) m).1 (trim_left (strlen m) m).2 = (len, m')) :
    parse_command_fuel (f + 1) fresh m command =
      match parse_loop (fresh 0) (parse_command_fuel f (fun i => fresh (i + 1))) f (strtok m').2
          (set_name (set_flags command len m') (strtok m').1) 0 with
      | none => none
      | some (command, arg_index, save) => some (finish_args command arg_index, save) := by
  simp only [parse_command_fuel]
  rw [ht]

theorem set_flags_fields (command : command_t) (len : Nat) (buf : List Char) :
    (set_flags command len buf).next = command.next ∧
    (set_flags command len buf).redirects0 = command.redirects0 ∧
    (set_flags command len buf).redirects1 = command.redirects1 ∧
    (set_flags command len buf).redirects2 = command.redirects2 := by
  unfold set_flags
  split_ifs <;> simp

theorem set_name_fields (command : command_t) (pch : Option (List Char)) :
    (set_name command pch).next = command.next ∧
    (set_name command pch).args = [] ∧
    (set_name command pch).name = (pch.map cstr).getD [] ∧
    (set_name command pch).redirects0 = command.redirects0 ∧
    (set_name command pch).redirects1 = command.redirects1 ∧
    (set_name command pch).redirects2 = command.redirects2 ∧
    (set_name command pch).background = command.background ∧
    (set_name command pch).auto_complete = command.auto_complete := by
  unfold set_name
  cases pch <;> simp

/-- The node `parse_command` builds from memory whose string has no token `|`. -/
theorem parse_fuel_no_pipe (f : Nat) (fresh : Nat → command_t) (m : List Char)
    (command : command_t) (hf : m.length + 1 ≤ f) (hp : ['|'] ∉ tokens (cstr m))
    (hfit : ∀ t ∈ (tokens (cstr m)).tail, t.length < TEMP_BUF_SIZE) :
    ∃ c sv, parse_command_fuel (f + 1) fresh m command = some (c, sv) ∧
      c.next = command.next ∧
      c.name = (tokens (cstr m)).headD [] ∧
      c.args = some c.name :: (positional (tokens (cstr m)).tail).map some ++ [none] ∧
      c.arg_count = (positional (tokens (cstr m)).tail).length + 2 := by
  obtain ⟨len, m', ht, hcs, _, hlen⟩ := trims_spec m
  have htk : tokens (cstr m') = tokens (cstr m) := by rw [hcs, tokens_trims]
  rw [parse_command_fuel_succ f fresh m command len m' ht]
  rw [← htk] at hp hfit ⊢
  cases hts : tokens (cstr m') with
  | nil =>
    rw [strtok_of_tokens_nil m' hts]
    obtain ⟨k, rfl⟩ : ∃ k, f = k + 1 := ⟨f - 1, by omega⟩
    have hn := strtok_none_again m' hts
    have hloop : parse_loop (fresh 0) (parse_command_fuel (k + 1) (fun i => fresh (i + 1))) (k + 1) (m'.dropWhile isSplitter)
        (set_name (set_flags command len m') none) 0
        = some (set_name (set_flags command len m') none, 0, m'.dropWhile isSplitter) := by
      simp only [parse_loop, hn]
    simp only [hloop]
    refine ⟨_, _, rfl, ?_, ?_, ?_, ?_⟩
    · rw [(finish_args_fields _ _).2.1, (set_name_fields _ _).1, (set_flags_fields _ _ _).1]
    · rw [(finish_args_fields _ _).1, (set_name_fields _ _).2.2.1]; rfl
    · have h0 : (set_name (set_flags command len m') none).args.length = 0 := by
        rw [(set_name_fields _ _).2.1]; rfl
      have := finish_args_args (set_name (set_flags command len m') none)
      rw [h0] at this
      rw [this, (finish_args_fields _ _).1, (set_name_fields _ _).2.1]
      simp [positional]
    · rw [(finish_args_fields _ _).2.2.1]; simp [positional]
  | cons t ts =>
    obtain ⟨pch, save, hst, hpch, htks, hl, hne, hsp, hnul⟩ := strtok_of_tokens_cons m' t ts hts
    rw [hst]
    have hp' : ['|'] ∉ tokens (cstr save) := by
      rw [htks]; intro e; apply hp; rw [hts]; simp [e]
    obtain ⟨sv, hloop, hsv⟩ := loop_no_pipe (fresh 0) (parse_command_fuel f (fun i => fresh (i + 1))) f save
      (set_name (set_flags command len m') (some pch)) 0 (by omega) hp'
      (by rw [htks]; rw [hts] at hfit; exact hfit)
    simp only [hloop]
    obtain ⟨ha, hi⟩ := fold_args_args (tokens (cstr save))
      (set_name (set_flags command len m') (some pch), 0)
    simp only [(set_name_fields _ _).2.1, List.nil_append, Nat.zero_add] at ha hi
    have hname : (fold_args (set_name (set_flags command len m') (some pch), 0)
        (tokens (cstr save))).1.name = t := by
      rw [fold_args_name, (set_name_fields _ _).2.2.1]; simp [hpch]
    refine ⟨_, _, rfl, ?_, ?_, ?_, ?_⟩
    · rw [(finish_args_fields _ _).2.1, fold_args_next, (set_name_fields _ _).1,
        (set_flags_fields _ _ _).1]
    · rw [(finish_args_fields _ _).1, hname]; rfl
    · have hlen' : (fold_args (set_name (set_flags command len m') (some pch), 0)
          (tokens (cstr save))).2 = (fold_args (set_name (set_flags command len m') (some pch), 0)
          (tokens (cstr save))).1.args.length := by
        rw [hi, ha]; simp
      rw [hlen', finish_args_args, (finish_args_fields _ _).1, ha, htks]
      simp
    · rw [(finish_args_fields _ _).2.2.1, hi, htks]; simp

/-- For a line with no token `|`, whose tokens after the first have less than
1024 bytes each, `parse_command` yields a single node (`next` is none) whose
name is the first whitespace-separated token (empty when there is none) and
whose argument vector is a copy of the name, then in order every later token
that is not exactly `&` and does not start with `<` or `>` (a quote-wrapped
token of length > 2 stripped of its quotes), then one `NULL`; `arg_count` is
the number of positional arguments plus 2. -/
theorem parse_command_single (fresh : Nat → command_t) (s beyond : List Char) (hs : NUL ∉ s)
    (hp : ['|'] ∉ tokens s) (hfit : ∀ t ∈ (tokens s).tail, t.length < TEMP_BUF_SIZE) :
    ∃ c, parse_command fresh (line s beyond) zeroed = some c ∧
      c.next = none ∧
      c.name = (tokens s).headD [] ∧
      c.args = some c.name :: (positional (tokens s).tail).map some ++ [none] ∧
      c.arg_count = (positional (tokens s).tail).length + 2 ∧
      List.intercalate [' '] c.args.reduceOption =
        List.intercalate [' '] ((tokens s).headD [] :: positional (tokens s).tail) ∧
      (tokens s = [] → c.name = [] ∧ c.args = [some [], none] ∧ c.arg_count = 2) := by
  have hc := cstr_line s beyond hs
  obtain ⟨c, sv, hparse, hnext, hname, hargs, hcount⟩ :=
    parse_fuel_no_pipe ((line s beyond).length + 1) fresh (line s beyond) zeroed (Nat.le_refl _)
      (by rw [hc]; exact hp) (by rw [hc]; exact hfit)
  rw [hc] at hname hargs hcount
  refine ⟨c, ?_, hnext, hname, hargs, hcount, ?_, ?_⟩
  · simp only [parse_command, hparse]; rfl
  · have hred : ∀ l : List (List Char), (l.map some).reduceOption = l := by
      intro l
      induction l with
      | nil => rfl
      | cons a l ih => rw [List.map_cons, List.reduceOption_cons_of_some, ih]
    rw [hargs, hname, List.cons_append, List.reduceOption_cons_of_some,
      List.reduceOption_append, hred]
    simp [List.reduceOption_cons_of_none]
  · intro h
    rw [h] at hname hargs hcount
    rw [hname] at hargs
    exact ⟨hname, by simpa [positional] using hargs, by simpa [positional] using hcount⟩

/-! ## Lines with separators -/

theorem parse_loop_pipe (node : command_t)
    (parse : List Char → command_t → Option (command_t × List Char))
    (fuel : Nat) (s pch save : List Char) (command : command_t) (arg_index : Nat)
    (hst : strtok s = (some pch, save)) (hpch : cstr pch = ['|']) :
    parse_loop node parse (fuel + 1) s command arg_index =
      match parse (((pch.set (strlen pch) ' ').drop 1).dropWhile isSplitter) node with
      | none => none
      | some (c, sv) =>
        parse_loop node parse fuel sv { command with next := some c } arg_index := by
  have hroom : ¬ (TEMP_BUF_SIZE < strlen pch + 1) := by
    unfold strlen; rw [hpch]; decide
  have hnul : NUL ∉ ['|'] := by decide
  have hlen : strlen (['|'] ++ [NUL]) = 1 := by decide
  have hcs : cstr (['|'] ++ [NUL]) = ['|'] := by decide
  have h1 := token_trim_left ['|'] (by simp) (by decide) hnul
  have h2 := token_trim_right ['|'] (by simp) (by decide) hnul
  simp only [List.length_singleton] at h1 h2
  simp only [parse_loop, hst, hroom, if_false, hpch, hlen, h1, h2, hcs]
  simp

theorem terminated_after_pipe_suffix (q m : List Char) (hq : NUL ∉ q)
    (h : terminated_after_pipe (q ++ m)) : terminated_after_pipe m := by
  intro p x hm hp
  exact h (q ++ p) x (by rw [hm]; simp) (by simp [hq, hp])

theorem terminated_after_pipe_of_head (m : List Char) (h : m.headD NUL = NUL) :
    terminated_after_pipe m := by
  intro p x hm hp
  cases p with
  | nil => rw [hm] at h; simp [NUL] at h
  | cons a p =>
    rw [hm] at h
    simp at h
    exact absurd (by simp [h]) hp

theorem dropWhile_of_head (m : List Char) (h : m.headD NUL = NUL) :
    m.dropWhile isSplitter = m ∧ cstr m = [] := by
  cases m with
  | nil => simp [cstr]
  | cons a m =>
    simp at h; subst h
    simp [NUL_not_splitter, cstr_cons_NUL]

theorem takeWhile_dropWhile_splitter (m : List Char) :
    ∃ q, NUL ∉ q ∧ m = q ++ m.dropWhile isSplitter :=
  ⟨m.takeWhile isSplitter, NUL_not_mem_takeWhile_splitter m,
    (List.takeWhile_append_dropWhile isSplitter m).symm⟩

/-- The memory handed to the recursive call at a token `|`. -/
theorem strtok_pipe (s : List Char) (ts : List (List Char))
    (h : tokens (cstr s) = ['|'] :: ts) :
    ∃ pch save nbuf, strtok s = (some pch, save) ∧ cstr pch = ['|'] ∧
      ((pch.set (strlen pch) ' ').drop 1).dropWhile isSplitter = nbuf ∧
      nbuf.length < s.length ∧ (ts ≠ [] → tokens (cstr nbuf) = ts) ∧
      (terminated_after_pipe s → tokens (cstr nbuf) = ts ∧ terminated_after_pipe nbuf) := by
  have hlen := length_dropWhile_le isSplitter s
  obtain ⟨q0, hq0, hs0⟩ := takeWhile_dropWhile_splitter s
  rcases strtok_cases s with ⟨h1, _⟩ | ⟨tok, hne, hsp, hnul, hc⟩
  · exfalso
    rw [← tokens_cstr_dropWhile, h1, tokens_nil] at h; simp at h
  · rw [← tokens_cstr_dropWhile] at h
    rcases hc with ⟨h1, h2⟩ | ⟨rest, h1, h2⟩ | ⟨d, rest, hd, h1, h2⟩
    · rw [h1, cstr_of_not_mem tok hnul, tokens_single tok hne hsp] at h
      simp only [List.cons.injEq] at h
      obtain ⟨rfl, rfl⟩ := h
      refine ⟨_, _, [], h2, by decide, by decide, ?_, fun hne => absurd rfl hne,
        fun _ => ⟨by decide, ?_⟩⟩
      · rw [h1] at hlen; simp at hlen ⊢; omega
      · exact terminated_after_pipe_of_head [] rfl
    · rw [h1, cstr_append tok _ hnul, cstr_cons_NUL, List.append_nil,
        tokens_single tok hne hsp] at h
      simp only [List.cons.injEq] at h
      obtain ⟨rfl, rfl⟩ := h
      refine ⟨_, _, rest.dropWhile isSplitter, h2, by simp [cstr, NUL], ?_, ?_,
        fun hne => absurd rfl hne, ?_⟩
      · have : strlen (['|'] ++ NUL :: rest) = 1 := by simp [strlen, cstr, NUL]
        rw [this]; simp
        exact List.dropWhile_cons_of_pos (by decide)
      · have := length_dropWhile_le isSplitter rest
        rw [h1] at hlen; simp at hlen; omega
      · intro hG
        have hx : rest.headD NUL = NUL := by
          apply hG q0 rest
          · rw [hs0, h1]; simp
          · exact hq0
        obtain ⟨e1, e2⟩ := dropWhile_of_head rest hx
        rw [e1, e2]
        exact ⟨by decide, terminated_after_pipe_of_head rest hx⟩
    · have hdN : d ≠ NUL := fun e => by rw [e, NUL_not_splitter] at hd; simp at hd
      rw [h1, cstr_append tok _ hnul, cstr_cons d rest hdN,
        tokens_token_cons tok hne hsp d hd] at h
      simp only [List.cons.injEq] at h
      obtain ⟨rfl, rfl⟩ := h
      refine ⟨_, _, rest.dropWhile isSplitter, h2, by simp [cstr, NUL], ?_, ?_,
        fun _ => tokens_cstr_dropWhile rest, ?_⟩
      · have : strlen (['|'] ++ NUL :: rest) = 1 := by simp [strlen, cstr, NUL]
        rw [this]; simp
        exact List.dropWhile_cons_of_pos (by decide)
      · have := length_dropWhile_le isSplitter rest
        rw [h1] at hlen; simp at hlen; omega
      · intro hG
        refine ⟨tokens_cstr_dropWhile rest, ?_⟩
        obtain ⟨q1, hq1, hs1⟩ := takeWhile_dropWhile_splitter rest
        apply terminated_after_pipe_suffix (q0 ++ ['|'] ++ [d] ++ q1) _
        · simp [hq0, hq1]; exact ⟨by decide, fun e => hdN e.symm⟩
        · have : q0 ++ ['|'] ++ [d] ++ q1 ++ rest.dropWhile isSplitter = s := by
            conv_rhs => rw [hs0, h1, hs1]
            simp
          rw [this]; exact hG

theorem chain_length_eq (c : command_t) :
    chain_length c = (c.next.map chain_length).getD 0 + 1 := by
  cases c with
  | mk name bg ac n args r0 r1 r2 next =>
    cases next <;> simp [chain_length]

theorem chain_length_of_next (c d : command_t) (h : c.next = d.next) :
    chain_length c = chain_length d := by
  rw [chain_length_eq c, chain_length_eq d, h]

theorem first_NUL_unique (a b p x : List Char) (ha : NUL ∉ a) (hp : NUL ∉ p)
    (h : a ++ NUL :: b = p ++ NUL :: x) : a = p ∧ b = x := by
  have h1 := congrArg cstr h
  rw [cstr_append_NUL a b ha, cstr_append_NUL p x hp] at h1
  subst h1
  exact ⟨rfl, by simpa using h⟩

theorem headD_of_cstr_nil (y : List Char) (h : cstr y = []) : y.headD NUL = NUL := by
  cases y with
  | nil => rfl
  | cons c y =>
    by_cases hc : c = NUL
    · simp [hc]
    · rw [cstr_cons c y hc] at h; simp at h

/-- The trims keep the property `terminated_after_pipe`. -/
theorem trims_terminated (m : List Char) (len : Nat) (m' : List Char)
    (ht : trim_right (trim_left (strlen m) m).1 (trim_left (strlen m) m).2 = (len, m'))
    (hG : terminated_after_pipe m) : terminated_after_pipe m' := by
  rw [trim_left_spec] at ht
  set m1 := m.dropWhile isSplitter with hm1
  have hdec := append_cstr_drop m1
  have hn := NUL_not_mem_cstr m1
  have hspec := trim_right_spec (cstr m1) (m1.drop (strlen m1)) hn
  rw [← hdec] at hspec
  have hm' : m' = List.rdropWhile isSplitter (cstr m1) ++
      List.replicate ((cstr m1).length - (List.rdropWhile isSplitter (cstr m1)).length) NUL ++
      List.drop (strlen m1) m1 := by
    have := ht.symm.trans hspec
    simp only [Prod.mk.injEq] at this
    exact this.2
  have hG1 : terminated_after_pipe m1 := by
    obtain ⟨q, hq, hs⟩ := takeWhile_dropWhile_splitter m
    exact terminated_after_pipe_suffix q m1 hq (by rw [← hs]; exact hG)
  have hpre := List.rdropWhile_prefix isSplitter (cstr m1)
  cases hk : (cstr m1).length - (List.rdropWhile isSplitter (cstr m1)).length with
  | zero =>
    have hle := hpre.length_le
    have heq : List.rdropWhile isSplitter (cstr m1) = cstr m1 :=
      hpre.eq_of_length (by omega)
    rw [hk, heq] at hm'
    simp only [List.replicate_zero, List.append_nil] at hm'
    rw [hm', ← hdec]
    exact hG1
  | succ k =>
    rw [hk, List.replicate_succ] at hm'
    intro p x hmp hp
    have hrn := NUL_not_mem_rdropWhile _ hn
    have hpn : NUL ∉ p ++ ['|'] := by simp [hp]; decide
    have := first_NUL_unique (List.rdropWhile isSplitter (cstr m1))
      (List.replicate k NUL ++ List.drop (strlen m1) m1) (p ++ ['|']) x hrn hpn
      (by rw [hm'] at hmp; simpa using hmp)
    rw [← this.2]
    cases k with
    | zero => simpa using headD_of_cstr_nil _ (cstr_drop_strlen m1)
    | succ k => simp [List.replicate_succ]

theorem fits_temp_buf_first (t : List Char) (ts : List (List Char)) :
    fits_temp_buf true (t :: ts) = fits_temp_buf false ts := rfl

theorem fits_temp_buf_later (t : List Char) (ts : List (List Char)) :
    fits_temp_buf false (t :: ts) =
      (decide (t.length < TEMP_BUF_SIZE) && fits_temp_buf (decide (t = ['|'])) ts) := rfl

theorem ends_with_separator_first (t : List Char) (ts : List (List Char)) :
    ends_with_separator true (t :: ts) = ends_with_separator false ts := rfl

theorem ends_with_separator_later (t : List Char) (ts : List (List Char)) :
    ends_with_separator false (t :: ts) =
      if t = ['|'] then ts.isEmpty || ends_with_separator true ts
      else ends_with_separator false ts := rfl

/-- The loop returns when the recursive call does, and it counts the
segments: on a string that does not end in a separator `|` right before a
terminator followed by further bytes, and whose tokens fit `temp_buf`.  `P` is
what the recursive call needs to count. -/
theorem loop_chain (node : command_t)
    (parse : List Char → command_t → Option (command_t × List Char)) (L : Nat) (P : Prop)
    (hparse : ∀ m2, m2.length < L →
      (ends_with_separator true (tokens (cstr m2)) = true → terminated_after_pipe m2) →
      fits_temp_buf true (tokens (cstr m2)) = true →
      ∃ c sv, parse m2 node = some (c, sv) ∧ strtok sv = (none, sv) ∧
        (P → node.next = none → chain_length c = count_segments true (tokens (cstr m2)))) :
    ∀ (k : Nat) (s : List Char) (command : command_t) (i : Nat),
      s.length < k → s.length ≤ L →
      (ends_with_separator false (tokens (cstr s)) = true → terminated_after_pipe s) →
      fits_temp_buf false (tokens (cstr s)) = true →
      ∃ c i' sv, parse_loop node parse k s command i = some (c, i', sv) ∧
        strtok sv = (none, sv) ∧
        (P → node.next = none → command.next = none →
          chain_length c = count_segments false (tokens (cstr s))) := by
  intro k
  induction k with
  | zero => intro s _ _ h; omega
  | succ k ih =>
    intro s command i hk hL hG hfit
    cases hts : tokens (cstr s) with
    | nil =>
      refine ⟨command, i, s.dropWhile isSplitter, parse_loop_done node parse k s command i hts,
        strtok_none_again s hts, fun _ _ hn => ?_⟩
      rw [chain_length_eq, hn]; rfl
    | cons t ts =>
      rw [hts, fits_temp_buf_later, Bool.and_eq_true, decide_eq_true_eq] at hfit
      rw [hts, ends_with_separator_later] at hG
      by_cases hp : t = ['|']
      · subst hp
        simp only [if_true, decide_True] at hG hfit
        obtain ⟨pch, save, nbuf, hst, hpch, hbuf, hlen, hT, hGt⟩ := strtok_pipe s ts hts
        have htok : tokens (cstr nbuf) = ts := by
          by_cases hne : ts = []
          · exact (hGt (hG (by rw [hne]; rfl))).1
          · exact hT hne
        have hG2 : ends_with_separator true (tokens (cstr nbuf)) = true →
            terminated_after_pipe nbuf := by
          intro he
          rw [htok] at he
          exact (hGt (hG (by rw [he]; simp))).2
        obtain ⟨c, sv, hc, hsv, hcl⟩ := hparse nbuf (by omega) hG2 (by rw [htok]; exact hfit.2)
        obtain ⟨k', rfl⟩ : ∃ k', k = k' + 1 := ⟨k - 1, by omega⟩
        refine ⟨{ command with next := some c }, i, sv, ?_, hsv, fun hP hnode _ => ?_⟩
        · rw [parse_loop_pipe node parse (k' + 1) s pch save command i hst hpch, hbuf, hc]
          simp only [parse_loop, hsv]
        · rw [chain_length_eq]
          simp only [Option.map_some', Option.getD_some]
          rw [hcl hP hnode, htok]
          simp [count_segments]
      · simp only [hp, if_false, decide_False] at hG hfit
        obtain ⟨pch, save, hst, hpch, htks, hl, hne, hsp, hnul⟩ :=
          strtok_of_tokens_cons s t ts hts
        obtain ⟨q, hq, hs⟩ := strtok_suffix s pch save hst
        obtain ⟨c, i', sv, hloop, hsv, hcl⟩ := ih save (arg_step (command, i) t).1
          (arg_step (command, i) t).2 (by omega) (by omega)
          (fun he => terminated_after_pipe_suffix q save hq
            (by rw [← hs]; exact hG (by rw [← htks]; exact he)))
          (by rw [htks]; exact hfit.2)
        refine ⟨c, i', sv, ?_, hsv, fun hP hnode hn => ?_⟩
        · rw [parse_loop_step node parse k s pch save t command i hst hpch hne hsp hnul hp
            hfit.1, hloop]
        · rw [hcl hP hnode (by rw [arg_step_next]; exact hn), htks]
          simp [count_segments, hp]

/-- The function `parse_command` returns and leaves `strtok` exhausted, for
memory whose string does not end in a separator `|` right before a terminator
followed by further bytes and whose tokens fit `temp_buf`; it builds one node
per segment when the blocks it gets from `malloc` hold `NULL` as `next`. -/
theorem parse_fuel_chain (f : Nat) :
    ∀ (fresh : Nat → command_t) (m : List Char) (command : command_t), m.length + 2 ≤ f →
      (ends_with_separator true (tokens (cstr m)) = true → terminated_after_pipe m) →
      fits_temp_buf true (tokens (cstr m)) = true →
      ∃ c sv, parse_command_fuel f fresh m command = some (c, sv) ∧ strtok sv = (none, sv) ∧
        ((∀ i, (fresh i).next = none) → command.next = none →
          chain_length c = count_segments true (tokens (cstr m))) := by
  induction f with
  | zero => intro _ m _ h; omega
  | succ f ih =>
    intro fresh m command hf hG hfit
    obtain ⟨len, m', ht, hcs, _, hlen⟩ := trims_spec m
    have htk : tokens (cstr m') = tokens (cstr m) := by rw [hcs, tokens_trims]
    rw [parse_command_fuel_succ f fresh m command len m' ht]
    have hpar : ∀ m2, m2.length < f - 1 →
        (ends_with_separator true (tokens (cstr m2)) = true → terminated_after_pipe m2) →
        fits_temp_buf true (tokens (cstr m2)) = true →
        ∃ c sv, parse_command_fuel f (fun i => fresh (i + 1)) m2 (fresh 0) = some (c, sv) ∧
          strtok sv = (none, sv) ∧
          ((∀ i, (fresh (i + 1)).next = none) → (fresh 0).next = none →
            chain_length c = count_segments true (tokens (cstr m2))) :=
      fun m2 h hG2 hfit2 => ih (fun i => fresh (i + 1)) m2 (fresh 0) (by omega) hG2 hfit2
    have hnext : (set_name (set_flags command len m') (strtok m').1).next = command.next := by
      rw [(set_name_fields _ _).1, (set_flags_fields _ _ _).1]
    have hG' : ends_with_separator true (tokens (cstr m')) = true →
        terminated_after_pipe m' := by
      intro he
      rw [htk] at he
      exact trims_terminated m len m' ht (hG he)
    have hfresh : ∀ (hall : ∀ i, (fresh i).next = none),
        (∀ i, (fresh (i + 1)).next = none) ∧ (fresh 0).next = none :=
      fun hall => ⟨fun i => hall (i + 1), hall 0⟩
    cases hts : tokens (cstr m') with
    | nil =>
      have hst := strtok_of_tokens_nil m' hts
      have hle := length_dropWhile_le isSplitter m'
      have htk0 : tokens (cstr (strtok m').2) = [] := by
        rw [hst]; simp; rw [tokens_cstr_dropWhile, hts]
      obtain ⟨c, i', sv, hloop, hsv, hcl⟩ := loop_chain (fresh 0)
        (parse_command_fuel f (fun i => fresh (i + 1))) (f - 1) _ hpar f
        (strtok m').2 (set_name (set_flags command len m') (strtok m').1) 0
        (by rw [hst]; simp; omega) (by rw [hst]; simp; omega)
        (by rw [htk0]; intro he; exact absurd he (by decide))
        (by rw [htk0]; rfl)
      rw [hloop]
      refine ⟨_, _, rfl, hsv, fun hall hn => ?_⟩
      rw [chain_length_of_next _ c (finish_args_fields c i').2.1]
      rw [hcl (hfresh hall).1 (hfresh hall).2 (by rw [hnext]; exact hn), htk0, ← htk, hts]
      rfl
    | cons t ts =>
      obtain ⟨pch, save, hst, hpch, htks, hl, hne, hsp, hnul⟩ := strtok_of_tokens_cons m' t ts hts
      obtain ⟨q, hq, hs⟩ := strtok_suffix m' pch save hst
      rw [hts, ends_with_separator_first] at hG'
      rw [← htk, hts, fits_temp_buf_first] at hfit
      obtain ⟨c, i', sv, hloop, hsv, hcl⟩ := loop_chain (fresh 0)
        (parse_command_fuel f (fun i => fresh (i + 1))) (f - 1) _ hpar f
        (strtok m').2 (set_name (set_flags command len m') (strtok m').1) 0
        (by rw [hst]; simp; omega) (by rw [hst]; simp; omega)
        (by
          rw [hst]
          intro he
          exact terminated_after_pipe_suffix q save hq
            (by rw [← hs]; exact hG' (by rw [← htks]; exact he)))
        (by rw [hst]; show fits_temp_buf false (tokens (cstr save)) = true; rw [htks]; exact hfit)
      rw [hloop]
      refine ⟨_, _, rfl, hsv, fun hall hn => ?_⟩
      rw [chain_length_of_next _ c (finish_args_fields c i').2.1]
      rw [hcl (hfresh hall).1 (hfresh hall).2 (by rw [hnext]; exact hn), hst, ← htk, hts]
      simp [htks, count_segments]

/-- C3, as stated, fails: the line `a|b` holds one character `|`, so two
segments are claimed, and `parse_command` builds a single node, named `a|b`,
whatever the blocks from `malloc` hold (no block is asked for); and the line
`| a` holds one character `|` and gives a single node, named `|`. -/
theorem parse_command_chain_length_counterexample :
    (parse_command no_junk (line "a|b".toList []) zeroed).map
        (fun c => (c.name, chain_length c)) = some ("a|b".toList, 1) ∧
    (parse_command (fun _ => stale_block) (line "a|b".toList []) zeroed).map
        (fun c => (c.name, chain_length c)) = some ("a|b".toList, 1) ∧
    "a|b".toList.count '|' + 1 = 2 ∧
    (parse_command no_junk (line "| a".toList []) zeroed).map
        (fun c => (c.name, chain_length c)) = some ("|".toList, 1) ∧
    (parse_command (fun _ => stale_block) (line "| a".toList []) zeroed).map
        (fun c => (c.name, chain_length c)) = some ("|".toList, 1) ∧
    "| a".toList.count '|' + 1 = 2 := by
  decide

/-- C3, amended: the number of nodes of the chain is the number of segments
the whitespace-separated tokens of the line fall into, a segment ending at a
token that is exactly `|` and not the first token of its segment.  This is for
a line whose tokens fit `temp_buf` (less than 1024 bytes for every token but
the first of its segment), when the blocks `malloc` returns for the nodes hold
`NULL` as `next`, and when the line does not end in a separator `|` right
before its terminator with further bytes behind the terminator. -/
theorem parse_command_chain_length (fresh : Nat → command_t) (s beyond : List Char)
    (hs : NUL ∉ s) (hfresh : ∀ i, (fresh i).next = none)
    (hfit : fits_temp_buf true (tokens s) = true)
    (hend : ends_with_separator true (tokens s) = true → s.getLast? = some '|' →
      beyond.headD NUL = NUL) :
    ∃ c, parse_command fresh (line s beyond) zeroed = some c ∧
      chain_length c = count_segments true (tokens s) := by
  have hc := cstr_line s beyond hs
  obtain ⟨c, sv, hparse, _, hcl⟩ :=
    parse_fuel_chain ((line s beyond).length + 2) fresh (line s beyond) zeroed (Nat.le_refl _)
      (by
        rw [hc]
        intro he p x hm hp
        have hpn : NUL ∉ p ++ ['|'] := by simp [hp]; decide
        have := first_NUL_unique s beyond (p ++ ['|']) x hs hpn (by simpa [line] using hm)
        rw [← this.2]
        exact hend he (by rw [this.1]; simp))
      (by rw [hc]; exact hfit)
  refine ⟨c, by simp only [parse_command, hparse]; rfl, ?_⟩
  rw [hcl hfresh rfl, hc]

/-- C3, amended, at the line `ls -l | grep a|b | wc`, and at the line `a b|`
with the bytes of an older line behind it. -/
theorem parse_command_chain_length_witness :
    (NUL ∉ "ls -l | grep a|b | wc".toList ∧ (∀ i, (no_junk i).next = none) ∧
      fits_temp_buf true (tokens "ls -l | grep a|b | wc".toList) = true ∧
      (ends_with_separator true (tokens "ls -l | grep a|b | wc".toList) = true →
        "ls -l | grep a|b | wc".toList.getLast? = some '|' →
        ([] : List Char).headD NUL = NUL) ∧
      ∃ c, parse_command no_junk (line "ls -l | grep a|b | wc".toList []) zeroed = some c ∧
        chain_length c = count_segments true (tokens "ls -l | grep a|b | wc".toList)) ∧
    count_segments true (tokens "ls -l | grep a|b | wc".toList) = 3 ∧
    ∃ c, parse_command no_junk (line "a b|".toList "rm | y".toList) zeroed = some c ∧
      chain_length c = count_segments true (tokens "a b|".toList) :=
  ⟨⟨by decide, fun _ => rfl, by decide, by decide,
      parse_command_chain_length no_junk "ls -l | grep a|b | wc".toList [] (by decide)
        (fun _ => rfl) (by decide) (by decide)⟩,
    by decide,
    parse_command_chain_length no_junk "a b|".toList "rm | y".toList (by decide)
      (fun _ => rfl) (by decide) (by decide)⟩

/-! ## The head node of any line -/

theorem fold_args_snoc (st : command_t × Nat) (ts : List (List Char)) (t : List Char) :
    fold_args st (ts ++ [t]) = arg_step (fold_args st ts) t := by
  simp [fold_args, List.foldl_append]

theorem getLast?_filter_snoc (p : List Char → Bool) (ts : List (List Char)) (t : List Char) :
    ((ts ++ [t]).filter p).getLast? = if p t then some t else (ts.filter p).getLast? := by
  rw [List.filter_append]
  by_cases h : p t = true
  · simp [List.filter_cons, h, List.getLast?_append]
  · simp [List.filter_cons, h]

theorem arg_step_redirects (st : command_t × Nat) (t : List Char) :
    (arg_step st t).1.redirects0 = (if is_in t then some t.tail else st.1.redirects0) ∧
    (arg_step st t).1.redirects1 = (if is_truncate t then some t.tail else st.1.redirects1) ∧
    (arg_step st t).1.redirects2 =
      (if is_append t then some (t.drop 2) else st.1.redirects2) := by
  rcases t with _ | ⟨a, _ | ⟨b, v⟩⟩
  · simp [arg_step, is_in, is_truncate, is_append]
  · by_cases h1 : a = '<'
    · subst h1; simp [arg_step, is_in, is_truncate, is_append, set_redirect]
    · by_cases h2 : a = '>'
      · subst h2; simp [arg_step, is_in, is_truncate, is_append, set_redirect]
      · by_cases h0 : a = '&'
        · subst h0; simp [arg_step, is_in, is_truncate, is_append]
        · simp [arg_step, is_in, is_truncate, is_append, h0, h1, h2]
  · by_cases h1 : a = '<'
    · subst h1; simp [arg_step, is_in, is_truncate, is_append, set_redirect]
    · by_cases h2 : a = '>'
      · subst h2
        by_cases h3 : b = '>'
        · subst h3; simp [arg_step, is_in, is_truncate, is_append, set_redirect]
        · simp [arg_step, is_in, is_truncate, is_append, set_redirect, h3]
      · simp [arg_step, is_in, is_truncate, is_append, h1, h2]

/-- The input redirect after the tokens of a segment: the rest of the last
token that starts with `<`. -/
theorem fold_args_redirects0 (st : command_t × Nat) (ts : List (List Char)) :
    (fold_args st ts).1.redirects0 =
      match (ts.filter is_in).getLast? with
      | some t => some t.tail
      | none => st.1.redirects0 := by
  induction ts using List.reverseRecOn with
  | nil => rfl
  | append_singleton ts t ih =>
    rw [fold_args_snoc, getLast?_filter_snoc, (arg_step_redirects _ t).1, ih]
    by_cases h : is_in t = true
    · simp only [h, if_true]
    · simp only [h, Bool.false_eq_true, if_false]

/-- The truncating output redirect after the tokens of a segment. -/
theorem fold_args_redirects1 (st : command_t × Nat) (ts : List (List Char)) :
    (fold_args st ts).1.redirects1 =
      match (ts.filter is_truncate).getLast? with
      | some t => some t.tail
      | none => st.1.redirects1 := by
  induction ts using List.reverseRecOn with
  | nil => rfl
  | append_singleton ts t ih =>
    rw [fold_args_snoc, getLast?_filter_snoc, (arg_step_redirects _ t).2.1, ih]
    by_cases h : is_truncate t = true
    · simp only [h, if_true]
    · simp only [h, Bool.false_eq_true, if_false]

/-- The appending output redirect after the tokens of a segment. -/
theorem fold_args_redirects2 (st : command_t × Nat) (ts : List (List Char)) :
    (fold_args st ts).1.redirects2 =
      match (ts.filter is_append).getLast? with
      | some t => some (t.drop 2)
      | none => st.1.redirects2 := by
  induction ts using List.reverseRecOn with
  | nil => rfl
  | append_singleton ts t ih =>
    rw [fold_args_snoc, getLast?_filter_snoc, (arg_step_redirects _ t).2.2, ih]
    by_cases h : is_append t = true
    · simp only [h, if_true]
    · simp only [h, Bool.false_eq_true, if_false]

theorem head_dropWhile_not {α : Type} (p : α → Bool) (l : List α) (c : α) (tl : List α)
    (h : l.dropWhile p = c :: tl) : p c = false := by
  induction l with
  | nil => simp at h
  | cons a l ih =>
    by_cases ha : p a = true
    · rw [List.dropWhile_cons_of_pos ha] at h; exact ih h
    · rw [List.dropWhile_cons_of_neg ha] at h
      cases h; simpa using ha

theorem first_segment_split (ts : List (List Char)) :
    ['|'] ∉ first_segment ts ∧
      (ts.tail = first_segment ts ∨
        ∃ post, ts.tail = first_segment ts ++ ['|'] :: post) := by
  unfold first_segment
  constructor
  · intro h
    have := List.mem_takeWhile_imp h
    simp at this
  · have hsplit := List.takeWhile_append_dropWhile (fun t => t != ['|']) ts.tail
    cases hd : ts.tail.dropWhile (fun t => t != ['|']) with
    | nil => left; rw [hd] at hsplit; simpa using hsplit.symm
    | cons a post =>
      right
      have ha := head_dropWhile_not _ _ _ _ hd
      have : a = ['|'] := by simpa using ha
      subst this
      exact ⟨post, by rw [hd] at hsplit; exact hsplit.symm⟩

theorem command_eta (c : command_t) : { c with next := c.next } = c := by
  cases c; rfl

theorem fits_later_append (pre rest : List (List Char)) (hp : ['|'] ∉ pre) :
    fits_temp_buf false (pre ++ rest) = true ↔
      (∀ t ∈ pre, t.length < TEMP_BUF_SIZE) ∧ fits_temp_buf false rest = true := by
  induction pre with
  | nil => simp
  | cons t pre ih =>
    have ht : t ≠ ['|'] := fun e => hp (by simp [e])
    have hp' : ['|'] ∉ pre := fun e => hp (by simp [e])
    rw [List.cons_append, fits_temp_buf_later]
    simp only [ht, decide_False, Bool.and_eq_true, decide_eq_true_eq, ih hp']
    constructor
    · rintro ⟨h1, h2, h3⟩
      refine ⟨fun u hu => ?_, h3⟩
      rcases List.mem_cons.mp hu with rfl | hu
      · exact h1
      · exact h2 u hu
    · rintro ⟨h1, h2⟩
      exact ⟨h1 t (List.mem_cons_self _ _), fun u hu => h1 u (List.mem_cons_of_mem _ hu), h2⟩

theorem ends_later_append (pre rest : List (List Char)) (hp : ['|'] ∉ pre) :
    ends_with_separator false (pre ++ rest) = ends_with_separator false rest := by
  induction pre with
  | nil => rfl
  | cons t pre ih =>
    have ht : t ≠ ['|'] := fun e => hp (by simp [e])
    have hp' : ['|'] ∉ pre := fun e => hp (by simp [e])
    rw [List.cons_append, ends_with_separator_later, if_neg ht, ih hp']

theorem fits_later_no_pipe (ts : List (List Char)) (hp : ['|'] ∉ ts) :
    fits_temp_buf false ts = true ↔ ∀ t ∈ ts, t.length < TEMP_BUF_SIZE := by
  have := fits_later_append ts [] hp
  rw [List.append_nil] at this
  rw [this]
  exact ⟨fun h => h.1, fun h => ⟨h, rfl⟩⟩

theorem ends_later_no_pipe (ts : List (List Char)) (hp : ['|'] ∉ ts) :
    ends_with_separator false ts = false := by
  have := ends_later_append ts [] hp
  rw [List.append_nil] at this
  rw [this]; rfl

/-- The head node of the chain `parse_command` builds from memory whose
string does not end in a separator `|` right before a terminator followed by
further bytes and whose tokens fit `temp_buf`: its fields come from the name
and the tokens of the first segment. -/
theorem parse_fuel_head (f : Nat) (fresh : Nat → command_t) (m : List Char)
    (command : command_t) (hf : m.length + 1 ≤ f)
    (hG : ends_with_separator true (tokens (cstr m)) = true → terminated_after_pipe m)
    (hfit : fits_temp_buf true (tokens (cstr m)) = true) :
    ∃ c sv init nx, parse_command_fuel (f + 1) fresh m command = some (c, sv) ∧
      init.args = [] ∧ init.name = (tokens (cstr m)).headD [] ∧
      init.redirects0 = command.redirects0 ∧ init.redirects1 = command.redirects1 ∧
      init.redirects2 = command.redirects2 ∧
      c = finish_args
        { (fold_args (init, 0) (first_segment (tokens (cstr m)))).1 with next := nx }
        (fold_args (init, 0) (first_segment (tokens (cstr m)))).2 := by
  obtain ⟨len, m', ht, hcs, _, hlen⟩ := trims_spec m
  have htk : tokens (cstr m') = tokens (cstr m) := by rw [hcs, tokens_trims]
  have hG' : ends_with_separator true (tokens (cstr m')) = true →
      terminated_after_pipe m' := by
    intro he
    rw [htk] at he
    exact trims_terminated m len m' ht (hG he)
  rw [parse_command_fuel_succ f fresh m command len m' ht, ← htk]
  rw [← htk] at hfit
  obtain ⟨hnp, hsplit⟩ := first_segment_split (tokens (cstr m'))
  have hi0 : (set_name (set_flags command len m') (strtok m').1).redirects0
      = command.redirects0 := by
    rw [(set_name_fields _ _).2.2.2.1, (set_flags_fields _ _ _).2.1]
  have hi1 : (set_name (set_flags command len m') (strtok m').1).redirects1
      = command.redirects1 := by
    rw [(set_name_fields _ _).2.2.2.2.1, (set_flags_fields _ _ _).2.2.1]
  have hi2 : (set_name (set_flags command len m') (strtok m').1).redirects2
      = command.redirects2 := by
    rw [(set_name_fields _ _).2.2.2.2.2.1, (set_flags_fields _ _ _).2.2.2]
  have hargs : (set_name (set_flags command len m') (strtok m').1).args = [] :=
    (set_name_fields _ _).2.1
  have hname : (set_name (set_flags command len m') (strtok m').1).name
      = ((strtok m').1.map cstr).getD [] := (set_name_fields _ _).2.2.1
  generalize set_name (set_flags command len m') (strtok m').1 = init at hi0 hi1 hi2 hargs hname ⊢
  cases hts : tokens (cstr m') with
  | nil =>
    have hst := strtok_of_tokens_nil m' hts
    obtain ⟨k, rfl⟩ : ∃ k, f = k + 1 := ⟨f - 1, by omega⟩
    have hloop := parse_loop_done (fresh 0) (parse_command_fuel (k + 1) (fun i => fresh (i + 1)))
      k (strtok m').2 init 0
      (by rw [hst]; simp; rw [tokens_cstr_dropWhile, hts])
    rw [hloop]
    refine ⟨_, _, init, init.next, rfl, hargs, ?_, hi0, hi1, hi2, ?_⟩
    · rw [hname, hst]; rfl
    · simp only [first_segment, fold_args, List.tail_nil, List.takeWhile_nil, List.foldl_nil]
      rw [command_eta]
  | cons t ts =>
    obtain ⟨pch, save, hst, hpch, htks, hl, hne, hsp, hnul⟩ := strtok_of_tokens_cons m' t ts hts
    obtain ⟨q, hq, hs⟩ := strtok_suffix m' pch save hst
    have hname' : init.name = t := by
      rw [hname, hst]; simp [hpch]
    rw [hts] at hsplit hnp
    rw [hts, fits_temp_buf_first] at hfit
    rw [hts, ends_with_separator_first] at hG'
    simp only [List.tail_cons] at hsplit
    rw [hst]
    simp only
    rcases hsplit with hall | ⟨post, hpost⟩
    · obtain ⟨sv, hloop, hsv⟩ := loop_no_pipe (fresh 0)
        (parse_command_fuel f (fun i => fresh (i + 1))) f save init 0 (by omega)
        (by rw [htks, hall]; exact hnp)
        (by
          rw [htks]
          exact (fits_later_no_pipe ts (by rw [hall]; exact hnp)).mp hfit)
      rw [hloop]
      refine ⟨_, _, init, (fold_args (init, 0) (first_segment (t :: ts))).1.next, rfl, hargs,
        by rw [hname']; rfl, hi0, hi1, hi2, ?_⟩
      rw [htks, ← hall, command_eta]
    · rw [hpost] at hfit hG'
      obtain ⟨hshort, hfit2⟩ := (fits_later_append _ _ hnp).mp hfit
      rw [ends_later_append _ _ hnp] at hG'
      obtain ⟨s', ⟨q2, hq2, hs2⟩, htk', hlen', hloop⟩ := loop_prefix (fresh 0)
        (parse_command_fuel f (fun i => fresh (i + 1)))
        (first_segment (t :: ts)) save init 0 (['|'] :: post) (htks.trans hpost) hnp hshort
      have hterm : terminated_after_pipe m' → terminated_after_pipe s' := by
        intro h
        apply terminated_after_pipe_suffix (q ++ q2) s' (by simp [hq, hq2])
        rw [List.append_assoc, ← hs2, ← hs]; exact h
      obtain ⟨pch2, save2, nbuf, hst2, hpch2, hbuf, hlen2, hT, hGt⟩ := strtok_pipe s' post htk'
      rw [ends_with_separator_later, if_pos rfl] at hG'
      rw [fits_temp_buf_later, Bool.and_eq_true] at hfit2
      simp only [decide_True] at hfit2
      have htok : tokens (cstr nbuf) = post := by
        by_cases hne2 : post = []
        · exact (hGt (hterm (hG' (by rw [hne2]; rfl)))).1
        · exact hT hne2
      have hG2 : ends_with_separator true (tokens (cstr nbuf)) = true →
          terminated_after_pipe nbuf := by
        intro he
        rw [htok] at he
        exact (hGt (hterm (hG' (by rw [he]; simp)))).2
      obtain ⟨c2, sv2, hc2, hsv2, _⟩ := parse_fuel_chain f (fun i => fresh (i + 1)) nbuf
        (fresh 0) (by omega) hG2 (by rw [htok]; exact hfit2.2)
      obtain ⟨k, hk⟩ : ∃ k, f = (k + 1 + 1) + (first_segment (t :: ts)).length :=
        ⟨f - (first_segment (t :: ts)).length - 2, by omega⟩
      have hfull : parse_loop (fresh 0) (parse_command_fuel f (fun i => fresh (i + 1))) f save
          init 0 =
          some ({ (fold_args (init, 0) (first_segment (t :: ts))).1 with next := some c2 },
            (fold_args (init, 0) (first_segment (t :: ts))).2, sv2) := by
        have hloop' := hloop (k + 1 + 1)
        rw [← hk] at hloop'
        rw [hloop', parse_loop_pipe (fresh 0) (parse_command_fuel f (fun i => fresh (i + 1)))
          (k + 1) s' pch2 save2 _ _ hst2 hpch2, hbuf, hc2]
        simp only [parse_loop, hsv2]
      rw [hfull]
      exact ⟨_, _, init, some c2, rfl, hargs, by rw [hname']; rfl, hi0, hi1, hi2, rfl⟩

/-- In the first segment of a line (the tokens after the name, up to the first
separator `|`), every token that starts with `<` is recorded, its rest after
the one character, as the input redirect, every token that starts with `>>`,
its rest after both characters, as the append redirect, and every token that
starts with `>` but not `>>`, its rest, as the truncate redirect (each field
holds the last token of its kind, and what the node held before when there is
none); and such a token adds no positional argument and does not increase
`arg_count`: both are those of the segment without it.  This is for a line
whose tokens fit `temp_buf` and that does not end in a separator `|` right
before its terminator with further bytes behind it, and for any node, that of
a later segment included. -/
theorem parse_command_redirects (fresh : Nat → command_t) (s beyond : List Char)
    (command : command_t) (hs : NUL ∉ s)
    (hfit : fits_temp_buf true (tokens s) = true)
    (hend : ends_with_separator true (tokens s) = true → s.getLast? = some '|' →
      beyond.headD NUL = NUL) :
    ∃ c, parse_command fresh (line s beyond) command = some c ∧
      c.redirects0 =
        (match ((first_segment (tokens s)).filter is_in).getLast? with
          | some t => some t.tail
          | none => command.redirects0) ∧
      c.redirects2 =
        (match ((first_segment (tokens s)).filter is_append).getLast? with
          | some t => some (t.drop 2)
          | none => command.redirects2) ∧
      c.redirects1 =
        (match ((first_segment (tokens s)).filter is_truncate).getLast? with
          | some t => some t.tail
          | none => command.redirects1) ∧
      ∀ pre t post, first_segment (tokens s) = pre ++ t :: post →
        (is_in t || is_append t || is_truncate t) = true →
        c.args = some c.name :: (positional (pre ++ post)).map some ++ [none] ∧
        c.arg_count = (positional (pre ++ post)).length + 2 := by
  have hcl := cstr_line s beyond hs
  obtain ⟨c, sv, init, nx, hparse, hargs, hname, hi0, hi1, hi2, hc⟩ :=
    parse_fuel_head ((line s beyond).length + 1) fresh (line s beyond) command (Nat.le_refl _)
      (by
        rw [hcl]
        intro he p x hm hp
        have hpn : NUL ∉ p ++ ['|'] := by simp [hp]; decide
        have := first_NUL_unique s beyond (p ++ ['|']) x hs hpn (by simpa [line] using hm)
        rw [← this.2]
        exact hend he (by rw [this.1]; simp))
      (by rw [hcl]; exact hfit)
  rw [hcl] at hc hname
  obtain ⟨ha, hi⟩ := fold_args_args (first_segment (tokens s)) (init, 0)
  simp only [hargs, List.nil_append, Nat.zero_add] at ha hi
  refine ⟨c, by simp only [parse_command, hparse]; rfl, ?_, ?_, ?_, ?_⟩
  · rw [hc, (finish_args_fields _ _).2.2.2.1]
    show (fold_args (init, 0) (first_segment (tokens s))).1.redirects0 = _
    rw [fold_args_redirects0, hi0]
  · rw [hc, (finish_args_fields _ _).2.2.2.2.2.1]
    show (fold_args (init, 0) (first_segment (tokens s))).1.redirects2 = _
    rw [fold_args_redirects2, hi2]
  · rw [hc, (finish_args_fields _ _).2.2.2.2.1]
    show (fold_args (init, 0) (first_segment (tokens s))).1.redirects1 = _
    rw [fold_args_redirects1, hi1]
  · intro pre t post hseg ht
    have hpos : positional (pre ++ t :: post) = positional (pre ++ post) := by
      have hr : is_redirect t = true := by
        unfold is_in is_append is_truncate at ht
        unfold is_redirect
        cases h1 : (t.head? == some '<') <;> cases h2 : (t.head? == some '>') <;>
          simp [h1, h2] at ht ⊢
      unfold positional
      simp [List.filter_append, List.filter_cons, hr]
    have hcname : c.name = (fold_args (init, 0) (first_segment (tokens s))).1.name := by
      rw [hc, (finish_args_fields _ _).1]
    have hlen : (fold_args (init, 0) (first_segment (tokens s))).2 =
        ({ (fold_args (init, 0) (first_segment (tokens s))).1 with next := nx } :
          command_t).args.length := by
      show _ = (fold_args (init, 0) (first_segment (tokens s))).1.args.length
      rw [hi, ha]; simp
    constructor
    · rw [hcname, hc, hlen, finish_args_args]
      show some _ :: (fold_args (init, 0) (first_segment (tokens s))).1.args ++ [none] = _
      rw [ha, hseg, hpos]
    · rw [hc, (finish_args_fields _ _).2.2.1, hi, hseg, hpos]


/-! ## Tokens that do not fit `temp_buf`, and blocks that are not cleared -/

/-- The loop at a token that does not fit `temp_buf` with its terminator. -/
theorem parse_loop_overflow (node : command_t)
    (parse : List Char → command_t → Option (command_t × List Char))
    (fuel : Nat) (s pch save : List Char) (command : command_t) (arg_index : Nat)
    (hst : strtok s = (some pch, save)) (hlong : TEMP_BUF_SIZE ≤ strlen pch) :
    parse_loop node parse (fuel + 1) s command arg_index = none := by
  have hroom : TEMP_BUF_SIZE < strlen pch + 1 := by omega
  simp only [parse_loop, hst, hroom, if_true]

/-- `parse_command` on memory whose second token does not fit `temp_buf`. -/
theorem parse_fuel_overflow (f : Nat) (fresh : Nat → command_t) (m : List Char)
    (command : command_t) (name tok : List Char) (rest : List (List Char))
    (htk : tokens (cstr m) = name :: tok :: rest) (hlong : TEMP_BUF_SIZE ≤ tok.length) :
    parse_command_fuel f fresh m command = none := by
  cases f with
  | zero => rfl
  | succ f =>
    obtain ⟨len, m', ht, hcs, _, _⟩ := trims_spec m
    have htk' : tokens (cstr m') = name :: tok :: rest := by rw [hcs, tokens_trims, htk]
    rw [parse_command_fuel_succ f fresh m command len m' ht]
    obtain ⟨pch, save, hst, _, htks, _⟩ := strtok_of_tokens_cons m' name (tok :: rest) htk'
    rw [hst]
    cases f with
    | zero => rfl
    | succ f =>
      obtain ⟨pch2, save2, hst2, hpch2, _⟩ := strtok_of_tokens_cons save tok rest htks
      rw [parse_loop_overflow _ _ f save pch2 save2 _ 0 hst2
        (by unfold strlen; rw [hpch2]; exact hlong)]

theorem tokens_two (name tok : List Char) (hn : name ≠ []) (ht : tok ≠ [])
    (hns : ∀ c ∈ name, isSplitter c = false) (hts : ∀ c ∈ tok, isSplitter c = false) :
    tokens (name ++ ' ' :: tok) = [name, tok] := by
  rw [tokens_token_cons name hn hns ' ' (by decide) tok, tokens_single tok ht hts]

/-- A line of a name, a blank and one more token that does not fit
`temp_buf`. -/
theorem parse_command_overflow (fresh : Nat → command_t) (name tok beyond : List Char)
    (command : command_t) (hn : name ≠ []) (ht : tok ≠ [])
    (hns : ∀ c ∈ name, isSplitter c = false ∧ c ≠ NUL)
    (hts : ∀ c ∈ tok, isSplitter c = false ∧ c ≠ NUL) (hlong : TEMP_BUF_SIZE ≤ tok.length) :
    tokens (name ++ ' ' :: tok) = [name, tok] ∧
      (∀ fuel, parse_command_fuel fuel fresh (line (name ++ ' ' :: tok) beyond) command =
        none) ∧
      parse_command fresh (line (name ++ ' ' :: tok) beyond) command = none := by
  have htok := tokens_two name tok hn ht (fun c hc => (hns c hc).1) (fun c hc => (hts c hc).1)
  have hnul : NUL ∉ name ++ ' ' :: tok := by
    intro h
    rcases List.mem_append.mp h with h | h
    · exact (hns _ h).2 rfl
    · rcases List.mem_cons.mp h with h | h
      · exact absurd h (by decide)
      · exact (hts _ h).2 rfl
  have hall : ∀ fuel, parse_command_fuel fuel fresh (line (name ++ ' ' :: tok) beyond)
      command = none := fun fuel =>
    parse_fuel_overflow fuel fresh _ command name tok []
      (by rw [cstr_line _ beyond hnul, htok]) hlong
  refine ⟨htok, hall, ?_⟩
  unfold parse_command
  rw [hall]
  rfl

theorem replicate_a_chars (n : Nat) :
    ∀ c ∈ List.replicate n 'a', isSplitter c = false ∧ c ≠ NUL := by
  intro c hc
  rw [List.eq_of_mem_replicate hc]
  exact ⟨by decide, by decide⟩

/-- C1: the line `ls`, a blank and 1024 bytes `a` has no token `|`, and its
second token has 1024 bytes.  `parse_command` copies the token and its
terminator, 1025 bytes, into `temp_buf[1024]`: the copy writes past the array
and no node comes out of the call, with any number of steps allowed, where a
node with that token as its one positional argument was to come out. -/
theorem parse_command_long_argument (fresh : Nat → command_t) (beyond : List Char) :
    tokens ("ls".toList ++ ' ' :: List.replicate 1024 'a') =
        ["ls".toList, List.replicate 1024 'a'] ∧
      (List.replicate 1024 'a').length + 1 = 1025 ∧ TEMP_BUF_SIZE = 1024 ∧
      (∀ fuel, parse_command_fuel fuel fresh
        (line ("ls".toList ++ ' ' :: List.replicate 1024 'a') beyond) zeroed = none) ∧
      parse_command fresh (line ("ls".toList ++ ' ' :: List.replicate 1024 'a') beyond)
        zeroed = none := by
  have h := parse_command_overflow fresh "ls".toList (List.replicate 1024 'a') beyond zeroed
    (by decide) (by rw [Ne, List.replicate_eq_nil_iff]; decide)
    (by decide) (replicate_a_chars 1024) (by rw [List.length_replicate]; decide)
  exact ⟨h.1, by rw [List.length_replicate], rfl, h.2.1, h.2.2⟩

/-- C4: in the line `cat`, a blank, `<` and 1023 bytes `a` the second token
starts with `<` and has 1024 bytes.  `parse_command` copies it with its
terminator, 1025 bytes, into `temp_buf[1024]` before it looks at its first
byte: the copy writes past the array and no node comes out of the call, with
any number of steps allowed, where the rest of the token was to be recorded as
the input redirect. -/
theorem parse_command_long_redirect (fresh : Nat → command_t) (beyond : List Char) :
    tokens ("cat".toList ++ ' ' :: '<' :: List.replicate 1023 'a') =
        ["cat".toList, '<' :: List.replicate 1023 'a'] ∧
      is_in ('<' :: List.replicate 1023 'a') = true ∧
      ('<' :: List.replicate 1023 'a').length + 1 = 1025 ∧ TEMP_BUF_SIZE = 1024 ∧
      (∀ fuel, parse_command_fuel fuel fresh
        (line ("cat".toList ++ ' ' :: '<' :: List.replicate 1023 'a') beyond) zeroed =
          none) ∧
      parse_command fresh
        (line ("cat".toList ++ ' ' :: '<' :: List.replicate 1023 'a') beyond) zeroed =
          none := by
  have h := parse_command_overflow fresh "cat".toList ('<' :: List.replicate 1023 'a') beyond
    zeroed (by decide) (List.cons_ne_nil _ _) (by decide)
    (by
      intro c hc
      rcases List.mem_cons.mp hc with rfl | hc
      · exact ⟨by decide, by decide⟩
      · exact replicate_a_chars 1023 c hc)
    (by rw [List.length_cons, List.length_replicate]; decide)
  exact ⟨h.1, rfl, by rw [List.length_cons, List.length_replicate], rfl, h.2.1, h.2.2⟩

/-- The line `a |` with the bytes of an older line, `b | c`, behind its
terminator: the separator is the last byte of the line, the terminator is
overwritten while the rest is parsed, and the chain runs on into the older
bytes. -/
theorem parse_command_separator_at_end :
    (parse_command no_junk (line "a |".toList "b | c".toList) zeroed).map
        (fun c => (chain_length c, chain_names c)) =
      some (3, ["a".toList, "b".toList, "c".toList]) ∧
    count_segments true (tokens "a |".toList) = 2 := by
  decide

/-- C2: the line `a | b | c`.  `parse_command` does not clear the block
`malloc` returns for the node after a separator, as `main` does for the first
node, and assigns only the fields the line gives: whatever the blocks hold,
the nodes of `b` and of `c` keep the `background` and the `redirects[1]` of
their blocks, and the node of `c` keeps the `next` of its block.  With blocks
that hold bytes of older data (`stale_block`) the chain has four nodes, and
the node after the first separator is not the node that parsing `b | c` alone
gives. -/
theorem parse_command_pipe_stale (fresh : Nat → command_t) :
    (parse_command fresh (line "a | b | c".toList []) zeroed).map
        (fun c => (c.name, c.next.map (fun d => (d.name, d.background, d.redirects1,
          d.next.map (fun e => (e.name, e.background, e.redirects1, e.next)))))) =
      some ("a".toList, some ("b".toList, (fresh 0).background, (fresh 0).redirects1,
        some ("c".toList, (fresh 1).background, (fresh 1).redirects1, (fresh 1).next))) ∧
    (parse_command (fun _ => stale_block) (line "a | b | c".toList []) zeroed).map
        (fun c => (chain_length c, chain_names c)) =
      some (4, ["a".toList, "b".toList, "c".toList, "gone".toList]) ∧
    (parse_command (fun _ => stale_block) (line "a | b | c".toList []) zeroed).map
        (fun c => c.next.map (fun d => (d.name, d.background, d.redirects1))) =
      some (some ("b".toList, true, some "old.txt".toList)) ∧
    (parse_command no_junk (line "b | c".toList []) zeroed).map
        (fun d => (d.name, d.background, d.redirects1, chain_length d)) =
      some ("b".toList, false, none, 2) :=
  ⟨rfl, by decide, by decide, by decide⟩

/-! ## The executor: calls of `open` -/

theorem opens_of_cons (c : sys_call) (t : List sys_call) :
    opens_of (c :: t) = opens_of t ++
      (match c with
       | sys_call.open_ path flags _ => [(path, flags)]
       | _ => []) := by
  unfold opens_of
  rw [List.reverse_cons, List.filterMap_append]
  cases c <;> simp [List.filterMap_cons]

theorem opens_of_log (k : os) (c : sys_call)
    (h : ∀ p f r, c ≠ sys_call.open_ p f r) :
    opens_of (k.log c).trace = opens_of k.trace := by
  unfold os.log
  rw [opens_of_cons]
  cases c <;> simp
  exact absurd rfl (h _ _ _)

theorem opens_of_sys_fork (k : os) : opens_of (sys_fork k).2.trace = opens_of k.trace := by
  unfold sys_fork
  cases k.fork_results <;> simp only <;> split_ifs <;>
    simp [os.log, opens_of_cons]

theorem opens_of_sys_dup2 (k : os) (o : Option Int) (n : Int) :
    opens_of (sys_dup2 k o n).trace = opens_of k.trace := by
  unfold sys_dup2
  cases o with
  | none => simp [os.log, opens_of_cons]
  | some fd =>
    simp only
    cases lookup_fd (k.log (sys_call.dup2 (some fd) n)).fds fd with
    | none => simp [os.log, opens_of_cons]
    | some r => simp only; split_ifs <;> simp [os.log, opens_of_cons]

theorem opens_of_sys_close (k : os) (o : Option Int) :
    opens_of (sys_close k o).trace = opens_of k.trace := by
  unfold sys_close
  cases o <;> simp [os.log, opens_of_cons]

theorem opens_of_sys_waitpid (k : os) (p : Int) :
    opens_of (sys_waitpid k p).trace = opens_of k.trace := by
  simp [sys_waitpid, os.log, opens_of_cons]

theorem opens_of_sys_open (k : os) (path : List Char) (flags : open_flags) :
    opens_of (sys_open k path flags).2.trace = opens_of k.trace ++ [(path, flags)] := by
  unfold sys_open
  split_ifs <;> simp [os.log, opens_of_cons]

theorem opens_of_search_path (name : List Char) (args : List (Option (List Char)))
    (dirs : List (List Char)) :
    ∀ k : os, opens_of (search_path name args dirs k).2.trace = opens_of k.trace := by
  induction dirs with
  | nil => intro k; rfl
  | cons d dirs ih =>
    intro k
    unfold search_path
    simp only
    split_ifs
    · simp [os.log, opens_of_cons]
    · simp [os.log, opens_of_cons]
    · rw [ih]; simp [os.log, opens_of_cons]

theorem opens_of_open_redirect (target : Option (List Char)) (flags : open_flags)
    (message : String) (k : os) :
    opens_of (open_redirect target flags message k).2.2.trace =
      opens_of k.trace ++ (match target with | none => [] | some p => [(p, flags)]) := by
  unfold open_redirect
  cases target with
  | none => simp
  | some p =>
    simp only
    split_ifs
    · simp only [os.log, opens_of_cons, List.append_nil]; exact opens_of_sys_open k p flags
    · exact opens_of_sys_open k p flags

theorem opens_of_run_command (command : command_t) (fd_read fd_write fd_append : Option Int)
    (k : os) (h1 : command.name ≠ "kuhex".toList) (h2 : command.name ≠ "psvis".toList) :
    opens_of (run_command command fd_read fd_write fd_append k).2.trace = opens_of k.trace := by
  unfold run_command
  have e1 : (command.name == "kuhex".toList) = false := by simpa using h1
  have e2 : (command.name == "psvis".toList) = false := by simpa using h2
  simp only [e1, e2, Bool.false_eq_true, if_false]
  have hk : ∀ k0 : os, opens_of
      (match search_path command.name command.args k0.path k0 with
        | (some e, k) => (e, k)
        | (none, k) =>
          (ending.exits EXIT_FAILURE,
            (k.log (sys_call.print "command not found\n")).log (sys_call.exit EXIT_FAILURE))
        ).2.trace = opens_of k0.trace := by
    intro k0
    have := opens_of_search_path command.name command.args k0.path k0
    cases hs : search_path command.name command.args k0.path k0 with
    | mk e k1 =>
      rw [hs] at this
      cases e <;> simpa [os.log, opens_of_cons] using this
  rw [hk]
  split_ifs <;> simp only [opens_of_sys_close, opens_of_sys_dup2]

/-- The calls of `open` of the process spawned for a command with a single
redirect target. -/
theorem opens_of_spawned_single (command : command_t) (k : os)
    (h1 : command.name ≠ "kuhex".toList) (h2 : command.name ≠ "psvis".toList)
    (h0 : command.redirects0 = none)
    (hone : command.redirects1 = none ∨ command.redirects2 = none) :
    opens_of (spawned_single command k).2.trace = opens_of k.trace ++
      (match command.redirects1 with
        | none => []
        | some p => [(p, open_flags.wronly_trunc_creat)]) ++
      (match command.redirects2 with
        | none => []
        | some p => [(p, open_flags.wronly_append_creat)]) := by
  unfold spawned_single
  rw [h0]
  have hr0 : open_redirect none open_flags.rdonly "failed to open input redirect file" k
      = (none, false, k) := rfl
  simp only [hr0, Bool.false_eq_true, if_false]
  have tail_ok : ∀ (fw fa : Option Int) (k1 : os),
      opens_of
        (if ((sys_fork k1).1 == 0) = true
          then run_command command none fw fa (sys_fork k1).2
          else (ending.exits SUCCESS,
            (sys_close (sys_close (sys_close (sys_waitpid (sys_fork k1).2 (sys_fork k1).1) none)
              fw) fa).log (sys_call.exit SUCCESS))).2.trace = opens_of k1.trace := by
    intro fw fa k1
    split_ifs
    · rw [opens_of_run_command _ _ _ _ _ h1 h2, opens_of_sys_fork]
    · simp only [os.log, opens_of_cons, List.append_nil, opens_of_sys_close,
        opens_of_sys_waitpid, opens_of_sys_fork]
  have hw := opens_of_open_redirect command.redirects1 open_flags.wronly_trunc_creat
    "failed to open write redirect file" k
  rcases hone with hn1 | hn2
  · rw [hn1] at hw ⊢
    have hr1 : open_redirect none open_flags.wronly_trunc_creat
        "failed to open write redirect file" k = (none, false, k) := rfl
    simp only [hr1, Bool.false_eq_true, if_false, List.append_nil]
    have ha := opens_of_open_redirect command.redirects2 open_flags.wronly_append_creat
      "failed to open append redirect file" k
    cases hq : open_redirect command.redirects2 open_flags.wronly_append_creat
        "failed to open append redirect file" k with
    | mk fa rest =>
      cases rest with
      | mk stop k2 =>
        rw [hq] at ha
        simp only at ha ⊢
        cases stop with
        | true => simpa using ha
        | false =>
          simp only [Bool.false_eq_true, if_false]
          rw [tail_ok, ha]
  · rw [hn2]
    cases hq : open_redirect command.redirects1 open_flags.wronly_trunc_creat
        "failed to open write redirect file" k with
    | mk fw rest =>
      cases rest with
      | mk stop k2 =>
        rw [hq] at hw
        simp only at hw ⊢
        cases stop with
        | true => simpa using hw
        | false =>
          simp only [Bool.false_eq_true, if_false]
          have hr2 : open_redirect none open_flags.wronly_append_creat
              "failed to open append redirect file" k2 = (none, false, k2) := rfl
          simp only [hr2, Bool.false_eq_true, if_false, List.append_nil]
          rw [tail_ok, hw]

/-- The calls of `open` made, in the process spawned by `process_command`,
for a command that is neither empty, a builtin nor piped and has a single
output redirect. -/
theorem opens_of_process_command (command : command_t) (k : os) (rest : List Int)
    (hk : k.fork_results = 0 :: rest)
    (hname : command.name ≠ [] ∧ command.name ≠ "exit".toList ∧ command.name ≠ "cd".toList ∧
      command.name ≠ "kuhex".toList ∧ command.name ≠ "psvis".toList)
    (hnext : command.next = none) (h0 : command.redirects0 = none)
    (hone : command.redirects1 = none ∨ command.redirects2 = none) :
    opens_of (process_command command k).2.trace = opens_of k.trace ++
      (match command.redirects1 with
        | none => []
        | some p => [(p, open_flags.wronly_trunc_creat)]) ++
      (match command.redirects2 with
        | none => []
        | some p => [(p, open_flags.wronly_append_creat)]) := by
  obtain ⟨n1, n2, n3, n4, n5⟩ := hname
  unfold process_command
  have e1 : (command.name == []) = false := by simpa using n1
  have e2 : (command.name == "exit".toList) = false := by simpa using n2
  have e3 : (command.name == "cd".toList) = false := by simpa using n3
  simp only [e1, e2, e3, hnext, Option.isSome_none, Bool.false_eq_true, if_false]
  unfold process_single
  have hf : (sys_fork k).1 = 0 := by simp [sys_fork, hk]
  simp only [hf, beq_self_eq_true, if_true]
  rw [opens_of_spawned_single command _ n4 n5 h0 hone, opens_of_sys_fork]

/-- Every field the executor reads, for a line without separator. -/
theorem parse_fields_no_pipe (fresh : Nat → command_t) (s beyond : List Char) (hs : NUL ∉ s)
    (hp : ['|'] ∉ tokens s) (hfit : ∀ t ∈ (tokens s).tail, t.length < TEMP_BUF_SIZE) :
    ∃ c, parse_command fresh (line s beyond) zeroed = some c ∧ c.next = none ∧
      c.name = (tokens s).headD [] ∧
      c.args = some c.name :: (positional (tokens s).tail).map some ++ [none] ∧
      c.redirects0 = ((first_segment (tokens s)).filter is_in).getLast?.map List.tail ∧
      c.redirects1 = ((first_segment (tokens s)).filter is_truncate).getLast?.map List.tail ∧
      c.redirects2 =
        ((first_segment (tokens s)).filter is_append).getLast?.map (List.drop 2) := by
  have hc := cstr_line s beyond hs
  obtain ⟨c, sv, hparse, hnext, hname, hargs, _⟩ :=
    parse_fuel_no_pipe ((line s beyond).length + 1) fresh (line s beyond) zeroed
      (Nat.le_refl _) (by rw [hc]; exact hp) (by rw [hc]; exact hfit)
  have hends : ∀ b, ends_with_separator b (tokens s) = false := by
    intro b
    cases hts : tokens s with
    | nil => cases b <;> rfl
    | cons t ts =>
      cases b with
      | false => rw [← hts]; exact ends_later_no_pipe _ hp
      | true =>
        rw [ends_with_separator_first]
        exact ends_later_no_pipe ts (fun e => hp (by rw [hts]; exact List.mem_cons_of_mem _ e))
  have hfits : fits_temp_buf true (tokens s) = true := by
    cases hts : tokens s with
    | nil => rfl
    | cons t ts =>
      rw [fits_temp_buf_first]
      rw [hts] at hfit hp
      exact (fits_later_no_pipe ts (fun e => hp (List.mem_cons_of_mem _ e))).mpr hfit
  obtain ⟨c', sv', init, nx, hparse', _, _, hi0, hi1, hi2, hc'⟩ :=
    parse_fuel_head ((line s beyond).length + 1) fresh (line s beyond) zeroed (Nat.le_refl _)
      (by rw [hc, hends true]; intro he; exact absurd he (by decide))
      (by rw [hc]; exact hfits)
  have hcc : c' = c := by
    have := hparse'.symm.trans hparse
    simp only [Option.some.injEq, Prod.mk.injEq] at this
    exact this.1
  rw [hc] at hname hargs hc'
  refine ⟨c, by simp only [parse_command, hparse]; rfl, hnext, hname, hargs, ?_, ?_, ?_⟩
  · rw [← hcc, hc', (finish_args_fields _ _).2.2.2.1]
    show (fold_args (init, 0) (first_segment (tokens s))).1.redirects0 = _
    rw [fold_args_redirects0, hi0]
    cases ((first_segment (tokens s)).filter is_in).getLast? <;> rfl
  · rw [← hcc, hc', (finish_args_fields _ _).2.2.2.2.1]
    show (fold_args (init, 0) (first_segment (tokens s))).1.redirects1 = _
    rw [fold_args_redirects1, hi1]
    cases ((first_segment (tokens s)).filter is_truncate).getLast? <;> rfl
  · rw [← hcc, hc', (finish_args_fields _ _).2.2.2.2.2.1]
    show (fold_args (init, 0) (first_segment (tokens s))).1.redirects2 = _
    rw [fold_args_redirects2, hi2]
    cases ((first_segment (tokens s)).filter is_append).getLast? <;> rfl

/-- C5, as stated, fails: in `cmd > out.txt` and `cmd >> out.txt` the
operator is a token of its own, so the redirect target recorded is the empty
string and `out.txt` is a positional argument. -/
theorem redirect_with_blank_counterexample :
    (parse_command no_junk (line "cmd > out.txt".toList []) zeroed).map
        (fun c => (c.redirects1, c.redirects2, c.args))
      = some (some [], none, [some "cmd".toList, some "out.txt".toList, none]) ∧
    (parse_command no_junk (line "cmd >> out.txt".toList []) zeroed).map
        (fun c => (c.redirects1, c.redirects2, c.args))
      = some (none, some [], [some "cmd".toList, some "out.txt".toList, none]) := by
  constructor <;> rfl

/-- C5, amended: with the operator attached to the path, and whatever the
blocks from `malloc` and the buffer behind the line hold, parsing
`cmd >out.txt` yields a node whose truncate redirect target is `out.txt` and
parsing `cmd >>out.txt` one whose append redirect target is `out.txt`, and
`out.txt` is no positional argument; in the process `process_command` spawns
for the node, the only call of `open` is on that path, with
`O_WRONLY | O_TRUNC | O_CREAT` for the first line and with
`O_WRONLY | O_APPEND | O_CREAT` for the second. -/
theorem redirect_attached (fresh : Nat → command_t) (beyond : List Char) (k : os)
    (rest : List Int) (hk : k.fork_results = 0 :: rest) :
    ∃ c1 c2,
      parse_command fresh (line "cmd >out.txt".toList beyond) zeroed = some c1 ∧
      c1.redirects1 = some "out.txt".toList ∧ c1.redirects2 = none ∧
      c1.args = [some "cmd".toList, none] ∧
      opens_of (process_command c1 k).2.trace =
        opens_of k.trace ++ [("out.txt".toList, open_flags.wronly_trunc_creat)] ∧
      parse_command fresh (line "cmd >>out.txt".toList beyond) zeroed = some c2 ∧
      c2.redirects2 = some "out.txt".toList ∧ c2.redirects1 = none ∧
      c2.args = [some "cmd".toList, none] ∧
      opens_of (process_command c2 k).2.trace =
        opens_of k.trace ++ [("out.txt".toList, open_flags.wronly_append_creat)] := by
  obtain ⟨c1, hp1, hx1, hn1, ha1, h10, h11, h12⟩ :=
    parse_fields_no_pipe fresh "cmd >out.txt".toList beyond (by decide) (by decide) (by decide)
  obtain ⟨c2, hp2, hx2, hn2, ha2, h20, h21, h22⟩ :=
    parse_fields_no_pipe fresh "cmd >>out.txt".toList beyond (by decide) (by decide)
      (by decide)
  have t1 : tokens "cmd >out.txt".toList = ["cmd".toList, ">out.txt".toList] := by decide
  have t2 : tokens "cmd >>out.txt".toList = ["cmd".toList, ">>out.txt".toList] := by decide
  have hn1' : c1.name = "cmd".toList := by rw [hn1, t1]; rfl
  have hn2' : c2.name = "cmd".toList := by rw [hn2, t2]; rfl
  have h10' : c1.redirects0 = none := by rw [h10, t1]; decide
  have h11' : c1.redirects1 = some "out.txt".toList := by rw [h11, t1]; decide
  have h12' : c1.redirects2 = none := by rw [h12, t1]; decide
  have h20' : c2.redirects0 = none := by rw [h20, t2]; decide
  have h21' : c2.redirects1 = none := by rw [h21, t2]; decide
  have h22' : c2.redirects2 = some "out.txt".toList := by rw [h22, t2]; decide
  have ha1' : c1.args = [some "cmd".toList, none] := by rw [ha1, hn1', t1]; decide
  have ha2' : c2.args = [some "cmd".toList, none] := by rw [ha2, hn2', t2]; decide
  have o1 := opens_of_process_command c1 k rest hk
    (by rw [hn1']; decide) hx1 h10' (Or.inr h12')
  have o2 := opens_of_process_command c2 k rest hk
    (by rw [hn2']; decide) hx2 h20' (Or.inl h21')
  rw [h11', h12'] at o1
  rw [h21', h22'] at o2
  exact ⟨c1, c2, hp1, h11', h12', ha1', by simpa using o1, hp2, h22', h21', ha2',
    by simpa using o2⟩

/-- C5, amended, in an operating system where every call succeeds and the
spawned process is followed. -/
theorem redirect_attached_witness :
    ({ os0 with fork_results := [0] } : os).fork_results = 0 :: [] ∧
    ∃ c1 c2,
      parse_command no_junk (line "cmd >out.txt".toList []) zeroed = some c1 ∧
      c1.redirects1 = some "out.txt".toList ∧ c1.redirects2 = none ∧
      c1.args = [some "cmd".toList, none] ∧
      opens_of (process_command c1 { os0 with fork_results := [0] }).2.trace =
        opens_of ({ os0 with fork_results := [0] } : os).trace ++
          [("out.txt".toList, open_flags.wronly_trunc_creat)] ∧
      parse_command no_junk (line "cmd >>out.txt".toList []) zeroed = some c2 ∧
      c2.redirects2 = some "out.txt".toList ∧ c2.redirects1 = none ∧
      c2.args = [some "cmd".toList, none] ∧
      opens_of (process_command c2 { os0 with fork_results := [0] }).2.trace =
        opens_of ({ os0 with fork_results := [0] } : os).trace ++
          [("out.txt".toList, open_flags.wronly_append_creat)] :=
  ⟨rfl, redirect_attached no_junk [] { os0 with fork_results := [0] } [] rfl⟩

/-! ## The executor: a piped chain -/

theorem count_log (k : os) (c : sys_call) :
    count_pipe (k.log c).trace =
        count_pipe k.trace + (match c with | sys_call.pipe _ => 1 | _ => 0) ∧
      count_fork (k.log c).trace =
        count_fork k.trace + (match c with | sys_call.fork _ => 1 | _ => 0) := by
  unfold os.log count_pipe count_fork
  cases c <;> simp [List.filter_cons]

theorem sys_close_facts (k : os) (fd : Option Int) :
    count_pipe (sys_close k fd).trace = count_pipe k.trace ∧
    count_fork (sys_close k fd).trace = count_fork k.trace ∧
    (sys_close k fd).children = k.children ∧
    (succeeding k → succeeding (sys_close k fd)) := by
  unfold sys_close
  cases fd <;> simp [os.log, count_pipe, count_fork, succeeding, List.filter_cons]

theorem sys_pipe_facts (k : os) (pipefd : Int × Int) (h : succeeding k) :
    (sys_pipe k pipefd).1 = 0 ∧
    count_pipe (sys_pipe k pipefd).2.2.trace = count_pipe k.trace + 1 ∧
    count_fork (sys_pipe k pipefd).2.2.trace = count_fork k.trace ∧
    (sys_pipe k pipefd).2.2.children = k.children ∧
    succeeding (sys_pipe k pipefd).2.2 := by
  obtain ⟨h1, h2, h3, h4⟩ := h
  unfold sys_pipe
  cases hp : k.pipe_fails with
  | nil =>
    simp [os.log, count_pipe, count_fork, succeeding, List.filter_cons, h3]
    exact ⟨fun r hr => h2 r hr, fun p hp' => h4 p hp'⟩
  | cons b bs =>
    rw [hp] at h1
    have hb : b = false := by
      cases b with
      | false => rfl
      | true => exact absurd (List.mem_cons_self _ _) h1
    subst hb
    simp [os.log, count_pipe, count_fork, succeeding, List.filter_cons, h3]
    exact ⟨fun hb => h1 (List.mem_cons_of_mem _ hb), fun r hr => h2 r hr, fun p hp' => h4 p hp'⟩

theorem sys_fork_facts (k : os) (h : succeeding k) :
    (sys_fork k).1 > 0 ∧
    count_pipe (sys_fork k).2.trace = count_pipe k.trace ∧
    count_fork (sys_fork k).2.trace = count_fork k.trace + 1 ∧
    (sys_fork k).2.children = k.children ++ [(sys_fork k).1] ∧
    succeeding (sys_fork k).2 := by
  obtain ⟨h1, h2, h3, h4⟩ := h
  unfold sys_fork
  cases hf : k.fork_results with
  | nil =>
    have hne : ¬ k.next_pid = 0 := by omega
    simp [os.log, count_pipe, count_fork, succeeding, List.filter_cons, h3, hne]
    refine ⟨h1, by omega, fun p hp => ?_⟩
    rcases hp with hp | hp
    · exact h4 p hp
    · rw [hp]; exact h3
  | cons r rs =>
    have hr : r > 0 := h2 r (by rw [hf]; simp)
    have hne : ¬ r = 0 := by omega
    simp [os.log, count_pipe, count_fork, succeeding, List.filter_cons, h3, hr, hne]
    refine ⟨h1, fun x hx => h2 x (by rw [hf]; simp [hx]), fun p hp => ?_⟩
    rcases hp with hp | hp
    · exact h4 p hp
    · rw [hp]; exact hr

theorem chain_length_mk (name : List Char) (bg ac : Bool) (n : Nat)
    (args : List (Option (List Char))) (r0 r1 r2 : Option (List Char))
    (next : Option command_t) :
    chain_length ⟨name, bg, ac, n, args, r0, r1, r2, next⟩ =
      (next.map chain_length).getD 0 + 1 :=
  chain_length_eq _

theorem reaped_sys_close (k : os) (fd : Option Int) :
    count_reaped (sys_close k fd).trace = count_reaped k.trace := by
  unfold sys_close
  cases fd <;> simp [os.log, count_reaped, List.filter_cons]

theorem reaped_sys_pipe (k : os) (pipefd : Int × Int) :
    count_reaped (sys_pipe k pipefd).2.2.trace = count_reaped k.trace := by
  unfold sys_pipe
  cases hp : k.pipe_fails with
  | nil => simp [os.log, count_reaped, List.filter_cons]
  | cons b bs => cases b <;> simp [os.log, count_reaped, List.filter_cons]

theorem reaped_sys_fork (k : os) :
    count_reaped (sys_fork k).2.trace = count_reaped k.trace := by
  unfold sys_fork
  cases hf : k.fork_results with
  | nil =>
    simp only [os.log]
    split_ifs <;> simp [count_reaped, List.filter_cons]
  | cons r rs =>
    simp only [os.log]
    split_ifs <;> simp [count_reaped, List.filter_cons]

/-- One turn of the loop over a piped chain when `pipe` and `fork` succeed:
the parent goes on, having made one child, and one pipe when there is a next
node. -/
theorem pipe_turn_parent (c : command_t) (prev : Int) (pipefd : Int × Int) (k : os)
    (h : succeeding k) :
    (pipe_turn c prev pipefd k).1 = none ∧
      succeeding (pipe_turn c prev pipefd k).2.2 ∧
      count_pipe (pipe_turn c prev pipefd k).2.2.trace =
        count_pipe k.trace + (if c.next.isSome then 1 else 0) ∧
      count_fork (pipe_turn c prev pipefd k).2.2.trace = count_fork k.trace + 1 ∧
      (pipe_turn c prev pipefd k).2.2.children.length = k.children.length + 1 ∧
      count_reaped (pipe_turn c prev pipefd k).2.2.trace = count_reaped k.trace := by
  cases hnext : c.next.isSome with
  | false =>
    obtain ⟨f1, f2, f3, f4, f5⟩ := sys_fork_facts k h
    have hne : ((sys_fork k).1 == 0) = false := by
      rw [beq_eq_false_iff_ne]; omega
    have h0 : ((0 : Int) == -1) = false := by decide
    by_cases hprev : (prev != -1) = true
    · obtain ⟨c1, c2, c3, c4⟩ := sys_close_facts (sys_fork k).2 (some prev)
      simp only [pipe_turn, hnext, Bool.false_eq_true, if_false, h0, hne, f1, if_true, hprev]
      exact ⟨trivial, c4 f5, by rw [c1, f2]; rfl, by rw [c2, f3], by rw [c3, f4]; simp,
        by rw [reaped_sys_close, reaped_sys_fork]⟩
    · simp only [pipe_turn, hnext, Bool.false_eq_true, if_false, h0, hne, f1, if_true, hprev]
      exact ⟨trivial, f5, by rw [f2]; rfl, f3, by rw [f4]; simp, reaped_sys_fork k⟩
  | true =>
    obtain ⟨p1, p2, p3, p4, p5⟩ := sys_pipe_facts k pipefd h
    obtain ⟨f1, f2, f3, f4, f5⟩ := sys_fork_facts (sys_pipe k pipefd).2.2 p5
    have hne : ((sys_fork (sys_pipe k pipefd).2.2).1 == 0) = false := by
      rw [beq_eq_false_iff_ne]; omega
    have h0 : ((sys_pipe k pipefd).1 == -1) = false := by
      rw [p1]; decide
    obtain ⟨c1, c2, c3, c4⟩ := sys_close_facts (sys_fork (sys_pipe k pipefd).2.2).2
      (some (sys_pipe k pipefd).2.1.2)
    by_cases hprev : (prev != -1) = true
    · obtain ⟨d1, d2, d3, d4⟩ := sys_close_facts
        (sys_close (sys_fork (sys_pipe k pipefd).2.2).2 (some (sys_pipe k pipefd).2.1.2))
        (some prev)
      simp only [pipe_turn, hnext, Bool.false_eq_true, if_false, h0, hne, f1, if_true, hprev]
      exact ⟨trivial, d4 (c4 f5), by rw [d1, c1, f2, p2], by rw [d2, c2, f3, p3],
        by rw [d3, c3, f4, p4]; simp,
        by rw [reaped_sys_close, reaped_sys_close, reaped_sys_fork, reaped_sys_pipe]⟩
    · simp only [pipe_turn, hnext, Bool.false_eq_true, if_false, h0, hne, f1, if_true, hprev]
      exact ⟨trivial, c4 f5, by rw [c1, f2, p2], by rw [c2, f3, p3], by rw [c3, f4, p4]; simp,
        by rw [reaped_sys_close, reaped_sys_fork, reaped_sys_pipe]⟩

/-- The loop over a piped chain when every call succeeds: it ends with
`current_command == NULL`, having made one pipe per node but the last and one
child per node. -/
theorem pipe_loop_succeeding (n : Nat) :
    ∀ (command : command_t) (prev : Int) (pipefd : Int × Int) (k : os),
      chain_length command = n → succeeding k →
      ∃ k', pipe_loop command prev pipefd k = (none, k') ∧ succeeding k' ∧
        count_pipe k'.trace = count_pipe k.trace + (n - 1) ∧
        count_fork k'.trace = count_fork k.trace + n ∧
        k'.children.length = k.children.length + n ∧
        count_reaped k'.trace = count_reaped k.trace := by
  induction n with
  | zero =>
    intro command prev pipefd k hn _
    rw [chain_length_eq] at hn
    omega
  | succ n ih =>
    intro command prev pipefd k hn hk
    obtain ⟨name, bg, ac, cnt, args, r0, r1, r2, next⟩ := command
    rw [chain_length_mk] at hn
    obtain ⟨t1, t2, t3, t4, t5, t6⟩ :=
      pipe_turn_parent ⟨name, bg, ac, cnt, args, r0, r1, r2, next⟩ prev pipefd k hk
    cases next with
    | none =>
      have hn0 : n = 0 := by simpa using hn
      subst hn0
      refine ⟨_, ?_, t2, by simpa using t3, t4, t5, t6⟩
      rw [pipe_loop, t1]
    | some c =>
      have hc : chain_length c = n := by simpa using hn
      have hnpos : 1 ≤ n := by
        rw [← hc, chain_length_eq]; omega
      obtain ⟨k', e1, e2, e3, e4, e5, e6⟩ := ih c
        (pipe_turn ⟨name, bg, ac, cnt, args, r0, r1, r2, some c⟩ prev pipefd k).2.1.1
        (pipe_turn ⟨name, bg, ac, cnt, args, r0, r1, r2, some c⟩ prev pipefd k).2.1
        (pipe_turn ⟨name, bg, ac, cnt, args, r0, r1, r2, some c⟩ prev pipefd k).2.2 hc t2
      refine ⟨k', ?_, e2, ?_, ?_, ?_, by rw [e6, t6]⟩
      · rw [pipe_loop]
        simp only [t1]
        exact e1
      · rw [e3, t3]; simp; omega
      · rw [e4, t4]; omega
      · rw [e5, t5]; omega

/-- The loop `while (wait(NULL) > 0);` ends when no child is left, after a
call of `wait` that returned -1. -/
theorem wait_while_facts (cs : List Int) :
    ∀ k : os, k.children = cs → (∀ p ∈ cs, p > 0) →
      (wait_while cs k).children = [] ∧
      (wait_while cs k).trace.head? = some (sys_call.wait (-1)) ∧
      count_pipe (wait_while cs k).trace = count_pipe k.trace ∧
      count_fork (wait_while cs k).trace = count_fork k.trace ∧
      count_reaped (wait_while cs k).trace = count_reaped k.trace + cs.length := by
  induction cs with
  | nil =>
    intro k hk _
    simp [wait_while, sys_wait, hk, os.log, count_pipe, count_fork, count_reaped,
      List.filter_cons]
  | cons c cs ih =>
    intro k hk hpos
    have hc : c > 0 := hpos c (by simp)
    have hw : sys_wait k = (c, ({ k with children := cs }).log (sys_call.wait c)) := by
      simp [sys_wait, hk]
    obtain ⟨i1, i2, i3, i4, i5⟩ := ih (({ k with children := cs }).log (sys_call.wait c)) rfl
      (fun p hp => hpos p (by simp [hp]))
    simp only [wait_while, hw, hc, if_true]
    refine ⟨i1, i2, ?_, ?_, ?_⟩
    · rw [i3]; simp [os.log, count_pipe, List.filter_cons]
    · rw [i4]; simp [os.log, count_fork, List.filter_cons]
    · rw [i5]; simp [os.log, count_reaped, List.filter_cons, hc]; omega

/-- C6: for a chain of at least two nodes whose first name is not empty,
`exit` or `cd`, when every `pipe` and `fork` succeeds, `process_command`
(followed in the shell process) makes one `pipe` call per node but the last
and one `fork` call per node, reaps every child by a `wait` call, has no child
left when it returns, returns after a `wait` call that found no child, and
returns `SUCCESS`; the `background` fields of the nodes play no part. -/
theorem process_command_piped (command : command_t) (k : os)
    (hchain : 2 ≤ chain_length command)
    (hname : command.name ≠ [] ∧ command.name ≠ "exit".toList ∧ command.name ≠ "cd".toList)
    (hpipe : true ∉ k.pipe_fails) (hfork : ∀ r ∈ k.fork_results, r > 0)
    (hpid : k.next_pid > 0) (hchildren : ∀ p ∈ k.children, p > 0) :
    (process_command command k).1 = ending.returns SUCCESS ∧
      count_pipe (process_command command k).2.trace =
        count_pipe k.trace + (chain_length command - 1) ∧
      count_fork (process_command command k).2.trace =
        count_fork k.trace + chain_length command ∧
      count_reaped (process_command command k).2.trace =
        count_reaped k.trace + k.children.length + chain_length command ∧
      (process_command command k).2.children = [] ∧
      (process_command command k).2.trace.head? = some (sys_call.wait (-1)) := by
  obtain ⟨hn1, hn2, hn3⟩ := hname
  have hnext : command.next.isSome = true := by
    rw [chain_length_eq] at hchain
    cases hx : command.next with
    | none => rw [hx] at hchain; simp at hchain
    | some c => rfl
  obtain ⟨k', e1, e2, e3, e4, e5, e6⟩ :=
    pipe_loop_succeeding (chain_length command) command (-1) (0, 0) k rfl
      ⟨hpipe, hfork, hpid, hchildren⟩
  obtain ⟨w1, w2, w3, w4, w5⟩ := wait_while_facts k'.children k' rfl e2.2.2.2
  have hpc : process_command command k = (ending.returns SUCCESS, wait_while k'.children k') := by
    unfold process_command
    rw [if_neg (by simpa using hn1), if_neg (by simpa using hn2), if_neg (by simpa using hn3),
      if_pos hnext]
    unfold process_piped
    rw [e1]
  rw [hpc]
  refine ⟨rfl, by rw [w3, e3], by rw [w4, e4], ?_, w1, w2⟩
  show count_reaped (wait_while k'.children k').trace = _
  rw [w5, e6, e5]; omega

/-- Witness of C6: the chain of `a | b | c &`, whose last node has the
`background` field set, from the start state. -/
theorem process_command_piped_witness :
    chain_length chain_abc = 3 ∧
      (chain_abc.next.bind (fun c => c.next)).map (fun c => c.background) = some true ∧
      (process_command chain_abc os0).1 = ending.returns SUCCESS ∧
      count_pipe (process_command chain_abc os0).2.trace =
        count_pipe os0.trace + (chain_length chain_abc - 1) ∧
      count_fork (process_command chain_abc os0).2.trace =
        count_fork os0.trace + chain_length chain_abc ∧
      count_reaped (process_command chain_abc os0).2.trace =
        count_reaped os0.trace + os0.children.length + chain_length chain_abc ∧
      (process_command chain_abc os0).2.children = [] ∧
      (process_command chain_abc os0).2.trace.head? = some (sys_call.wait (-1)) :=
  ⟨by rfl, by rfl,
    process_command_piped chain_abc os0 (by decide) (by decide) (by decide) (by decide)
      (by decide) (by decide)⟩

/-! ## The line editor -/

theorem poke_append (l t : List Char) (c : Char) :
    poke (l ++ t) l.length c = l ++ c :: t.tail := by
  unfold poke
  have h : l.length - (l ++ t).length = 0 := by simp
  rw [h]
  simp [List.take_append_eq_append_take, List.drop_append_eq_append_drop]

theorem peek_poke (m : List Char) (i : Nat) (c : Char) : peek (poke m i c) i = c := by
  unfold peek poke
  have hlen : ((m ++ List.replicate (i - m.length) NUL).take i).length = i := by
    simp; omega
  rw [List.getD_eq_getElem?_getD, List.getElem?_append_right (by omega), hlen]
  simp

theorem store_fields (s : editor) (off : Int) (c : Char) :
    (s.store off c).index = s.index ∧ (s.store off c).oldbuf = s.oldbuf ∧
      (s.store off c).stdin_termios = s.stdin_termios ∧ (s.store off c).out = s.out ∧
      (s.store off c).writes = off :: s.writes :=
  ⟨rfl, rfl, rfl, rfl, rfl⟩

theorem store_buf (s : editor) (n : Nat) (c : Char) :
    (s.store (n : Int) c).buf = poke s.buf n c := by
  simp [editor.store]

theorem store_bytes_fields (bytes : List Char) :
    ∀ (s : editor) (off : Int),
      (s.store_bytes off bytes).index = s.index ∧
        (s.store_bytes off bytes).oldbuf = s.oldbuf ∧
        (s.store_bytes off bytes).stdin_termios = s.stdin_termios ∧
        (s.store_bytes off bytes).out = s.out := by
  induction bytes with
  | nil => intro s off; exact ⟨rfl, rfl, rfl, rfl⟩
  | cons c cs ih =>
    intro s off
    obtain ⟨h1, h2, h3, h4⟩ := ih (s.store off c) (off + 1)
    exact ⟨h1, h2, h3, h4⟩

/-- Consecutive stores from the offset `l.length` on replace the bytes that
follow `l`. -/
theorem store_bytes_buf (bytes : List Char) :
    ∀ (s : editor) (l t : List Char), s.buf = l ++ t →
      (s.store_bytes (l.length : Int) bytes).buf = l ++ bytes ++ t.drop bytes.length := by
  induction bytes with
  | nil => intro s l t h; simp [editor.store_bytes, h]
  | cons c cs ih =>
    intro s l t h
    have h1 : (s.store (l.length : Int) c).buf = (l ++ [c]) ++ t.tail := by
      rw [store_buf, h, poke_append]; simp
    have h2 := ih (s.store (l.length : Int) c) (l ++ [c]) t.tail h1
    have h3 : ((l ++ [c]).length : Int) = (l.length : Int) + 1 := by simp
    rw [h3] at h2
    rw [editor.store_bytes, h2]
    simp

/-- C7: whatever the state at entry and the node, when the first byte read is
the end-of-input byte 4, `prompt` returns `EXIT` with `ICANON` and `ECHO`
still cleared on standard input: the attributes saved at entry are not set
back on this path. -/
theorem prompt_end_of_input (command : command_t) (env : surroundings) (rest : List Char)
    (s : editor) :
    (prompt command env (Char.ofNat 4 :: rest) s).map
        (fun r => (r.1, r.2.2.1.stdin_termios, r.2.2.2)) =
      some (EXIT, { icanon := false, echo := false }, rest) := by
  rfl

/-- A line accepted on newline: the attributes saved at entry are set back. -/
theorem prompt_newline_restores (command : command_t) (env : surroundings) (rest : List Char)
    (s : editor) :
    (prompt command env ('\n' :: rest) s).map
        (fun r => (r.1, r.2.2.1.stdin_termios, r.2.2.2)) =
      some (SUCCESS, s.stdin_termios, rest) := by
  rfl

/-- One turn of the loop of `prompt` on a byte that is stored. -/
theorem prompt_loop_insert (env : surroundings) (c : Char) (rest : List Char) (s : editor)
    (h9 : (c == Char.ofNat 9) = false) (h127 : (c == Char.ofNat 127) = false)
    (h27 : (c == Char.ofNat 27) = false) (h91 : (c == Char.ofNat 91) = false)
    (h65 : (c == Char.ofNat 65) = false) :
    prompt_loop env (c :: rest) s =
      if (insert_byte c s).index ≥ BUF_SIZE - 1 then some (none, insert_byte c s, rest)
      else if c == '\n' then some (none, insert_byte c s, rest)
      else if c == Char.ofNat 4 then some (some EXIT, insert_byte c s, rest)
      else prompt_loop env rest (insert_byte c s) := by
  rw [prompt_loop]
  simp only [h9, h127, h27, h91, h65, Bool.or_self, Bool.false_eq_true, if_false]

theorem prompt_loop_recall (env : surroundings) (rest : List Char) (s : editor) :
    prompt_loop env ('A' :: rest) s = prompt_loop env rest (recall_line s) := by
  rw [prompt_loop]
  have h1 : ('A' == Char.ofNat 9) = false := by decide
  have h2 : ('A' == Char.ofNat 127) = false := by decide
  have h3 : ('A' == Char.ofNat 27 || 'A' == Char.ofNat 91) = false := by decide
  have h4 : ('A' == Char.ofNat 65) = true := by decide
  simp only [h1, h2, h3, h4, Bool.false_eq_true, if_false, if_true]

theorem insert_byte_fields (c : Char) (s : editor) :
    (insert_byte c s).index = s.index + 1 ∧ (insert_byte c s).buf = poke s.buf s.index c ∧
      (insert_byte c s).oldbuf = s.oldbuf ∧
      (insert_byte c s).stdin_termios = s.stdin_termios ∧
      (insert_byte c s).writes = (s.index : Int) :: s.writes := by
  refine ⟨rfl, ?_, rfl, rfl, rfl⟩
  show ((s.print [c]).store (s.index : Int) c).buf = _
  rw [store_buf]
  rfl

theorem erase_line_fields (n : Nat) :
    ∀ s : editor, (erase_line n s).index = 0 ∧ (erase_line n s).buf = s.buf ∧
      (erase_line n s).oldbuf = s.oldbuf ∧
      (erase_line n s).stdin_termios = s.stdin_termios ∧
      (erase_line n s).writes = s.writes := by
  induction n with
  | zero => intro s; exact ⟨rfl, rfl, rfl, rfl, rfl⟩
  | succ n ih => intro s; exact ih (prompt_backspace s)

/-- After a recall, `index` is the length of the line that was in `oldbuf`,
and that line is in `buf`. -/
theorem recall_fields (s : editor) :
    (recall_line s).index = strlen s.oldbuf ∧
      (recall_line s).buf = cstr s.oldbuf ++ NUL :: s.buf.drop ((cstr s.oldbuf).length + 1) := by
  obtain ⟨e1, e2, e3, e4, e5⟩ := erase_line_fields s.index s
  have hb : (((erase_line s.index s).print (cstr (erase_line s.index s).oldbuf)).store_bytes 0
      (cstr (erase_line s.index s).oldbuf ++ [NUL])).buf =
      cstr s.oldbuf ++ NUL :: s.buf.drop ((cstr s.oldbuf).length + 1) := by
    have h := store_bytes_buf (cstr (erase_line s.index s).oldbuf ++ [NUL])
      ((erase_line s.index s).print (cstr (erase_line s.index s).oldbuf)) [] s.buf
      (by show (erase_line s.index s).buf = _; rw [e2]; rfl)
    rw [e3] at h ⊢
    simpa using h
  have hi : (((erase_line s.index s).print (cstr (erase_line s.index s).oldbuf)).store_bytes 0
      (cstr (erase_line s.index s).oldbuf ++ [NUL])).index = 0 := by
    rw [(store_bytes_fields _ _ _).1]
    exact e1
  refine ⟨?_, hb⟩
  have hrec : (recall_line s).index =
      (((erase_line s.index s).print (cstr (erase_line s.index s).oldbuf)).store_bytes 0
        (cstr (erase_line s.index s).oldbuf ++ [NUL])).index +
      strlen (((erase_line s.index s).print (cstr (erase_line s.index s).oldbuf)).store_bytes 0
        (cstr (erase_line s.index s).oldbuf ++ [NUL])).buf := rfl
  rw [hrec, hi, hb, Nat.zero_add, strlen_append_NUL _ _ (NUL_not_mem_cstr _)]
  rfl

theorem NUL_not_mem_replicate_a (n : Nat) : NUL ∉ List.replicate n 'a' := by
  intro h
  have := List.eq_of_mem_replicate h
  exact absurd this (by decide)

theorem prompt_loop_a (env : surroundings) (rest : List Char) (s : editor) :
    prompt_loop env ('a' :: rest) s =
      if s.index + 1 ≥ BUF_SIZE - 1 then some (none, insert_byte 'a' s, rest)
      else prompt_loop env rest (insert_byte 'a' s) := by
  rw [prompt_loop_insert env 'a' rest s (by decide) (by decide) (by decide) (by decide)
    (by decide)]
  have h5 : ('a' == '\n') = false := by decide
  have h6 : ('a' == Char.ofNat 4) = false := by decide
  simp only [h5, h6, Bool.false_eq_true, if_false]
  rfl

/-- Bytes `a` typed while the buffer is not full are stored one after the
other from `index` on. -/
theorem prompt_loop_typed (env : surroundings) (rest : List Char) (n : Nat) :
    ∀ (k : Nat) (s : editor) (t : List Char), s.index = k →
      s.buf = List.replicate k 'a' ++ t → k + n < BUF_SIZE - 1 →
      ∃ s', prompt_loop env (List.replicate n 'a' ++ rest) s = prompt_loop env rest s' ∧
        s'.index = k + n ∧ s'.buf = List.replicate (k + n) 'a' ++ t.drop n ∧
        s'.oldbuf = s.oldbuf ∧ s'.stdin_termios = s.stdin_termios := by
  induction n with
  | zero =>
    intro k s t hk hb _
    exact ⟨s, rfl, hk, by simpa using hb, rfl, rfl⟩
  | succ n ih =>
    intro k s t hk hb hlt
    have hstep : ¬ (s.index + 1 ≥ BUF_SIZE - 1) := by
      rw [hk]; omega
    obtain ⟨i1, i2, i3, i4, i5⟩ := insert_byte_fields 'a' s
    have hbuf : (insert_byte 'a' s).buf = List.replicate (k + 1) 'a' ++ t.tail := by
      have hl : s.index = (List.replicate k 'a').length := by simp [hk]
      rw [i2, hb, hl, poke_append, List.replicate_succ']
      simp
    obtain ⟨s', e1, e2, e3, e4, e5⟩ :=
      ih (k + 1) (insert_byte 'a' s) t.tail (by rw [i1, hk]) hbuf (by omega)
    refine ⟨s', ?_, by rw [e2]; omega, ?_, e4.trans i3, e5.trans i4⟩
    · rw [List.replicate_succ, List.cons_append, prompt_loop_a, if_neg hstep]
      exact e1
    · rw [e3]
      have : k + 1 + n = k + (n + 1) := by omega
      rw [this]
      simp

theorem prompt_of_break (command : command_t) (env : surroundings) (input : List Char)
    (s s' : editor) (rest : List Char)
    (h : prompt_loop env input (prompt_enter env s) = some (none, s', rest)) :
    prompt command env input s =
      some (SUCCESS, parse_command env.fresh (prompt_leave s').buf command,
        { prompt_leave s' with stdin_termios := s.stdin_termios }, rest) := by
  unfold prompt
  simp only [h]

/-- A line of `n + 1` bytes `a` that fills the buffer: reading stops at
capacity, `prompt` returns `SUCCESS`, and `oldbuf` holds the `n + 1` bytes. -/
theorem prompt_full_line (command : command_t) (env : surroundings) (s : editor) (n : Nat)
    (hn : n + 1 = BUF_SIZE - 1) :
    ∃ p s1, prompt command env (List.replicate (n + 1) 'a') s = some (SUCCESS, p, s1, []) ∧
      strlen s1.oldbuf = n + 1 := by
  have henter : (prompt_enter env s).buf = List.replicate 0 'a' ++ NUL :: s.buf.tail := by
    show poke s.buf 0 NUL = _
    have := poke_append [] s.buf NUL
    simpa using this
  obtain ⟨s', e1, e2, e3, e4, e5⟩ :=
    prompt_loop_typed env ['a'] n 0 (prompt_enter env s) (NUL :: s.buf.tail) rfl henter
      (by omega)
  rw [Nat.zero_add] at e2 e3
  have hsplit : List.replicate (n + 1) 'a' = List.replicate n 'a' ++ ['a'] :=
    List.replicate_succ' n 'a'
  have hpos : s'.index + 1 ≥ BUF_SIZE - 1 := by
    rw [e2]; omega
  have hloop : prompt_loop env (List.replicate (n + 1) 'a') (prompt_enter env s) =
      some (none, insert_byte 'a' s', []) := by
    rw [hsplit, e1, prompt_loop_a, if_pos hpos]
  obtain ⟨i1, i2, i3, i4, i5⟩ := insert_byte_fields 'a' s'
  have hbuf : (insert_byte 'a' s').buf =
      List.replicate (n + 1) 'a' ++ ((NUL :: s.buf.tail).drop n).tail := by
    have hl : s'.index = (List.replicate n 'a').length := by simp [e2]
    rw [i2, e3, hl, poke_append, hsplit]
    simp
  have hpeek : peek (insert_byte 'a' s').buf ((insert_byte 'a' s').index - 1) = 'a' := by
    rw [i1, i2, Nat.add_sub_cancel]
    exact peek_poke _ _ _
  have hleave : (prompt_leave (insert_byte 'a' s')).buf =
      List.replicate (n + 1) 'a' ++ NUL :: (((NUL :: s.buf.tail).drop n).tail).tail := by
    unfold prompt_leave
    have hne : ('a' == '\n') = false := by decide
    simp only [hpeek, hne, Bool.and_false, Bool.false_eq_true, if_false]
    show (editor.store _ (((insert_byte 'a' s').index : Nat) : Int) NUL).buf = _
    rw [store_buf, hbuf, i1]
    have hl : s'.index + 1 = (List.replicate (n + 1) 'a').length := by simp [e2]
    rw [hl, poke_append]
  refine ⟨_, _, prompt_of_break command env _ s _ _ hloop, ?_⟩
  · show strlen (strcpy _ (prompt_leave _).buf) = n + 1
    rw [hleave]
    unfold strcpy
    rw [cstr_append_NUL _ _ (NUL_not_mem_replicate_a _)]
    rw [List.append_assoc, List.singleton_append,
      strlen_append_NUL _ _ (NUL_not_mem_replicate_a _)]
    simp

/-- A recall of a line of `n + 1` bytes that fills the buffer, followed by one
more byte: the byte is stored at `buf[n + 1]`, reading stops, and the
terminator is stored at `buf[n + 2]`. -/
theorem prompt_recall_full (command : command_t) (env : surroundings) (s : editor) (n : Nat)
    (hn : n + 1 = BUF_SIZE - 1) (h : strlen s.oldbuf = n + 1) :
    ∃ p s2, prompt command env ['A', 'x'] s = some (SUCCESS, p, s2, []) ∧
      s2.index = n + 3 ∧ s2.writes.head? = some ((n + 2 : Nat) : Int) := by
  obtain ⟨r1, r2⟩ := recall_fields (prompt_enter env s)
  have hold : (prompt_enter env s).oldbuf = s.oldbuf := rfl
  rw [hold, h] at r1
  obtain ⟨i1, i2, i3, i4, i5⟩ := insert_byte_fields 'x' (recall_line (prompt_enter env s))
  rw [r1] at i1 i2
  have hpos : (insert_byte 'x' (recall_line (prompt_enter env s))).index ≥ BUF_SIZE - 1 := by
    rw [i1]; omega
  have hloop : prompt_loop env ['A', 'x'] (prompt_enter env s) =
      some (none, insert_byte 'x' (recall_line (prompt_enter env s)), []) := by
    rw [prompt_loop_recall, prompt_loop_insert env 'x' [] _ (by decide) (by decide) (by decide)
      (by decide) (by decide), if_pos hpos]
  have hpeek : peek (insert_byte 'x' (recall_line (prompt_enter env s))).buf
      ((insert_byte 'x' (recall_line (prompt_enter env s))).index - 1) = 'x' := by
    rw [i1, i2, Nat.add_sub_cancel]
    exact peek_poke _ _ _
  refine ⟨_, _, prompt_of_break command env _ s _ _ hloop, ?_, ?_⟩
  · unfold prompt_leave
    have hne : ('x' == '\n') = false := by decide
    simp only [hpeek, hne, Bool.and_false, Bool.false_eq_true, if_false]
    show (insert_byte 'x' (recall_line (prompt_enter env s))).index + 1 = n + 3
    rw [i1]
  · unfold prompt_leave
    have hne : ('x' == '\n') = false := by decide
    simp only [hpeek, hne, Bool.and_false, Bool.false_eq_true, if_false]
    show some (((insert_byte 'x' (recall_line (prompt_enter env s))).index : Nat) : Int) = _
    rw [i1]

/-- C8: from the start state, a line of 4095 bytes `a` is read by a first
call of `prompt`; in the next call the bytes `A` (recall) and `x` make
`prompt` store its terminator at `buf[4096]`, one byte past the 4096 bytes of
`buf`, and leave `index` at 4097. -/
theorem prompt_stores_past_buffer :
    ((prompt zeroed surroundings0 (List.replicate 4095 'a') editor0).bind
        (fun r => prompt zeroed surroundings0 ['A', 'x'] r.2.2.1)).map
        (fun r => (r.1, r.2.2.1.index, r.2.2.1.writes.head?)) =
      some (SUCCESS, 4097, some 4096) := by
  obtain ⟨p1, s1, h1, hs1⟩ := prompt_full_line zeroed surroundings0 editor0 4094 (by decide)
  obtain ⟨p2, s2, h2, hi2, hw2⟩ := prompt_recall_full zeroed surroundings0 s1 4094 (by decide) hs1
  have h1' : prompt zeroed surroundings0 (List.replicate 4095 'a') editor0 =
      some (SUCCESS, p1, s1, []) := h1
  rw [h1']
  show (prompt zeroed surroundings0 ['A', 'x'] s1).map _ = _
  rw [h2]
  show some (SUCCESS, s2.index, s2.writes.head?) = _
  rw [hi2, hw2]
  rfl

/-! ## Completion -/

theorem cstr_idem (p : List Char) : cstr (cstr p) = cstr p :=
  cstr_of_not_mem _ (NUL_not_mem_cstr p)

/-- `strncmp(a, b, strlen(b)) == 0` says that the string at `b` begins the
string at `a`. -/
theorem strncmp_eq_isPrefixOf (b : List Char) :
    ∀ a : List Char, strncmp_eq a b (strlen b) = (cstr b).isPrefixOf (cstr a) := by
  induction b with
  | nil => intro a; simp [strlen, cstr, strncmp_eq]
  | cons y b ih =>
    intro a
    by_cases hy : y = NUL
    · subst hy
      simp [strlen, cstr_cons_NUL, strncmp_eq]
    · have hlen : strlen (y :: b) = strlen b + 1 := by
        simp [strlen, cstr_cons y b hy]
      rw [hlen, strncmp_eq, cstr_cons y b hy]
      cases a with
      | nil =>
        have : (NUL != y) = true := by
          rw [bne_iff_ne]; exact fun e => hy e.symm
        simp [this, cstr]
      | cons x a =>
        by_cases hx : x = NUL
        · subst hx
          have : (NUL != y) = true := by
            rw [bne_iff_ne]; exact fun e => hy e.symm
          simp [this, cstr_cons_NUL]
        · rw [cstr_cons x a hx]
          by_cases hxy : x = y
          · subst hxy
            have hx' : (x == NUL) = false := by
              rw [beq_eq_false_iff_ne]; exact hx
            simp [hx', ih a]
          · have : (x != y) = true := by
              rw [bne_iff_ne]; exact hxy
            have hyx : (y == x) = false := by
              rw [beq_eq_false_iff_ne]; exact fun e => hxy e.symm
            simp [this, List.isPrefixOf, hyx]

/-- The loop over candidate names: `matches` grows by the number of names that
begin with the target, `match` is the first of them when `matches` was 0, and
of the editor only the output changes. -/
theorem scan_fold (target : List Char) (names : List (List Char)) :
    ∀ st : Nat × List Char × editor,
      (names.foldl (scan_line target) st).1 =
          st.1 + (names.filter (fun n => (cstr target).isPrefixOf (cstr n))).length ∧
        (names.foldl (scan_line target) st).2.1 =
          (if st.1 = 0 then
            (((names.filter (fun n => (cstr target).isPrefixOf (cstr n))).head?).map cstr).getD
              st.2.1
           else st.2.1) ∧
        (names.foldl (scan_line target) st).2.2.buf = st.2.2.buf ∧
        (names.foldl (scan_line target) st).2.2.index = st.2.2.index ∧
        (names.foldl (scan_line target) st).2.2.writes = st.2.2.writes ∧
        (names.foldl (scan_line target) st).2.2.oldbuf = st.2.2.oldbuf ∧
        (names.foldl (scan_line target) st).2.2.stdin_termios = st.2.2.stdin_termios := by
  induction names with
  | nil => intro st; simp
  | cons n names ih =>
    intro st
    rw [List.foldl_cons]
    obtain ⟨h1, h2, h3, h4, h5, h6, h7⟩ := ih (scan_line target st n)
    rw [h1, h2, h3, h4, h5, h6, h7]
    unfold scan_line
    rw [strncmp_eq_isPrefixOf]
    by_cases hp : (cstr target).isPrefixOf (cstr n) = true
    · have hf : (n :: names).filter (fun n => (cstr target).isPrefixOf (cstr n)) =
          n :: names.filter (fun n => (cstr target).isPrefixOf (cstr n)) :=
        List.filter_cons_of_pos hp
      rw [hf]
      by_cases h0 : st.1 = 0
      · simp [hp, h0]
        omega
      · have h0' : ¬ (st.1 + 1 = 1) := by omega
        simp [hp, h0, h0', editor.print]
        omega
    · have hf : (n :: names).filter (fun n => (cstr target).isPrefixOf (cstr n)) =
          names.filter (fun n => (cstr target).isPrefixOf (cstr n)) :=
        List.filter_cons_of_neg hp
      rw [hf]
      simp [hp]

theorem strchr_none (p : List Char) (c : Char) (h : c ∉ cstr p) : strchr p c = none := by
  simp [strchr, h]

theorem strrchr_none (p : List Char) (c : Char) (h : c ∉ cstr p) : strrchr p c = none := by
  simp [strrchr, h]

/-- Stores of a string, a blank and a terminator from `buf[0]` on. -/
theorem store_completion (s : editor) (m : List Char) (hm : NUL ∉ m) :
    cstr (((s.store_bytes 0 m).store ((0 : Int) + (m.length : Nat)) ' ').store
        ((0 : Int) + (m.length : Nat) + 1) NUL).buf = m ++ [' '] := by
  have h1 : (s.store_bytes 0 m).buf = m ++ s.buf.drop m.length := by
    have := store_bytes_buf m s [] s.buf rfl
    simpa using this
  have h2 : ((s.store_bytes 0 m).store ((0 : Int) + (m.length : Nat)) ' ').buf =
      (m ++ [' ']) ++ (s.buf.drop m.length).tail := by
    rw [Int.zero_add, store_buf, h1, poke_append]
    simp
  have h3 : ((0 : Int) + (m.length : Nat) + 1) = (((m ++ [' ']).length : Nat) : Int) := by
    simp
  rw [h3, store_buf, h2, poke_append]
  have hn : NUL ∉ m ++ [' '] := by
    intro h
    rcases List.mem_append.mp h with h | h
    · exact hm h
    · have := List.mem_singleton.mp h
      exact absurd this (by decide)
  exact cstr_append_NUL _ _ hn

/-- The branch `matches <= 2` of `list_commands`. -/
theorem list_commands_few (target : List Char) (s : editor) (env : surroundings)
    (h : ((command_names env).foldl (scan_line target) (0, [], s)).1 ≤ 2) :
    (list_commands target s env).buf =
        (((((command_names env).foldl (scan_line target) (0, [], s)).2.2.store_bytes
          ((((command_names env).foldl (scan_line target) (0, [], s)).2.2.index : Int) -
            (strlen target : Nat))
          (((command_names env).foldl (scan_line target) (0, [], s)).2.1.take
            (strlen ((command_names env).foldl (scan_line target) (0, [], s)).2.1))).store
          ((((command_names env).foldl (scan_line target) (0, [], s)).2.2.index : Int) -
            (strlen target : Nat) +
            (strlen ((command_names env).foldl (scan_line target) (0, [], s)).2.1 : Nat))
          ' ').store
          ((((command_names env).foldl (scan_line target) (0, [], s)).2.2.index : Int) -
            (strlen target : Nat) +
            (strlen ((command_names env).foldl (scan_line target) (0, [], s)).2.1 : Nat) + 1)
          NUL).buf ∧
      (list_commands target s env).index = strlen (list_commands target s env).buf := by
  unfold list_commands
  simp only [h, if_true]
  exact ⟨rfl, rfl⟩

/-- C9: when the buffer has no blank, is terminated at `index`, and exactly one
of the names `list_commands` looks at (the builtins and the entries of the
directories of `PATH`) begins with the contents of the buffer, `auto_complete`
leaves in the buffer that name followed by one blank, and `index` at the
length of the new contents. -/
theorem auto_complete_single (s : editor) (env : surroundings) (name : List Char)
    (hblank : ' ' ∉ cstr s.buf) (hterm : strlen s.buf = s.index)
    (hone : ((command_names env).map cstr).filter (fun c => (cstr s.buf).isPrefixOf c) =
      [name]) :
    cstr (auto_complete s env).buf = name ++ [' '] ∧
      (auto_complete s env).index = name.length + 1 ∧
      (auto_complete s env).index = strlen (auto_complete s env).buf := by
  have hac : auto_complete s env = list_commands s.buf s env := by
    unfold auto_complete
    simp only [strrchr_none _ _ hblank, strchr_none _ _ hblank, Option.isNone_none, if_true]
  obtain ⟨f1, f2, f3, f4, _, _, _⟩ := scan_fold s.buf (command_names env) (0, [], s)
  -- the one name that matches
  have hfil : ((command_names env).filter (fun n => (cstr s.buf).isPrefixOf (cstr n))).map cstr =
      [name] := by
    rw [← hone, List.filter_map]
    rfl
  obtain ⟨n0, hn0, hname⟩ : ∃ n0,
      (command_names env).filter (fun n => (cstr s.buf).isPrefixOf (cstr n)) = [n0] ∧
        cstr n0 = name := by
    cases hl : (command_names env).filter (fun n => (cstr s.buf).isPrefixOf (cstr n)) with
    | nil => rw [hl] at hfil; simp at hfil
    | cons a l =>
      rw [hl] at hfil
      cases l with
      | nil => exact ⟨a, rfl, by simpa using hfil⟩
      | cons b l => simp at hfil
  have hnul : NUL ∉ name := by
    rw [← hname]; exact NUL_not_mem_cstr _
  rw [hn0] at f1 f2
  have g1 : ((command_names env).foldl (scan_line s.buf) (0, [], s)).1 = 1 := by
    rw [f1]; rfl
  have g2 : ((command_names env).foldl (scan_line s.buf) (0, [], s)).2.1 = name := by
    rw [f2]; simp [hname]
  obtain ⟨b1, b2⟩ := list_commands_few s.buf s env (by rw [g1]; decide)
  have hoff : (((command_names env).foldl (scan_line s.buf) (0, [], s)).2.2.index : Int) -
      (strlen s.buf : Nat) = 0 := by
    rw [f4, hterm]; simp
  have hlen : strlen name = name.length := by
    unfold strlen; rw [cstr_of_not_mem _ hnul]
  rw [g2, hoff, hlen, List.take_length] at b1
  have hbuf : cstr (auto_complete s env).buf = name ++ [' '] := by
    rw [hac, b1]
    exact store_completion _ name hnul
  refine ⟨hbuf, ?_, ?_⟩
  · rw [hac, b2, ← hac]
    unfold strlen
    rw [hbuf]; simp
  · rw [hac]; exact b2

/-- Witness of C9: the buffer `gr` with `grep` the one name on `PATH` that
begins with it. -/
theorem auto_complete_single_witness :
    ' ' ∉ cstr ({ editor0 with buf := "gr".toList, index := 2 } : editor).buf ∧
      strlen ({ editor0 with buf := "gr".toList, index := 2 } : editor).buf =
        ({ editor0 with buf := "gr".toList, index := 2 } : editor).index ∧
      ((command_names surroundings0).map cstr).filter
        (fun c => (cstr ({ editor0 with buf := "gr".toList, index := 2 } : editor).buf).isPrefixOf
          c) = ["grep".toList] ∧
      cstr (auto_complete { editor0 with buf := "gr".toList, index := 2 } surroundings0).buf =
        "grep".toList ++ [' '] ∧
      (auto_complete { editor0 with buf := "gr".toList, index := 2 } surroundings0).index =
        "grep".toList.length + 1 ∧
      (auto_complete { editor0 with buf := "gr".toList, index := 2 } surroundings0).index =
        strlen (auto_complete { editor0 with buf := "gr".toList, index := 2 } surroundings0).buf :=
  ⟨by decide, by decide, by decide,
    auto_complete_single { editor0 with buf := "gr".toList, index := 2 } surroundings0
      "grep".toList (by decide) (by decide) (by decide)⟩

/-- C10: with no name beginning with `zz`, completion of the buffer `zz` in
command position replaces the contents by one blank, sets `index` to 1 and
prints the new buffer after a carriage return, with no message; in argument
position, with no file beginning with `zz`, completion of `cat zz` leaves the
buffer and `index` as they are and prints `No matches found`. -/
theorem auto_complete_no_match :
    (command_names surroundings0).filter (fun n => "zz".toList.isPrefixOf n) = [] ∧
      cstr (auto_complete { editor0 with buf := "zz".toList, index := 2 } surroundings0).buf =
        " ".toList ∧
      (auto_complete { editor0 with buf := "zz".toList, index := 2 } surroundings0).index = 1 ∧
      (auto_complete { editor0 with buf := "zz".toList, index := 2 } surroundings0).out =
        "\r ".toList ∧
      (auto_complete { editor0 with buf := "cat zz".toList, index := 6 } surroundings0).buf =
        "cat zz".toList ∧
      (auto_complete { editor0 with buf := "cat zz".toList, index := 6 } surroundings0).index =
        6 ∧
      (auto_complete { editor0 with buf := "cat zz".toList, index := 6 } surroundings0).out =
        "\nNo matches found\ncat zz".toList := by
  refine ⟨by decide, by decide, by decide, by decide, by decide, by decide, by decide⟩

/-- C11: with `notes.txt` the one entry of the current directory that begins
with `no`, completion of the buffer `cat no` (the token is at offset 4) leaves
`cat not` in the buffer and `index` at 7: `snprintf` is given the size
`sizeof(buf) - 4` with `sizeof(buf)` the size of a pointer, and stores three
bytes of `notes.txt ` and a terminator; the rest of the name is only
printed. -/
theorem auto_complete_file_cut :
    (["notes.txt".toList, "main.c".toList, "makefile".toList].filter
        (fun n => "no".toList.isPrefixOf n) = ["notes.txt".toList]) ∧
      surroundings0.cwd_listing =
        some ["notes.txt".toList, "main.c".toList, "makefile".toList] ∧
      cstr (auto_complete { editor0 with buf := "cat no".toList, index := 6 } surroundings0).buf =
        "cat not".toList ∧
      (auto_complete { editor0 with buf := "cat no".toList, index := 6 } surroundings0).index =
        7 ∧
      (auto_complete { editor0 with buf := "cat no".toList, index := 6 } surroundings0).writes =
        [7, 6, 5, 4] ∧
      (auto_complete { editor0 with buf := "cat no".toList, index := 6 } surroundings0).out =
        "tes.txt".toList := by
  refine ⟨by decide, rfl, by decide, by decide, by decide, by decide⟩

/-! ## The executor: the descriptor table -/

theorem lookup_fd_cons (a : Int) (r : file_ref) (fds : List (Int × file_ref)) (b : Int) :
    lookup_fd ((a, r) :: fds) b = if a = b then some r else lookup_fd fds b := by
  unfold lookup_fd
  by_cases h : a = b
  · simp [h]
  · simp [List.find?_cons, h]

theorem lowest_free_nonneg (fds : List (Int × file_ref)) : 0 ≤ lowest_free fds := by
  unfold lowest_free
  exact Int.ofNat_nonneg _

theorem sys_fork_fds (k : os) : (sys_fork k).2.fds = k.fds := by
  unfold sys_fork
  cases k.fork_results <;> simp only <;> split_ifs <;> rfl

theorem lookup_fd_cons_none (a : Int) (r : file_ref) (fds : List (Int × file_ref)) (b : Int)
    (h : lookup_fd ((a, r) :: fds) b = none) : lookup_fd fds b = none := by
  rw [lookup_fd_cons] at h
  split_ifs at h
  exact h

/-- C13: for `cat <missing` when `open` fails with -1, the process spawned
first does not report and does not stop (the descriptor is compared with
`EXIT`, which is 1): it goes on to the second `fork`; the process that runs
the command calls `dup2(-1, 0)` and `close(-1)` and then runs `/bin/cat`, and
the process spawned first waits for it and terminates with `SUCCESS`.  No
message is printed in either. -/
theorem open_failure_goes_unnoticed (fresh : Nat → command_t) :
    (parse_command fresh (line "cat <missing".toList []) zeroed).map
        (fun c =>
          ((process_command c
              { os0 with opens := fun _ _ => false, fork_results := [0, 0] }).1,
            (process_command c
              { os0 with opens := fun _ _ => false, fork_results := [0, 0] }).2.trace.reverse,
            (process_command c
              { os0 with opens := fun _ _ => false, fork_results := [0] }).1,
            (process_command c
              { os0 with opens := fun _ _ => false, fork_results := [0] }).2.trace.reverse)) =
      some
        (ending.replaced "/bin/cat".toList [some "cat".toList, none],
          [sys_call.fork 0, sys_call.open_ "missing".toList open_flags.rdonly (-1),
            sys_call.fork 0, sys_call.dup2 (some (-1)) 0, sys_call.close (some (-1)),
            sys_call.access "/usr/bin/cat".toList (-1), sys_call.access "/bin/cat".toList 0,
            sys_call.execv "/bin/cat".toList [some "cat".toList, none]],
          ending.exits SUCCESS,
          [sys_call.fork 0, sys_call.open_ "missing".toList open_flags.rdonly (-1),
            sys_call.fork 100, sys_call.waitpid 100, sys_call.close (some (-1)),
            sys_call.close none, sys_call.close none, sys_call.exit SUCCESS]) := by
  rfl

/-- C14: for `kuhex f -g 4`, the argument order of the usage message, the
dump is run on `f` with group size 1: `-g` is looked for in `args[1]` only.
For `kuhex -g 4 f` the group size is 4, and for `kuhex f` it is 1. -/
theorem kuhex_group_size_after_file (fresh : Nat → command_t) :
    (parse_command fresh (line "kuhex f -g 4".toList []) zeroed).map
        (fun c => (c.args, c.arg_count,
          (process_command c { os0 with fork_results := [0, 0] }).2.trace)) =
      some ([some "kuhex".toList, some "f".toList, some "-g".toList, some "4".toList, none], 5,
        [sys_call.exit SUCCESS, sys_call.kuhex_dump (some "f".toList) 1, sys_call.fork 0,
          sys_call.fork 0]) ∧
      (parse_command fresh (line "kuhex -g 4 f".toList []) zeroed).map
        (fun c => (process_command c { os0 with fork_results := [0, 0] }).2.trace) =
      some [sys_call.exit SUCCESS, sys_call.kuhex_dump (some "f".toList) 4, sys_call.fork 0,
          sys_call.fork 0] ∧
      (parse_command fresh (line "kuhex f".toList []) zeroed).map
        (fun c => (process_command c { os0 with fork_results := [0, 0] }).2.trace) =
      some [sys_call.exit SUCCESS, sys_call.kuhex_dump (some "f".toList) 1, sys_call.fork 0,
          sys_call.fork 0] := by
  refine ⟨rfl, rfl, rfl⟩

/-- C18: in the process that runs the command (both `fork` calls returned 0),
`process_command` returns `UNKNOWN` to its caller for `kuhex` without a file,
for `kuhex -g 3 f` (a group size that is not supported) and for `psvis`
without arguments: the process is not replaced and does not terminate. -/
theorem spawned_process_returns (fresh : Nat → command_t) :
    (parse_command fresh (line "kuhex".toList []) zeroed).map
        (fun c => ((process_command c { os0 with fork_results := [0, 0] }).1,
          (process_command c { os0 with fork_results := [0, 0] }).2.trace)) =
      some (ending.returns UNKNOWN,
        [sys_call.print "Usage: kuhex <filename> [-g <group_size>]\n", sys_call.fork 0,
          sys_call.fork 0]) ∧
      (parse_command fresh (line "kuhex -g 3 f".toList []) zeroed).map
        (fun c => ((process_command c { os0 with fork_results := [0, 0] }).1,
          (process_command c { os0 with fork_results := [0, 0] }).2.trace)) =
      some (ending.returns UNKNOWN,
        [sys_call.print "Invalid group size. Supported values: 1, 2, 4, 8, 16.\n",
          sys_call.fork 0, sys_call.fork 0]) ∧
      (parse_command fresh (line "psvis".toList []) zeroed).map
        (fun c => ((process_command c { os0 with fork_results := [0, 0] }).1,
          (process_command c { os0 with fork_results := [0, 0] }).2.trace)) =
      some (ending.returns UNKNOWN,
        [sys_call.print "Usage: psvis <PID> <output_file>\n", sys_call.fork 0,
          sys_call.fork 0]) := by
  refine ⟨rfl, rfl, rfl⟩

end Shell

namespace Allocator

/-! ## Stretches of the list in the heap -/

theorem bind_ok {α β : Type} (a : α) (f : α → Except fault β) :
    (Except.ok a : Except fault α).bind f = f a := rfl

theorem get_eq (s : allocator) (a : Nat) (b : MemoryBlock) (h : s.heap a = some b) :
    get s a = Except.ok b := by
  unfold get; rw [h]

theorem modify_eq (s : allocator) (a : Nat) (b : MemoryBlock) (f : MemoryBlock → MemoryBlock)
    (h : s.heap a = some b) : modify s a f = Except.ok (s.store a (f b)) := by
  unfold modify; rw [h]

theorem store_heap (s : allocator) (a : Nat) (b : MemoryBlock) (x : Nat) :
    (s.store a b).heap x = if x = a then some b else s.heap x := rfl

theorem store_heap_same (s : allocator) (a : Nat) (b : MemoryBlock) :
    (s.store a b).heap a = some b := by
  rw [store_heap, if_pos rfl]

theorem store_heap_other (s : allocator) (a : Nat) (b : MemoryBlock) (x : Nat) (h : x ≠ a) :
    (s.store a b).heap x = s.heap x := by
  rw [store_heap, if_neg h]

theorem free_heap (s : allocator) (a x : Nat) :
    (s.free a).heap x = if x = a then none else s.heap x := rfl

/-- A stretch depends on the heap only at its own addresses. -/
theorem seg_frame (heap heap1 : Nat → Option MemoryBlock) (l : List (Nat × block)) :
    ∀ (p c e : Option Nat), (∀ a ∈ l.map Prod.fst, heap1 a = heap a) →
      seg heap p c l e → seg heap1 p c l e := by
  induction l with
  | nil => intro p c e _ h; exact h
  | cons x l ih =>
    intro p c e hagree h
    obtain ⟨a, v⟩ := x
    obtain ⟨hc, b, hb, hv, hp, hrest⟩ := h
    refine ⟨hc, b, ?_, hv, hp, ?_⟩
    · rw [hagree a (by simp)]; exact hb
    · exact ih _ _ _ (fun y hy => hagree y (by simp at hy ⊢; exact Or.inr hy)) hrest

theorem last_addr_nil (p : Option Nat) : last_addr p [] = p := rfl

theorem last_addr_cons (p : Option Nat) (x : Nat × block) (l : List (Nat × block)) :
    last_addr p (x :: l) = last_addr (some x.1) l := by
  unfold last_addr
  cases l with
  | nil => rfl
  | cons y l =>
    simp only [List.getLast?_cons_cons]
    cases h : (y :: l).getLast? with
    | none => simp at h
    | some z => rfl

theorem last_addr_snoc (p : Option Nat) (l : List (Nat × block)) (x : Nat × block) :
    last_addr p (l ++ [x]) = some x.1 := by
  unfold last_addr
  simp

/-- A stretch of two lists is two stretches that meet. -/
theorem seg_append (heap : Nat → Option MemoryBlock) (l1 l2 : List (Nat × block)) :
    ∀ (p c e : Option Nat), seg heap p c (l1 ++ l2) e ↔
      ∃ m, seg heap p c l1 m ∧ seg heap (last_addr p l1) m l2 e := by
  induction l1 with
  | nil =>
    intro p c e
    constructor
    · intro h; exact ⟨c, rfl, h⟩
    · rintro ⟨m, hm, h⟩
      have : c = m := hm
      subst this; exact h
  | cons x l1 ih =>
    intro p c e
    obtain ⟨a, v⟩ := x
    constructor
    · rintro ⟨hc, b, hb, hv, hp, hrest⟩
      obtain ⟨m, h1, h2⟩ := (ih _ _ _).mp hrest
      exact ⟨m, ⟨hc, b, hb, hv, hp, h1⟩, by rw [last_addr_cons]; exact h2⟩
    · rintro ⟨m, ⟨hc, b, hb, hv, hp, h1⟩, h2⟩
      rw [last_addr_cons] at h2
      exact ⟨hc, b, hb, hv, hp, (ih _ _ _).mpr ⟨m, h1, h2⟩⟩

/-- The pointer a stretch starts from is the address of its first block. -/
theorem seg_first (heap : Nat → Option MemoryBlock) (l : List (Nat × block))
    (p c e : Option Nat) (h : seg heap p c l e) : c = first_addr l e := by
  cases l with
  | nil => exact h
  | cons x l => exact h.1

/-- The blocks of a stretch are live, with the contents of the list. -/
theorem seg_mem (heap : Nat → Option MemoryBlock) (l : List (Nat × block)) :
    ∀ (p c e : Option Nat), seg heap p c l e → ∀ x ∈ l, ∃ b, heap x.1 = some b ∧ b.view = x.2 := by
  induction l with
  | nil => intro p c e _ x hx; simp at hx
  | cons y l ih =>
    intro p c e h x hx
    obtain ⟨a, v⟩ := y
    obtain ⟨_, b, hb, hv, _, hrest⟩ := h
    rcases List.mem_cons.mp hx with rfl | hx
    · exact ⟨b, hb, hv⟩
    · exact ih _ _ _ hrest x hx

/-- A stretch through a block in its middle. -/
theorem seg_mid (heap : Nat → Option MemoryBlock) (X Y : List (Nat × block)) (a : Nat)
    (v : block) (p c e : Option Nat) :
    seg heap p c (X ++ (a, v) :: Y) e ↔
      ∃ b, seg heap p c X (some a) ∧ heap a = some b ∧ b.view = v ∧
        b.prev = last_addr p X ∧ seg heap (some a) b.next Y e := by
  rw [seg_append]
  constructor
  · rintro ⟨m, h1, hc, b, hb, hv, hp, hrest⟩
    subst hc
    exact ⟨b, h1, hb, hv, hp, hrest⟩
  · rintro ⟨b, h1, hb, hv, hp, hrest⟩
    exact ⟨some a, h1, rfl, b, hb, hv, hp, hrest⟩

/-- The `prev` of the first block of a stretch set anew. -/
theorem seg_set_prev (heap heap1 : Nat → Option MemoryBlock) (Y : List (Nat × block))
    (p p1 c e : Option Nat) (h : seg heap p c Y e) (hnd : (Y.map Prod.fst).Nodup)
    (hfirst : ∀ r vr rest, Y = (r, vr) :: rest →
      (∃ br, heap r = some br ∧ heap1 r = some { br with prev := p1 }) ∧
        ∀ a ∈ rest.map Prod.fst, heap1 a = heap a) :
    seg heap1 p1 c Y e := by
  cases Y with
  | nil => exact h
  | cons y rest =>
    obtain ⟨r, vr⟩ := y
    obtain ⟨⟨br, hbr, hbr1⟩, hrest⟩ := hfirst r vr rest rfl
    obtain ⟨hc, b, hb, hv, hp, hs⟩ := h
    rw [hbr] at hb
    have hbe : br = b := Option.some.inj hb
    subst hbe
    exact ⟨hc, _, hbr1, hv, rfl, seg_frame heap heap1 rest _ _ _ hrest hs⟩

/-- The `next` of the last block of a stretch set anew. -/
theorem seg_set_next (heap heap1 : Nat → Option MemoryBlock) (X : List (Nat × block)) (q : Nat)
    (vq : block) (bq : MemoryBlock) (p c e e1 : Option Nat)
    (h : seg heap p c (X ++ [(q, vq)]) e) (hq : heap q = some bq)
    (hq1 : heap1 q = some { bq with next := e1 })
    (hX : ∀ a ∈ X.map Prod.fst, heap1 a = heap a) :
    seg heap1 p c (X ++ [(q, vq)]) e1 := by
  rw [seg_mid] at h ⊢
  obtain ⟨b, h1, hb, hv, hp, _⟩ := h
  rw [hq] at hb
  have hbe : bq = b := Option.some.inj hb
  subst hbe
  exact ⟨_, seg_frame heap heap1 X _ _ _ hX h1, hq1, hv, hp, rfl⟩

theorem nodup_bound (l : List Nat) (n : Nat) (hnd : l.Nodup) (hb : ∀ a ∈ l, a < n) :
    l.length ≤ n := by
  have hsub : l ⊆ List.range n := fun a ha => List.mem_range.mpr (hb a ha)
  have := (List.subperm_of_subset hnd hsub).length_le
  simpa using this

theorem represents_length (s : allocator) (l : List (Nat × block)) (h : represents s l) :
    l.length < s.brk + 1 := by
  have := nodup_bound (l.map Prod.fst) s.brk h.2.1 h.2.2
  simp at this
  omega

theorem nodup_mid (X Y : List (Nat × block)) (a : Nat) (v : block)
    (h : ((X ++ (a, v) :: Y).map Prod.fst).Nodup) :
    a ∉ X.map Prod.fst ∧ a ∉ Y.map Prod.fst ∧ (X.map Prod.fst).Nodup ∧ (Y.map Prod.fst).Nodup ∧
      ((X ++ Y).map Prod.fst).Nodup := by
  rw [List.map_append, List.map_cons] at h
  have h1 := List.nodup_append.mp h
  obtain ⟨hX, hcons, hdis⟩ := h1
  have hc := List.nodup_cons.mp hcons
  refine ⟨fun ha => hdis ha (List.mem_cons_self _ _), hc.1, hX, hc.2, ?_⟩
  rw [List.map_append]
  exact List.nodup_append.mpr ⟨hX, hc.2, fun x hx hy => hdis hx (List.mem_cons_of_mem _ hy)⟩

/-! ## `Allocate` -/

theorem fits_view (size : Int) (b : MemoryBlock) :
    (b.is_free && decide (b.size ≥ size)) = fits size b.view := rfl

theorem choose_cons (type0 : Char) (size : Int) (x : Nat × block) (rest : List (Nat × block))
    (best : Option (Nat × block)) :
    choose type0 size (x :: rest) best =
      if fits size x.2 then
        if type0 == 'F' then some x
        else if type0 == 'B' then
          match best with
          | none => choose type0 size rest (some x)
          | some b => if x.2.size < b.2.size then choose type0 size rest (some x)
            else choose type0 size rest best
        else if type0 == 'W' then
          match best with
          | none => choose type0 size rest (some x)
          | some b => if x.2.size > b.2.size then choose type0 size rest (some x)
            else choose type0 size rest best
        else choose type0 size rest best
      else choose type0 size rest best := rfl

/-- The loop of `Allocate` in the heap does what `choose` does on the list. -/
theorem find_block_refines (type0 : Char) (size : Int) (s : allocator)
    (l : List (Nat × block)) :
    ∀ (fuel : Nat) (p cur : Option Nat) (bestv : Option (Nat × block)),
      seg s.heap p cur l none → l.length < fuel →
      (∀ x, bestv = some x → ∃ b, s.heap x.1 = some b ∧ b.view = x.2) →
      find_block type0 size fuel cur (bestv.map Prod.fst) s =
        Except.ok ((choose type0 size l bestv).map Prod.fst) := by
  induction l with
  | nil =>
    intro fuel p cur bestv h hf _
    have hc : cur = none := h
    subst hc
    cases fuel with
    | zero => simp at hf
    | succ f => rfl
  | cons x rest ih =>
    intro fuel p cur bestv h hf hbest
    obtain ⟨a, v⟩ := x
    obtain ⟨hc, b, hb, hv, hp, hrest⟩ := h
    subst hc
    cases fuel with
    | zero => simp at hf
    | succ f =>
      have hf' : rest.length < f := by simpa using hf
      have hx : ∀ y, some (a, v) = some y → ∃ b, s.heap y.1 = some b ∧ b.view = y.2 := by
        intro y hy
        have := Option.some.inj hy
        subst this
        exact ⟨b, hb, hv⟩
      have ihx := ih f (some a) b.next (some (a, v)) hrest hf' hx
      have ihb := ih f (some a) b.next bestv hrest hf' hbest
      rw [find_block, choose_cons]
      simp only [hb, fits_view, hv]
      cases hfit : fits size v with
      | false => simpa using ihb
      | true =>
        simp only [if_true]
        by_cases hF : (type0 == 'F') = true
        · simp only [hF, if_true]; rfl
        · simp only [hF, if_false]
          by_cases hB : (type0 == 'B') = true
          · simp only [hB, if_true]
            cases bestv with
            | none => exact ihx
            | some bb =>
              obtain ⟨b2, hb2, hv2⟩ := hbest bb rfl
              simp only [Option.map_some', hb2]
              have hs1 : b.size = v.size := by rw [← hv]; rfl
              have hs2 : b2.size = bb.2.size := by rw [← hv2]; rfl
              rw [hs1, hs2]
              by_cases hlt : v.size < bb.2.size
              · simp only [hlt, if_true]; exact ihx
              · simp only [hlt, if_false]; exact ihb
          · simp only [hB, if_false]
            by_cases hW : (type0 == 'W') = true
            · simp only [hW, if_true]
              cases bestv with
              | none => exact ihx
              | some bb =>
                obtain ⟨b2, hb2, hv2⟩ := hbest bb rfl
                simp only [Option.map_some', hb2]
                have hs1 : b.size = v.size := by rw [← hv]; rfl
                have hs2 : b2.size = bb.2.size := by rw [← hv2]; rfl
                rw [hs1, hs2]
                by_cases hlt : v.size > bb.2.size
                · simp only [hlt, if_true]; exact ihx
                · simp only [hlt, if_false]; exact ihb
            · simp only [hW, if_false]
              exact ihb

/-- What `choose` has found when it has gone through a list: nothing when no
block fits, else the block that the strategy picks. -/
theorem choose_inv (type0 : Char) (size : Int)
    (hT : type0 = 'F' ∨ type0 = 'B' ∨ type0 = 'W') (rest : List (Nat × block)) :
    ∀ (done : List (Nat × block)) (best : Option (Nat × block)),
      (type0 = 'F' → best = none) →
      (best = none → ∀ x ∈ done, fits size x.2 = false) →
      (∀ b, best = some b → ∃ d1 d2, done = d1 ++ b :: d2 ∧
        picks type0 size (d1.map Prod.snd) b.2 (d2.map Prod.snd)) →
      (choose type0 size rest best = none → ∀ x ∈ done ++ rest, fits size x.2 = false) ∧
        (∀ b, choose type0 size rest best = some b → ∃ d1 d2, done ++ rest = d1 ++ b :: d2 ∧
          picks type0 size (d1.map Prod.snd) b.2 (d2.map Prod.snd)) := by
  induction rest with
  | nil =>
    intro done best _ hnone hsome
    simp only [choose, List.append_nil]
    exact ⟨hnone, hsome⟩
  | cons x rest ih =>
    intro done best hF hnone hsome
    have happ : done ++ x :: rest = (done ++ [x]) ++ rest := by simp
    rw [happ, choose_cons]
    cases hfit : fits size x.2 with
    | false =>
      simp only [Bool.false_eq_true, if_false]
      apply ih (done ++ [x]) best hF
      · intro hb y hy
        rcases List.mem_append.mp hy with hy | hy
        · exact hnone hb y hy
        · rw [List.mem_singleton.mp hy]; exact hfit
      · intro b hb
        obtain ⟨d1, d2, hd, hp1, hp2, hp3, hp4⟩ := hsome b hb
        refine ⟨d1, d2 ++ [x], by rw [hd]; simp, hp1, hp2, ?_, ?_⟩
        · intro hB
          refine ⟨(hp3 hB).1, ?_⟩
          intro w hw hfw
          rw [List.map_append, List.mem_append] at hw
          rcases hw with hw | hw
          · exact (hp3 hB).2 w hw hfw
          · simp at hw; rw [hw, hfit] at hfw; exact absurd hfw (by decide)
        · intro hW
          refine ⟨(hp4 hW).1, ?_⟩
          intro w hw hfw
          rw [List.map_append, List.mem_append] at hw
          rcases hw with hw | hw
          · exact (hp4 hW).2 w hw hfw
          · simp at hw; rw [hw, hfit] at hfw; exact absurd hfw (by decide)
    | true =>
      simp only [if_true]
      -- the invariant once `x` has become the block found
      have hnew : (∀ w ∈ done.map Prod.snd, fits size w = true → x.2.size < w.size) →
          (∀ w ∈ done.map Prod.snd, fits size w = true → w.size < x.2.size) →
          type0 ≠ 'F' →
          ∀ b, some x = some b → ∃ d1 d2, done ++ [x] = d1 ++ b :: d2 ∧
            picks type0 size (d1.map Prod.snd) b.2 (d2.map Prod.snd) := by
        intro hlt hgt hnF b hb
        have := Option.some.inj hb
        subst this
        exact ⟨done, [], rfl, hfit, fun h => absurd h hnF,
          fun _ => ⟨hlt, by simp⟩, fun _ => ⟨hgt, by simp⟩⟩
      have hvac : best = none → ∀ w ∈ done.map Prod.snd, fits size w = true → False := by
        intro hb w hw hfw
        obtain ⟨y, hy, rfl⟩ := List.mem_map.mp hw
        rw [hnone hb y hy] at hfw
        exact absurd hfw (by decide)
      rcases hT with hT | hT | hT
      · -- first fit
        subst hT
        simp only [beq_self_eq_true, if_true]
        refine ⟨fun h => by simp at h, ?_⟩
        intro b hb
        have := Option.some.inj hb
        subst this
        refine ⟨done, rest, by simp, hfit, ?_, fun h => absurd h (by decide),
          fun h => absurd h (by decide)⟩
        intro _ w hw
        obtain ⟨y, hy, rfl⟩ := List.mem_map.mp hw
        exact hnone (hF rfl) y hy
      · -- best fit
        subst hT
        have hnF : ('B' == 'F') = false := by decide
        simp only [hnF, Bool.false_eq_true, if_false, beq_self_eq_true, if_true]
        cases best with
        | none =>
          simp only
          apply ih (done ++ [x]) (some x) (fun h => absurd h (by decide))
            (fun h => by simp at h)
          exact hnew (fun w hw hfw => (hvac rfl w hw hfw).elim)
            (fun w hw hfw => (hvac rfl w hw hfw).elim) (by decide)
        | some bb =>
          simp only
          obtain ⟨d1, d2, hd, hp1, hp2, hp3, hp4⟩ := hsome bb rfl
          by_cases hlt : x.2.size < bb.2.size
          · simp only [hlt, if_true]
            apply ih (done ++ [x]) (some x) (fun h => absurd h (by decide))
              (fun h => by simp at h)
            intro b hb
            have := Option.some.inj hb
            subst this
            refine ⟨done, [], rfl, hfit, fun h => absurd h (by decide), fun _ => ⟨?_, by simp⟩,
              fun h => absurd h (by decide)⟩
            intro w hw hfw
            rw [hd, List.map_append, List.map_cons, List.mem_append, List.mem_cons] at hw
            rcases hw with hw | hw | hw
            · have := (hp3 rfl).1 w hw hfw; omega
            · rw [hw]; exact hlt
            · have := (hp3 rfl).2 w hw hfw; omega
          · simp only [hlt, if_false]
            apply ih (done ++ [x]) (some bb) (fun h => absurd h (by decide))
              (fun h => by simp at h)
            intro b hb
            have := Option.some.inj hb
            subst this
            refine ⟨d1, d2 ++ [x], by rw [hd]; simp, hp1, fun h => absurd h (by decide),
              fun _ => ⟨(hp3 rfl).1, ?_⟩, fun h => absurd h (by decide)⟩
            intro w hw hfw
            rw [List.map_append, List.mem_append] at hw
            rcases hw with hw | hw
            · exact (hp3 rfl).2 w hw hfw
            · simp at hw; rw [hw]; omega
      · -- worst fit
        subst hT
        have hnF : ('W' == 'F') = false := by decide
        have hnB : ('W' == 'B') = false := by decide
        simp only [hnF, hnB, Bool.false_eq_true, if_false, beq_self_eq_true, if_true]
        cases best with
        | none =>
          simp only
          apply ih (done ++ [x]) (some x) (fun h => absurd h (by decide))
            (fun h => by simp at h)
          exact hnew (fun w hw hfw => (hvac rfl w hw hfw).elim)
            (fun w hw hfw => (hvac rfl w hw hfw).elim) (by decide)
        | some bb =>
          simp only
          obtain ⟨d1, d2, hd, hp1, hp2, hp3, hp4⟩ := hsome bb rfl
          by_cases hgt : x.2.size > bb.2.size
          · simp only [hgt, if_true]
            apply ih (done ++ [x]) (some x) (fun h => absurd h (by decide))
              (fun h => by simp at h)
            intro b hb
            have := Option.some.inj hb
            subst this
            refine ⟨done, [], rfl, hfit, fun h => absurd h (by decide),
              fun h => absurd h (by decide), fun _ => ⟨?_, by simp⟩⟩
            intro w hw hfw
            rw [hd, List.map_append, List.map_cons, List.mem_append, List.mem_cons] at hw
            rcases hw with hw | hw | hw
            · have := (hp4 rfl).1 w hw hfw; omega
            · rw [hw]; exact hgt
            · have := (hp4 rfl).2 w hw hfw; omega
          · simp only [hgt, if_false]
            apply ih (done ++ [x]) (some bb) (fun h => absurd h (by decide))
              (fun h => by simp at h)
            intro b hb
            have := Option.some.inj hb
            subst this
            refine ⟨d1, d2 ++ [x], by rw [hd]; simp, hp1, fun h => absurd h (by decide),
              fun h => absurd h (by decide), fun _ => ⟨(hp4 rfl).1, ?_⟩⟩
            intro w hw hfw
            rw [List.map_append, List.mem_append] at hw
            rcases hw with hw | hw
            · exact (hp4 rfl).2 w hw hfw
            · simp at hw; rw [hw]; omega

theorem represents_mid (s : allocator) (X Y : List (Nat × block)) (a : Nat) (v : block)
    (h : represents s (X ++ (a, v) :: Y)) :
    ∃ b, seg s.heap none s.head X (some a) ∧ s.heap a = some b ∧ b.view = v ∧
      b.prev = last_addr none X ∧ seg s.heap (some a) b.next Y none ∧
      a ∉ X.map Prod.fst ∧ a ∉ Y.map Prod.fst ∧ a < s.brk ∧
      (∀ x ∈ X.map Prod.fst, x < s.brk) ∧ (∀ x ∈ Y.map Prod.fst, x < s.brk) := by
  obtain ⟨hseg, hnd, hb⟩ := h
  obtain ⟨b, h1, h2, h3, h4, h5⟩ := (seg_mid _ _ _ _ _ _ _ _).mp hseg
  obtain ⟨n1, n2, _, _, _⟩ := nodup_mid X Y a v hnd
  refine ⟨b, h1, h2, h3, h4, h5, n1, n2, hb a (by simp), ?_, ?_⟩
  · intro x hx; exact hb x (by simp only [List.map_append, List.mem_append]; exact Or.inl hx)
  · intro x hx
    exact hb x (by
      simp only [List.map_append, List.map_cons, List.mem_append, List.mem_cons]
      exact Or.inr (Or.inr hx))

/-- The fields of a block other than its links written anew. -/
theorem represents_update (s : allocator) (X Y : List (Nat × block)) (a : Nat) (v : block)
    (f : MemoryBlock → MemoryBlock) (hf1 : ∀ b, (f b).next = b.next)
    (hf2 : ∀ b, (f b).prev = b.prev) (h : represents s (X ++ (a, v) :: Y)) :
    ∃ b, s.heap a = some b ∧ b.view = v ∧
      represents (s.store a (f b)) (X ++ (a, (f b).view) :: Y) := by
  obtain ⟨b, h1, h2, h3, h4, h5, n1, n2, _, _, _⟩ := represents_mid s X Y a v h
  refine ⟨b, h2, h3, ?_, ?_, ?_⟩
  · rw [seg_mid]
    refine ⟨f b, ?_, store_heap_same _ _ _, rfl, by rw [hf2]; exact h4, ?_⟩
    · exact seg_frame s.heap _ X _ _ _
        (fun x hx => store_heap_other s a _ x (fun e => n1 (e ▸ hx))) h1
    · rw [hf1]
      exact seg_frame s.heap _ Y _ _ _
        (fun x hx => store_heap_other s a _ x (fun e => n2 (e ▸ hx))) h5
  · have := h.2.1
    simpa using this
  · have := h.2.2
    simpa using this

theorem nil_or_snoc (X : List (Nat × block)) : X = [] ∨ ∃ L x, X = L ++ [x] := by
  induction X using List.reverseRecOn with
  | nil => exact Or.inl rfl
  | append_singleton L x _ => exact Or.inr ⟨L, x, rfl⟩

theorem malloc_fst (s : allocator) : (malloc s).1 = s.brk := rfl

theorem strcpy_PID_fits (PID : List Char) (b : MemoryBlock) (h : PID.length < 12) :
    strcpy_PID PID b = Except.ok { b with PID := PID } := by
  unfold strcpy_PID; rw [if_pos h]

theorem strcpy_PID_new_fits (PID : List Char) (h : PID.length < 12) :
    strcpy_PID_new PID = Except.ok PID := by
  unfold strcpy_PID_new; rw [if_pos h]

theorem bind_error {α β : Type} (e : fault) (f : α → Except fault β) :
    (Except.error e : Except fault α).bind f = Except.error e := rfl

/-- The branch of `Allocate` that splits the block at `a`: a new block at the
start of the block, and the rest of the block after it. -/
theorem split_block_represents (PID : List Char) (size : Int) (s : allocator)
    (X Y : List (Nat × block)) (a : Nat) (v : block) (hP : PID.length < 12)
    (h : represents s (X ++ (a, v) :: Y)) :
    ∃ s', split_block PID size a s = Except.ok s' ∧
      represents s' (X ++ (s.brk, split_new PID size v) :: (a, split_rest size v) :: Y) ∧
      s'.out = s.out ∧ s'.err = s.err := by
  obtain ⟨b, h1, h2, h3, h4, h5, n1, n2, ha, hX, hY⟩ := represents_mid s X Y a v h
  have hna : a ≠ s.brk := by omega
  -- the state after the stores to the new block and to the block split
  have hA : (((malloc s).2.store (malloc s).1
      { start := b.start, size := size, is_free := false, PID := PID, next := some a,
        prev := b.prev }).heap a) = some b := by
    exact (store_heap_other _ _ _ _ hna).trans h2
  unfold split_block
  rw [get_eq s a b h2, bind_ok, strcpy_PID_new_fits PID hP, bind_ok]
  simp only []
  rw [modify_eq _ a b _ hA, bind_ok]
  have hview : ∀ (nx pv : Option Nat),
      MemoryBlock.view
        { start := b.start + size, size := b.size - size, is_free := b.is_free,
          PID := b.PID, next := nx, prev := pv } = split_rest size v := by
    intro nx pv; rw [← h3]; rfl
  have hnv : MemoryBlock.view
      { start := b.start, size := size, is_free := false, PID := PID,
        next := some a, prev := b.prev } = split_new PID size v := by
    rw [← h3]; rfl
  have hnd : ((X ++ (s.brk, split_new PID size v) ::
      (a, split_rest size v) :: Y).map Prod.fst).Nodup := by
    have h0 := h.2.1
    rw [List.map_append, List.map_cons] at h0
    rw [List.map_append, List.map_cons, List.map_cons]
    obtain ⟨q1, q2, q3⟩ := List.nodup_append.mp h0
    refine List.nodup_append.mpr ⟨q1, ?_, ?_⟩
    · refine List.nodup_cons.mpr ⟨?_, q2⟩
      intro hm
      rcases List.mem_cons.mp hm with hm | hm
      · exact hna hm.symm
      · have := hY _ hm; omega
    · intro x hx hx2
      rcases List.mem_cons.mp hx2 with hx2 | hx2
      · have := hX x hx; omega
      · exact q3 hx hx2
  have hbound : ∀ x ∈ (X ++ (s.brk, split_new PID size v) ::
      (a, split_rest size v) :: Y).map Prod.fst, x < s.brk + 1 := by
    intro x hx
    simp only [List.map_append, List.map_cons, List.mem_append, List.mem_cons] at hx
    rcases hx with hx | hx | hx | hx
    · have := hX x hx; omega
    · omega
    · omega
    · have := hY x hx; omega
  -- the state after the stores to the new block and to the block that is split
  have fheap : ∀ x, (((malloc s).2.store (malloc s).1
      { start := b.start, size := size, is_free := false, PID := PID, next := some a,
        prev := b.prev }).store a
      { start := b.start + size, size := b.size - size, is_free := b.is_free, PID := b.PID,
        next := b.next, prev := b.prev }).heap x =
      if x = a then
        some
          { start := b.start + size, size := b.size - size, is_free := b.is_free,
            PID := b.PID, next := b.next, prev := b.prev }
      else if x = s.brk then
        some
          { start := b.start, size := size, is_free := false, PID := PID, next := some a,
            prev := b.prev }
      else s.heap x := fun x => rfl
  have fbrk : (((malloc s).2.store (malloc s).1
      { start := b.start, size := size, is_free := false, PID := PID, next := some a,
        prev := b.prev }).store a
      { start := b.start + size, size := b.size - size, is_free := b.is_free, PID := b.PID,
        next := b.next, prev := b.prev }).brk = s.brk + 1 := rfl
  have fhead : (((malloc s).2.store (malloc s).1
      { start := b.start, size := size, is_free := false, PID := PID, next := some a,
        prev := b.prev }).store a
      { start := b.start + size, size := b.size - size, is_free := b.is_free, PID := b.PID,
        next := b.next, prev := b.prev }).head = s.head := rfl
  have fout : (((malloc s).2.store (malloc s).1
      { start := b.start, size := size, is_free := false, PID := PID, next := some a,
        prev := b.prev }).store a
      { start := b.start + size, size := b.size - size, is_free := b.is_free, PID := b.PID,
        next := b.next, prev := b.prev }).out = s.out := rfl
  have ferr : (((malloc s).2.store (malloc s).1
      { start := b.start, size := size, is_free := false, PID := PID, next := some a,
        prev := b.prev }).store a
      { start := b.start + size, size := b.size - size, is_free := b.is_free, PID := b.PID,
        next := b.next, prev := b.prev }).err = s.err := rfl
  generalize (((malloc s).2.store (malloc s).1
      { start := b.start, size := size, is_free := false, PID := PID, next := some a,
        prev := b.prev }).store a
      { start := b.start + size, size := b.size - size, is_free := b.is_free, PID := b.PID,
        next := b.next, prev := b.prev }) = sB at fheap fbrk fhead fout ferr ⊢
  rw [malloc_fst]
  have hbound1 : ∀ (sD : allocator), sD.brk = sB.brk →
      ∀ x ∈ (X ++ (s.brk, split_new PID size v) :: (a, split_rest size v) :: Y).map Prod.fst,
        x < sD.brk := by
    intro sD hD x hx
    rw [hD, fbrk]; exact hbound x hx
  have hBa : sB.heap a =
      some
        { start := b.start + size, size := b.size - size, is_free := b.is_free,
          PID := b.PID, next := b.next, prev := b.prev } := by
    rw [fheap, if_pos rfl]
  have hBn : sB.heap s.brk =
      some
        { start := b.start, size := size, is_free := false, PID := PID, next := some a,
          prev := b.prev } := by
    rw [fheap, if_neg (fun e => hna e.symm), if_pos rfl]
  have hBo : ∀ x, x ≠ a → x ≠ s.brk → sB.heap x = s.heap x := by
    intro x h1 h2; rw [fheap, if_neg h1, if_neg h2]
  rcases nil_or_snoc X with hXe | ⟨X1, xq, hXe⟩
  · -- the block split is the first block: `head` is set
    subst hXe
    have hprev : b.prev = none := h4
    rw [hprev]
    simp only [List.nil_append]
    rw [bind_ok]
    refine ⟨_, modify_eq _ a _ _ hBa, ⟨?_, hnd, hbound1 _ rfl⟩, fout, ferr⟩
    refine ⟨rfl,
      { start := b.start, size := size, is_free := false, PID := PID, next := some a,
        prev := b.prev },
      (store_heap_other _ _ _ _ (fun e => hna e.symm)).trans hBn, hnv, hprev, rfl, _,
      store_heap_same _ _ _, hview _ _, rfl, ?_⟩
    · refine seg_frame s.heap _ Y _ _ _ ?_ h5
      intro x hx
      have hxa : x ≠ a := fun e => n2 (e ▸ hx)
      have hxn : x ≠ s.brk := by have := hY x hx; omega
      exact (store_heap_other _ _ _ _ hxa).trans (hBo x hxa hxn)
  · -- there is a block before: its `next` is set
    subst hXe
    obtain ⟨q, vq⟩ := xq
    have hprev : b.prev = some q := h4.trans (last_addr_snoc _ _ _)
    obtain ⟨bq, hbq, hvq⟩ := seg_mem s.heap _ _ _ _ h1 (q, vq) (by simp)
    have hqa : q ≠ a := fun e => n1 (by rw [← e]; simp)
    have hqn : q ≠ s.brk := by have := hX q (by simp); omega
    rw [hprev]
    simp only []
    rw [modify_eq _ q bq _ ((hBo q hqa hqn).trans hbq), bind_ok]
    have hC : (sB.store q { bq with next := some s.brk }).heap a =
        some
          { start := b.start + size, size := b.size - size, is_free := b.is_free,
            PID := b.PID, next := b.next, prev := b.prev } :=
      (store_heap_other _ _ _ _ (fun e => hqa e.symm)).trans hBa
    refine ⟨_, modify_eq _ a _ _ hC, ⟨?_, hnd, hbound1 _ rfl⟩, fout, ferr⟩
    rw [seg_mid]
    refine ⟨
      { start := b.start, size := size, is_free := false, PID := PID, next := some a,
        prev := b.prev }, ?_, ?_, hnv, hprev.trans (last_addr_snoc none X1 (q, vq)).symm, ?_⟩
    · refine seg_set_next s.heap _ X1 q vq bq none _ (some a) (some s.brk)
        (fhead ▸ h1) hbq ?_ ?_
      · exact (store_heap_other _ _ _ _ hqa).trans (store_heap_same _ _ _)
      · intro x hx
        have hxX : x ∈ (X1 ++ [(q, vq)]).map Prod.fst := by
          rw [List.map_append]; exact List.mem_append_left _ hx
        have hxa : x ≠ a := fun e => n1 (e ▸ hxX)
        have hxn : x ≠ s.brk := by have := hX x hxX; omega
        have hxq : x ≠ q := by
          intro e
          have hnd0 := h.2.1
          rw [List.map_append, List.map_append] at hnd0
          have := (List.nodup_append.mp (List.nodup_append.mp hnd0).1).2.2 hx
          exact this (by rw [e]; simp)
        exact ((store_heap_other _ _ _ _ hxa).trans (store_heap_other _ _ _ _ hxq)).trans
          (hBo x hxa hxn)
    · exact ((store_heap_other _ _ _ _ (fun e => hna e.symm)).trans
        (store_heap_other _ _ _ _ (fun e => hqn e.symm))).trans hBn
    · refine ⟨rfl, _, store_heap_same _ _ _, hview _ _, rfl, ?_⟩
      refine seg_frame s.heap _ Y _ _ _ ?_ h5
      intro x hx
      have hxa : x ≠ a := fun e => n2 (e ▸ hx)
      have hxn : x ≠ s.brk := by have := hY x hx; omega
      have hxq : x ≠ q := by
        intro e
        have hnd0 := h.2.1
        rw [List.map_append] at hnd0
        have hq_in : q ∈ (X1 ++ [(q, vq)]).map Prod.fst := by simp
        have hx_in : x ∈ ((a, v) :: Y).map Prod.fst := List.mem_cons_of_mem _ hx
        exact (List.nodup_append.mp hnd0).2.2 hq_in (e ▸ hx_in)
      exact ((store_heap_other _ _ _ _ hxa).trans (store_heap_other _ _ _ _ hxq)).trans
        (hBo x hxa hxn)

theorem represents_printf (s : allocator) (l : List (Nat × block)) (text : String)
    (h : represents s l) : represents (printf s text) l := h

theorem represents_printError (s : allocator) (l : List (Nat × block)) (text : String)
    (h : represents s l) : represents (printError s text) l := h

/-- `Allocate` when the loop finds no block: the error is reported and
nothing else changes. -/
theorem Allocate_none (PID : List Char) (size : Int) (type : List Char) (s : allocator)
    (l : List (Nat × block)) (h : represents s l)
    (hc : choose (type.headD (Char.ofNat 0)) size l none = none) :
    Allocate PID size type s =
      Except.ok { s with err := s.err ++ ["ERROR: Not enough memory available."] } := by
  unfold Allocate
  have := find_block_refines (type.headD (Char.ofNat 0)) size s l (s.brk + 1) none s.head none
    h.1 (represents_length s l h) (fun x hx => by simp at hx)
  rw [Option.map_none'] at this
  rw [this, hc, bind_ok]
  rfl

/-- `Allocate` when the loop finds the block at `a`: the block is marked when
the fit is exact, and split otherwise. -/
theorem Allocate_found (PID : List Char) (size : Int) (type : List Char) (s : allocator)
    (X Y : List (Nat × block)) (a : Nat) (v : block) (hP : PID.length < 12)
    (h : represents s (X ++ (a, v) :: Y))
    (hc : choose (type.headD (Char.ofNat 0)) size (X ++ (a, v) :: Y) none = some (a, v)) :
    ∃ s' l', Allocate PID size type s = Except.ok s' ∧ represents s' l' ∧
      l'.map Prod.snd = X.map Prod.snd ++ allocated PID size v ++ Y.map Prod.snd ∧
      s'.err = s.err := by
  unfold Allocate
  have := find_block_refines (type.headD (Char.ofNat 0)) size s _ (s.brk + 1) none s.head none
    h.1 (represents_length s _ h) (fun x hx => by simp at hx)
  rw [Option.map_none'] at this
  rw [this, hc, bind_ok]
  simp only [Option.map_some']
  obtain ⟨b, hb, hv, hrep⟩ := represents_update s X Y a v
    (fun b => { b with is_free := false, PID := PID }) (fun _ => rfl) (fun _ => rfl) h
  rw [get_eq s a b hb, bind_ok]
  have hsz : b.size = v.size := by rw [← hv]; rfl
  by_cases he : v.size = size
  · have hbe : (b.size == size) = true := by rw [hsz, he]; exact beq_self_eq_true _
    simp only [hbe, if_true]
    rw [strcpy_PID_fits PID _ hP, bind_ok, bind_ok]
    refine ⟨_, _, rfl, represents_printf _ _ _ hrep, ?_, rfl⟩
    have hview : MemoryBlock.view { b with is_free := false, PID := PID } = taken PID v := by
      rw [← hv]; rfl
    simp only [allocated, he, if_true, List.map_append, List.map_cons, hview]
    simp
  · have hbe : (b.size == size) = false := by
      rw [hsz, beq_eq_false_iff_ne]; exact he
    simp only [hbe, Bool.false_eq_true, if_false]
    obtain ⟨s', hs', hrep', _, herr⟩ := split_block_represents PID size s X Y a v hP h
    rw [hs', bind_ok]
    refine ⟨_, _, rfl, represents_printf _ _ _ hrep', ?_, herr⟩
    simp [allocated, he]


/-- The state after `initializeMemory(n)` holds one free block of `n` bytes at
address 0. -/
theorem represents_init (n : Int) :
    represents (initializeMemory n start_state)
      [(1, { start := 0, size := n, is_free := true, PID := [] })] :=
  ⟨⟨rfl, _, rfl, rfl, rfl, rfl⟩, by simp, by simp [initializeMemory, malloc, start_state,
    allocator.store]⟩

/-- For every state that holds a block list and every request with a PID of
less than 12 characters, `Allocate` with a strategy `F`, `B` or `W` either
finds that no free block is large enough, writes the error to standard error
and changes nothing else, or takes the block the strategy picks (`F`: the
first free block large enough; `B`: the smallest such, the earliest among
equal sizes; `W`: the largest such, the earliest among equal sizes) and puts
in its place the block itself, allocated to the PID, when the fit is exact,
and else an allocated block of the requested size at its old start followed by
the free rest; the new state holds the new list. -/
theorem Allocate_strategy (PID : List Char) (size : Int) (type : List Char) (s : allocator)
    (l : List (Nat × block)) (hP : PID.length < 12)
    (hT : type.headD (Char.ofNat 0) = 'F' ∨ type.headD (Char.ofNat 0) = 'B' ∨
      type.headD (Char.ofNat 0) = 'W')
    (h : represents s l) :
    ((∀ v ∈ l.map Prod.snd, fits size v = false) ∧
        Allocate PID size type s =
          Except.ok { s with err := s.err ++ ["ERROR: Not enough memory available."] }) ∨
      ∃ l1 v l2 s' l', l.map Prod.snd = l1 ++ v :: l2 ∧
        picks (type.headD (Char.ofNat 0)) size l1 v l2 ∧
        Allocate PID size type s = Except.ok s' ∧ represents s' l' ∧
        l'.map Prod.snd = l1 ++ allocated PID size v ++ l2 ∧ s'.err = s.err := by
  obtain ⟨hnone, hsome⟩ := choose_inv (type.headD (Char.ofNat 0)) size hT l [] none
    (fun _ => rfl) (fun _ x hx => by simp at hx) (fun b hb => by simp at hb)
  cases hc : choose (type.headD (Char.ofNat 0)) size l none with
  | none =>
    left
    refine ⟨?_, Allocate_none PID size type s l h hc⟩
    intro v hv
    obtain ⟨x, hx, rfl⟩ := List.mem_map.mp hv
    exact hnone hc x (by simpa using hx)
  | some x =>
    right
    obtain ⟨d1, d2, hd, hp⟩ := hsome x hc
    rw [List.nil_append] at hd
    subst hd
    obtain ⟨a, v⟩ := x
    obtain ⟨s', l', h1, h2, h3, h4⟩ := Allocate_found PID size type s d1 d2 a v hP h hc
    exact ⟨d1.map Prod.snd, v, d2.map Prod.snd, s', l', by simp, hp, h1, h2, h3, h4⟩

/-! ## A block taken out of the list -/

theorem first_addr_eq (heap : Nat → Option MemoryBlock) (Y : List (Nat × block))
    (p c e : Option Nat) (h : seg heap p c Y e) : c = first_addr Y e :=
  seg_first heap Y p c e h

/-- The list without the block at `a`, once the `next` of the block before it
and the `prev` of the block after it have been set (or `head`, when there is
no block before it). -/
theorem represents_unlink (s s1 : allocator) (X Y : List (Nat × block)) (a : Nat) (v : block)
    (h : represents s (X ++ (a, v) :: Y))
    (hhead : s1.head = if X = [] then first_addr Y none else s.head)
    (hq : ∀ X1 q vq, X = X1 ++ [(q, vq)] →
      (∃ bq, s.heap q = some bq ∧ s1.heap q = some { bq with next := first_addr Y none }) ∧
        ∀ x ∈ X1.map Prod.fst, s1.heap x = s.heap x)
    (hr : ∀ r vr Y1, Y = (r, vr) :: Y1 →
      (∃ br, s.heap r = some br ∧ s1.heap r = some { br with prev := last_addr none X }) ∧
        ∀ x ∈ Y1.map Prod.fst, s1.heap x = s.heap x)
    (hbrk : s.brk ≤ s1.brk) :
    represents s1 (X ++ Y) := by
  obtain ⟨b, h1, h2, h3, h4, h5, n1, n2, ha, hX, hY⟩ := represents_mid s X Y a v h
  obtain ⟨_, _, _, _, hnd⟩ := nodup_mid X Y a v h.2.1
  have hnext : b.next = first_addr Y none := first_addr_eq _ _ _ _ _ h5
  refine ⟨?_, hnd, ?_⟩
  · rw [seg_append]
    refine ⟨first_addr Y none, ?_, ?_⟩
    · rcases nil_or_snoc X with hXe | ⟨X1, xq, hXe⟩
      · subst hXe
        rw [hhead, if_pos rfl]
        rfl
      · subst hXe
        obtain ⟨q, vq⟩ := xq
        obtain ⟨⟨bq, hbq, hbq1⟩, hrest⟩ := hq X1 q vq rfl
        have hne : ¬ (X1 ++ [(q, vq)] = []) := by simp
        rw [hhead, if_neg hne]
        exact seg_set_next s.heap s1.heap X1 q vq bq none s.head (some a) _ h1 hbq hbq1 hrest
    · rw [hnext] at h5
      exact seg_set_prev s.heap s1.heap Y (some a) (last_addr none X) _ none h5
        (nodup_mid X Y a v h.2.1).2.2.2.1 hr
  · intro x hx
    rw [List.map_append, List.mem_append] at hx
    rcases hx with hx | hx
    · have := hX x hx; omega
    · have := hY x hx; omega

/-! ## Blocks one after the other -/

theorem contig_append (l1 l2 : List block) :
    ∀ (a e : Int), contig a (l1 ++ l2) e ↔ ∃ m, contig a l1 m ∧ contig m l2 e := by
  induction l1 with
  | nil =>
    intro a e
    constructor
    · intro h; exact ⟨a, rfl, h⟩
    · rintro ⟨m, hm, h⟩
      have : a = m := hm
      subst this; exact h
  | cons v l1 ih =>
    intro a e
    constructor
    · rintro ⟨hv, h⟩
      obtain ⟨m, h1, h2⟩ := (ih _ _).mp h
      exact ⟨m, ⟨hv, h1⟩, h2⟩
    · rintro ⟨m, ⟨hv, h1⟩, h2⟩
      exact ⟨hv, (ih _ _).mpr ⟨m, h1, h2⟩⟩

theorem contig_single (a e : Int) (v : block) :
    contig a [v] e ↔ v.start = a ∧ a + v.size = e := Iff.rfl

theorem contig_pair (a e : Int) (v w : block) :
    contig a [v, w] e ↔ v.start = a ∧ w.start = a + v.size ∧ a + v.size + w.size = e := Iff.rfl

/-- The end of a stretch of blocks is its start plus the sizes. -/
theorem contig_sum (l : List block) :
    ∀ (a e : Int), contig a l e → a + (l.map (fun v => v.size)).sum = e := by
  induction l with
  | nil => intro a e h; simpa using h
  | cons v l ih =>
    intro a e h
    have := ih _ _ h.2
    simp only [List.map_cons, List.sum_cons]
    omega

/-- In a stretch of blocks each block starts where the block before it ends. -/
theorem contig_adjacent (l1 l2 : List block) (v w : block) (a e : Int)
    (h : contig a (l1 ++ v :: w :: l2) e) : w.start = v.start + v.size := by
  obtain ⟨m, _, h2⟩ := (contig_append _ _ _ _).mp h
  have h3 : v.start = m := h2.1
  have h4 : w.start = m + v.size := h2.2.1
  omega

theorem contig_of_adjacent (l : List block) :
    ∀ (a e : Int), (∀ v rest, l = v :: rest → v.start = a) →
      (∀ l1 v w l2, l = l1 ++ v :: w :: l2 → w.start = v.start + v.size) →
      a + (l.map (fun v => v.size)).sum = e → contig a l e := by
  induction l with
  | nil => intro a e _ _ h; simpa using h
  | cons v l ih =>
    intro a e hfirst hadj hsum
    have hv : v.start = a := hfirst v l rfl
    refine ⟨hv, ih _ _ ?_ ?_ ?_⟩
    · intro w rest hw
      subst hw
      have := hadj [] v w rest rfl
      omega
    · intro l1 x y l2 hl
      exact hadj (v :: l1) x y l2 (by rw [hl]; rfl)
    · simp only [List.map_cons, List.sum_cons] at hsum
      omega

/-- The list tiles the memory when it is not empty and its blocks lie one
after the other from 0 to `n`. -/
theorem tiles_iff_contig (n : Int) (l : List block) : tiles n l ↔ l ≠ [] ∧ contig 0 l n := by
  constructor
  · rintro ⟨⟨v, rest, hl, hv⟩, hadj, hsum⟩
    refine ⟨by rw [hl]; simp, contig_of_adjacent l 0 n ?_ hadj (by omega)⟩
    intro w rest1 hw
    rw [hl] at hw
    have := (List.cons.inj hw).1
    subst this
    exact hv
  · rintro ⟨hne, h⟩
    refine ⟨?_, ?_, ?_⟩
    · cases l with
      | nil => exact absurd rfl hne
      | cons v rest => exact ⟨v, rest, rfl, h.1⟩
    · intro l1 v w l2 hl
      rw [hl] at h
      exact contig_adjacent l1 l2 v w 0 n h
    · have := contig_sum l 0 n h
      omega

/-- The blocks that an allocation puts in the place of a block cover what the
block covered. -/
theorem contig_allocated (PID : List Char) (size : Int) (v : block) (a e : Int)
    (h : contig a [v] e) : contig a (allocated PID size v) e := by
  obtain ⟨h1, h2⟩ := (contig_single a e v).mp h
  unfold allocated
  by_cases hs : v.size = size
  · rw [if_pos hs]
    exact ⟨h1, h2⟩
  · rw [if_neg hs]
    refine (contig_pair a e _ _).mpr ⟨h1, ?_, ?_⟩
    · show v.start + size = a + size
      omega
    · show a + size + (v.size - size) = e
      omega

/-! ## `Allocate` with any strategy letter -/

theorem choose_mem (type0 : Char) (size : Int) (l : List (Nat × block)) :
    ∀ (best : Option (Nat × block)) (x : Nat × block),
      choose type0 size l best = some x → x ∈ l ∨ best = some x := by
  induction l with
  | nil => intro best x h; exact Or.inr h
  | cons y rest ih =>
    intro best x h
    have hy : ∀ b, choose type0 size rest b = some x → b = some y ∨ b = best →
        x ∈ y :: rest ∨ best = some x := by
      intro b hb hby
      rcases ih b x hb with hm | hm
      · exact Or.inl (List.mem_cons_of_mem _ hm)
      · rcases hby with hby | hby
        · rw [hby] at hm
          exact Or.inl (by rw [← Option.some.inj hm]; exact List.mem_cons_self _ _)
        · rw [hby] at hm; exact Or.inr hm
    rw [choose_cons] at h
    by_cases hfit : fits size y.2 = true
    · simp only [hfit, if_true] at h
      by_cases hF : (type0 == 'F') = true
      · simp only [hF, if_true] at h
        exact Or.inl (by rw [← Option.some.inj h]; exact List.mem_cons_self _ _)
      · simp only [hF, if_false] at h
        by_cases hB : (type0 == 'B') = true
        · simp only [hB, if_true] at h
          cases best with
          | none => exact hy _ h (Or.inl rfl)
          | some bb =>
            simp only [] at h
            by_cases hlt : y.2.size < bb.2.size
            · simp only [hlt, if_true] at h; exact hy _ h (Or.inl rfl)
            · simp only [hlt, if_false] at h; exact hy _ h (Or.inr rfl)
        · simp only [hB, if_false] at h
          by_cases hW : (type0 == 'W') = true
          · simp only [hW, if_true] at h
            cases best with
            | none => exact hy _ h (Or.inl rfl)
            | some bb =>
              simp only [] at h
              by_cases hlt : y.2.size > bb.2.size
              · simp only [hlt, if_true] at h; exact hy _ h (Or.inl rfl)
              · simp only [hlt, if_false] at h; exact hy _ h (Or.inr rfl)
          · simp only [hW, if_false] at h
            exact hy _ h (Or.inr rfl)
    · simp only [hfit, if_false] at h
      exact hy _ h (Or.inr rfl)

/-- A call of `Allocate` with a PID of less than 12 characters runs to its
end, and the blocks of the new list cover what the blocks of the old list
covered. -/
theorem Allocate_keeps (PID : List Char) (size : Int) (type : List Char) (s : allocator)
    (l : List (Nat × block)) (hP : PID.length < 12) (h : represents s l) (hl : l ≠ []) :
    ∃ s' l', Allocate PID size type s = Except.ok s' ∧ represents s' l' ∧ l' ≠ [] ∧
      ∀ a e, contig a (l.map Prod.snd) e → contig a (l'.map Prod.snd) e := by
  cases hc : choose (type.headD (Char.ofNat 0)) size l none with
  | none =>
    exact ⟨_, l, Allocate_none PID size type s l h hc, h, hl, fun _ _ hh => hh⟩
  | some x =>
    rcases choose_mem _ _ l none x hc with hm | hm
    · obtain ⟨X, Y, hXY⟩ := List.append_of_mem hm
      subst hXY
      obtain ⟨a, v⟩ := x
      obtain ⟨s2, l', h1, h2, h3, _⟩ := Allocate_found PID size type s X Y a v hP h hc
      refine ⟨s2, l', h1, h2, ?_, ?_⟩
      · intro he
        rw [he] at h3
        have hlen := congrArg List.length h3
        unfold allocated at hlen
        by_cases hs : v.size = size
        · simp [hs] at hlen; omega
        · simp [hs] at hlen; omega
      · intro a0 e hh
        rw [h3]
        rw [List.map_append, List.map_cons] at hh
        obtain ⟨m, hX, hvY⟩ := (contig_append _ _ _ _).mp hh
        have hvY' : contig m ([v] ++ Y.map Prod.snd) e := hvY
        obtain ⟨m2, hv, hY⟩ := (contig_append _ _ _ _).mp hvY'
        rw [List.append_assoc]
        exact (contig_append _ _ _ _).mpr ⟨m, hX,
          (contig_append _ _ _ _).mpr ⟨m2, contig_allocated PID size v m m2 hv, hY⟩⟩
    · exact absurd hm (by simp)

/-! ## `Deallocate` -/

/-- The loop of `Deallocate` stops at a block of the list that is allocated,
or finds none. -/
theorem find_pid_refines (PID : List Char) (s : allocator) (l : List (Nat × block)) :
    ∀ (fuel : Nat) (p cur : Option Nat), seg s.heap p cur l none → l.length < fuel →
      find_pid PID fuel cur s = Except.ok none ∨
        ∃ X a v Y, l = X ++ (a, v) :: Y ∧ v.is_free = false ∧ v.PID = PID ∧
          find_pid PID fuel cur s = Except.ok (some a) := by
  induction l with
  | nil =>
    intro fuel p cur h hf
    have hc : cur = none := h
    subst hc
    cases fuel with
    | zero => simp at hf
    | succ f => exact Or.inl rfl
  | cons x rest ih =>
    intro fuel p cur h hf
    obtain ⟨a, v⟩ := x
    obtain ⟨hc, b, hb, hv, hp, hrest⟩ := h
    subst hc
    cases fuel with
    | zero => simp at hf
    | succ f =>
      have hf' : rest.length < f := by simpa using hf
      rw [find_pid]
      simp only [hb]
      by_cases hcond : (!b.is_free && b.PID == PID) = true
      · right
        rw [if_pos hcond]
        simp only [Bool.and_eq_true, Bool.not_eq_true', beq_iff_eq] at hcond
        refine ⟨[], a, v, rest, rfl, ?_, ?_, rfl⟩
        · rw [← hv]; exact hcond.1
        · rw [← hv]; exact hcond.2
      · rw [if_neg hcond]
        rcases ih f (some a) b.next hrest hf' with h0 | ⟨X, a1, v1, Y, hl, hfree, hpid, hfind⟩
        · exact Or.inl h0
        · exact Or.inr ⟨(a, v) :: X, a1, v1, Y, by rw [hl]; rfl, hfree, hpid, hfind⟩

/-- A block takes in the block after it: its size grows by the size of that
block, which leaves the list and is freed. -/
theorem represents_absorb (s : allocator) (X Y : List (Nat × block)) (q a : Nat) (vq v : block)
    (h : represents s (X ++ (q, vq) :: (a, v) :: Y)) :
    ∃ bq b s1 s2 s3, s.heap q = some bq ∧ s.heap a = some b ∧ bq.view = vq ∧ b.view = v ∧
      b.prev = some q ∧ bq.next = some a ∧
      modify s q (fun x => { x with size := x.size + b.size }) = Except.ok s1 ∧
      modify s1 q (fun x => { x with next := b.next }) = Except.ok s2 ∧
      (match b.next with
        | none => Except.ok s2
        | some n => modify s2 n (fun x => { x with prev := some q })) = Except.ok s3 ∧
      represents (s3.free a) (X ++ (q, { vq with size := vq.size + v.size }) :: Y) := by
  have h' : represents s ((X ++ [(q, vq)]) ++ (a, v) :: Y) := by
    rw [List.append_assoc]; exact h
  obtain ⟨b, g1, g2, g3, g4, g5, m1, m2, ga, gX, gY⟩ := represents_mid s _ Y a v h'
  obtain ⟨bq, hbq, hvq, hrep⟩ := represents_update s X ((a, v) :: Y) q vq
    (fun x => { x with size := x.size + b.size }) (fun _ => rfl) (fun _ => rfl) h
  obtain ⟨_, k1, k2, _, _, k5, _, _, _, _, _⟩ := represents_mid s X ((a, v) :: Y) q vq h
  rw [hbq] at k2
  have hbe := Option.some.inj k2
  subst hbe
  have hbqn : bq.next = some a := k5.1
  have hbp : b.prev = some q := g4.trans (last_addr_snoc none X (q, vq))
  have hqa : q ≠ a := fun e => m1 (by rw [← e]; simp)
  have hview : MemoryBlock.view { bq with size := bq.size + b.size } =
      { vq with size := vq.size + v.size } := by
    rw [← hvq, ← g3]; rfl
  rw [hview] at hrep
  have hrep' : represents (s.store q { bq with size := bq.size + b.size })
      ((X ++ [(q, { vq with size := vq.size + v.size })]) ++ (a, v) :: Y) := by
    rw [List.append_assoc]; exact hrep
  have hs1 : modify s q (fun x => { x with size := x.size + b.size }) =
      Except.ok (s.store q { bq with size := bq.size + b.size }) := modify_eq s q bq _ hbq
  have hs2 : modify (s.store q { bq with size := bq.size + b.size }) q
      (fun x => { x with next := b.next }) =
      Except.ok ((s.store q { bq with size := bq.size + b.size }).store q
        { bq with size := bq.size + b.size, next := b.next }) :=
    modify_eq _ q _ _ (store_heap_same _ _ _)
  have hnext : b.next = first_addr Y none := first_addr_eq _ _ _ _ _ g5
  have hnX : ¬ (X ++ [(q, ({ vq with size := vq.size + v.size } : block))] = []) := by simp
  have hXq : ∀ x ∈ X.map Prod.fst, x ≠ q := by
    intro x hx e
    have hnd0 := h.2.1
    rw [List.map_append] at hnd0
    exact (List.nodup_append.mp hnd0).2.2 hx (by rw [e]; simp)
  have hXa : ∀ x ∈ X.map Prod.fst, x ≠ a := by
    intro x hx e
    exact m1 (by rw [← e, List.map_append]; exact List.mem_append_left _ hx)
  have hYq : ∀ x ∈ Y.map Prod.fst, x ≠ q := by
    intro x hx e
    have hnd0 := h.2.1
    rw [List.map_append] at hnd0
    have := (List.nodup_cons.mp (List.nodup_append.mp hnd0).2.1).1
    exact this (by rw [← e]; exact List.mem_cons_of_mem _ hx)
  have hYa : ∀ x ∈ Y.map Prod.fst, x ≠ a := fun x hx e => m2 (e ▸ hx)
  have hsnoc : ∀ (X1 : List (Nat × block)) (q0 : Nat) (vq0 : block),
      X ++ [(q, ({ vq with size := vq.size + v.size } : block))] = X1 ++ [(q0, vq0)] →
      X1 = X ∧ q0 = q := by
    intro X1 q0 vq0 e
    have := List.append_inj' e rfl
    refine ⟨this.1.symm, ?_⟩
    have h2 := List.cons.inj this.2
    exact (congrArg Prod.fst h2.1).symm
  have hlist : ∀ (Z : List (Nat × block)),
      X ++ (q, ({ vq with size := vq.size + v.size } : block)) :: Z =
        (X ++ [(q, { vq with size := vq.size + v.size })]) ++ Z := by
    intro Z; simp
  rw [hlist]
  cases Y with
  | nil =>
    have hbn : b.next = none := hnext
    rw [hbn] at hs2
    refine ⟨bq, b, _, _, _, hbq, g2, hvq, g3, hbp, hbqn, hs1, by rw [hbn]; exact hs2,
      by rw [hbn], ?_⟩
    refine represents_unlink _ _ _ [] a v hrep' ?_ ?_ ?_ (Nat.le_refl _)
    · rw [if_neg hnX]; rfl
    · intro X1 q0 vq0 e
      obtain ⟨e1, e2⟩ := hsnoc X1 q0 vq0 e
      subst e1; subst e2
      refine ⟨⟨_, store_heap_same _ _ _, ?_⟩, ?_⟩
      · rw [free_heap, if_neg hqa, store_heap_same]; rfl
      · intro x hx
        rw [free_heap, if_neg (hXa x hx), store_heap_other _ _ _ _ (hXq x hx)]
    · intro r vr Y1 e
      exact absurd e (by simp)
  | cons y Y1 =>
    obtain ⟨r, vr⟩ := y
    have hbn : b.next = some r := hnext
    rw [hbn] at hs2
    obtain ⟨br, hbr, _⟩ := seg_mem s.heap _ _ _ _ g5 (r, vr) (by simp)
    have hrq : r ≠ q := hYq r (by simp)
    have hra : r ≠ a := hYa r (by simp)
    have hr2 : ((s.store q { bq with size := bq.size + b.size }).store q
        { bq with size := bq.size + b.size, next := some r }).heap r = some br := by
      rw [store_heap_other _ _ _ _ hrq, store_heap_other _ _ _ _ hrq]; exact hbr
    refine ⟨bq, b, _, _, _, hbq, g2, hvq, g3, hbp, hbqn, hs1, by rw [hbn]; exact hs2,
      by rw [hbn]; exact modify_eq _ r br _ hr2, ?_⟩
    refine represents_unlink _ _ _ ((r, vr) :: Y1) a v hrep' ?_ ?_ ?_ (Nat.le_refl _)
    · rw [if_neg hnX]; rfl
    · intro X1 q0 vq0 e
      obtain ⟨e1, e2⟩ := hsnoc X1 q0 vq0 e
      subst e1; subst e2
      refine ⟨⟨_, store_heap_same _ _ _, ?_⟩, ?_⟩
      · rw [free_heap, if_neg hqa, store_heap_other _ _ _ _ (fun e => hrq e.symm),
          store_heap_same]
        rfl
      · intro x hx
        have hxr : x ≠ r := by
          intro e
          have hnd0 := h.2.1
          rw [List.map_append] at hnd0
          exact (List.nodup_append.mp hnd0).2.2 hx (by rw [e]; simp)
        rw [free_heap, if_neg (hXa x hx), store_heap_other _ _ _ _ hxr,
          store_heap_other _ _ _ _ (hXq x hx)]
    · intro r0 vr0 Y0 e
      have e1 := List.cons.inj e
      have e2 : r = r0 := congrArg Prod.fst e1.1
      have e3 : Y1 = Y0 := e1.2
      subst e2; subst e3
      refine ⟨⟨br, ?_, ?_⟩, ?_⟩
      · rw [store_heap_other _ _ _ _ hrq]; exact hbr
      · rw [free_heap, if_neg hra, store_heap_same, last_addr_snoc]
      · intro x hx
        have hxY : x ∈ ((r, vr) :: Y1).map Prod.fst := List.mem_cons_of_mem _ hx
        have hxr : x ≠ r := by
          intro e
          have := (nodup_mid _ _ a v h'.2.1).2.2.2.1
          exact (List.nodup_cons.mp this).1 (e ▸ hx)
        rw [free_heap, if_neg (hYa x hxY), store_heap_other _ _ _ _ hxr,
          store_heap_other _ _ _ _ (hYq x hxY)]

/-- Blocks in the middle of a list put in the place of blocks that covered the
same addresses. -/
theorem contig_replace (X Y L1 L2 : List block)
    (hrep : ∀ m e, contig m L1 e → contig m L2 e) (m e : Int)
    (h : contig m (X ++ (L1 ++ Y)) e) : contig m (X ++ (L2 ++ Y)) e := by
  obtain ⟨m1, hX, h1⟩ := (contig_append _ _ _ _).mp h
  obtain ⟨m2, hL, hY⟩ := (contig_append _ _ _ _).mp h1
  exact (contig_append _ _ _ _).mpr ⟨m1, hX, (contig_append _ _ _ _).mpr ⟨m2, hrep _ _ hL, hY⟩⟩

theorem contig_absorb (X Y : List block) (vq v : block) (m e : Int)
    (h : contig m (X ++ vq :: v :: Y) e) :
    contig m (X ++ { vq with size := vq.size + v.size } :: Y) e := by
  refine contig_replace X Y [vq, v] [{ vq with size := vq.size + v.size }] ?_ m e h
  intro m1 e1 h1
  obtain ⟨h2, h3, h4⟩ := (contig_pair _ _ _ _).mp h1
  refine (contig_single _ _ _).mpr ⟨h2, ?_⟩
  show m1 + (vq.size + v.size) = e1
  omega

theorem contig_same (X Y : List block) (v w : block) (hs : w.start = v.start)
    (hz : w.size = v.size) (m e : Int) (h : contig m (X ++ v :: Y) e) :
    contig m (X ++ w :: Y) e := by
  refine contig_replace X Y [v] [w] ?_ m e h
  intro m1 e1 h1
  obtain ⟨h2, h3⟩ := (contig_single _ _ _).mp h1
  exact (contig_single _ _ _).mpr ⟨by omega, by omega⟩

/-- The step of `Deallocate` that merges the block with the block before
it. -/
theorem merge_prev_keeps (s : allocator) (X Y : List (Nat × block)) (a : Nat) (v : block)
    (h : represents s (X ++ (a, v) :: Y)) :
    ∃ c s' X' vc, merge_prev a s = Except.ok (c, s') ∧ represents s' (X' ++ (c, vc) :: Y) ∧
      ∀ m e, contig m ((X ++ (a, v) :: Y).map Prod.snd) e →
        contig m ((X' ++ (c, vc) :: Y).map Prod.snd) e := by
  obtain ⟨b, h1, h2, h3, h4, h5, n1, n2, ha, hX, hY⟩ := represents_mid s X Y a v h
  rcases nil_or_snoc X with hXe | ⟨X1, xq, hXe⟩
  · subst hXe
    have hprev : b.prev = none := h4
    refine ⟨a, s, [], v, ?_, h, fun _ _ hh => hh⟩
    unfold merge_prev
    rw [get_eq s a b h2, bind_ok]
    simp only [hprev]
  · subst hXe
    obtain ⟨q, vq⟩ := xq
    have h' : represents s (X1 ++ (q, vq) :: (a, v) :: Y) := by
      rw [List.append_assoc] at h; exact h
    obtain ⟨bq, b0, s1, s2, s3, hbq, hb0, hvq, hv0, hbp, hbqn, hs1, hs2, hs3, hrep⟩ :=
      represents_absorb s X1 Y q a vq v h'
    rw [h2] at hb0
    have hbe := Option.some.inj hb0
    subst hbe
    unfold merge_prev
    rw [get_eq s a b h2, bind_ok]
    simp only [hbp]
    rw [get_eq s q bq hbq, bind_ok]
    by_cases hfree : bq.is_free = true
    · simp only [hfree, if_true]
      rw [hs1, bind_ok, hs2, bind_ok, hs3, bind_ok]
      refine ⟨q, s3.free a, X1, _, rfl, hrep, ?_⟩
      intro m e hh
      rw [List.append_assoc, List.map_append] at hh
      rw [List.map_append]
      exact contig_absorb _ _ vq v m e hh
    · simp only [hfree, Bool.false_eq_true, if_false]
      exact ⟨a, s, X1 ++ [(q, vq)], v, rfl, h, fun _ _ hh => hh⟩

/-- The step of `Deallocate` that merges the block with the block after
it. -/
theorem merge_next_keeps (s : allocator) (X Y : List (Nat × block)) (c : Nat) (vc : block)
    (h : represents s (X ++ (c, vc) :: Y)) :
    ∃ s' l', merge_next c s = Except.ok s' ∧ represents s' l' ∧ l' ≠ [] ∧
      ∀ m e, contig m ((X ++ (c, vc) :: Y).map Prod.snd) e → contig m (l'.map Prod.snd) e := by
  obtain ⟨b, h1, h2, h3, h4, h5, n1, n2, ha, hX, hY⟩ := represents_mid s X Y c vc h
  cases Y with
  | nil =>
    have hnext : b.next = none := h5
    refine ⟨s, _, ?_, h, by simp, fun _ _ hh => hh⟩
    unfold merge_next
    rw [get_eq s c b h2, bind_ok]
    simp only [hnext]
  | cons y Y1 =>
    obtain ⟨r, vr⟩ := y
    obtain ⟨bq, br, s1, s2, s3, hbq, hbr, hvq, hvr, hbp, hbqn, hs1, hs2, hs3, hrep⟩ :=
      represents_absorb s X Y1 c r vc vr h
    rw [h2] at hbq
    have hbe := Option.some.inj hbq
    subst hbe
    unfold merge_next
    rw [get_eq s c b h2, bind_ok]
    simp only [hbqn]
    rw [get_eq s r br hbr, bind_ok]
    by_cases hfree : br.is_free = true
    · simp only [hfree, if_true]
      rw [hs1, bind_ok, hs2, bind_ok, hs3, bind_ok]
      refine ⟨s3.free r, _, rfl, hrep, by simp, ?_⟩
      intro m e hh
      rw [List.map_append] at hh
      rw [List.map_append]
      exact contig_absorb _ _ vc vr m e hh
    · simp only [hfree, Bool.false_eq_true, if_false]
      exact ⟨s, _, rfl, h, by simp, fun _ _ hh => hh⟩

/-- A call of `Deallocate` runs to its end, and the blocks of the new list
cover what the blocks of the old list covered. -/
theorem Deallocate_keeps (PID : List Char) (s : allocator) (l : List (Nat × block))
    (h : represents s l) (hl : l ≠ []) :
    ∃ s' l', Deallocate PID s = Except.ok s' ∧ represents s' l' ∧ l' ≠ [] ∧
      ∀ m e, contig m (l.map Prod.snd) e → contig m (l'.map Prod.snd) e := by
  unfold Deallocate
  rcases find_pid_refines PID s l (s.brk + 1) none s.head h.1 (represents_length s l h) with
    h0 | ⟨X, a, v, Y, hXY, _, _, hfind⟩
  · rw [h0, bind_ok]
    exact ⟨_, l, rfl, represents_printError _ _ _ h, hl, fun _ _ hh => hh⟩
  · subst hXY
    rw [hfind, bind_ok]
    simp only []
    obtain ⟨b, hb, hv, hrep⟩ := represents_update s X Y a v
      (fun b => { b with is_free := true, PID := [] }) (fun _ => rfl) (fun _ => rfl) h
    rw [modify_eq s a b _ hb, bind_ok]
    obtain ⟨c, s2, X', vc, hm, hrep2, hk2⟩ := merge_prev_keeps _ X Y a _ hrep
    rw [hm, bind_ok]
    obtain ⟨s3, l', hn, hrep3, hne, hk3⟩ := merge_next_keeps s2 X' Y c vc hrep2
    simp only []
    rw [hn, bind_ok]
    refine ⟨_, l', rfl, represents_printf _ _ _ hrep3, hne, ?_⟩
    intro m e hh
    apply hk3
    apply hk2
    rw [List.map_append, List.map_cons] at hh ⊢
    refine contig_same _ _ v _ ?_ ?_ m e hh
    · rw [← hv]; rfl
    · rw [← hv]; rfl

/-! ## `Compact` -/

/-- The statements of the first loop of `Compact` for a free block: the block
leaves the list and is freed. -/
theorem compact_unlink (s : allocator) (D T : List (Nat × block)) (a : Nat) (v : block)
    (h : represents s (D ++ (a, v) :: T)) :
    ∃ b sA sB, s.heap a = some b ∧ b.view = v ∧ b.next = first_addr T none ∧
      (match b.prev with
        | some p => modify s p (fun x => { x with next := b.next })
        | none => Except.ok { s with head := b.next }) = Except.ok sA ∧
      (match b.next with
        | some n => modify sA n (fun x => { x with prev := b.prev })
        | none => Except.ok sA) = Except.ok sB ∧
      represents (sB.free a) (D ++ T) ∧ (sB.free a).brk = s.brk := by
  obtain ⟨b, h1, h2, h3, h4, h5, n1, n2, ha, hX, hY⟩ := represents_mid s D T a v h
  have hnext : b.next = first_addr T none := first_addr_eq _ _ _ _ _ h5
  have hnd := h.2.1
  rw [List.map_append, List.map_cons] at hnd
  obtain ⟨ndD, ndT, ndis⟩ := List.nodup_append.mp hnd
  have hDa : ∀ x ∈ D.map Prod.fst, x ≠ a := fun x hx e => n1 (e ▸ hx)
  have hTa : ∀ x ∈ T.map Prod.fst, x ≠ a := fun x hx e => n2 (e ▸ hx)
  have hDT : ∀ x ∈ D.map Prod.fst, ∀ y ∈ T.map Prod.fst, x ≠ y :=
    fun x hx y hy e => ndis hx (List.mem_cons_of_mem _ (e ▸ hy))
  rcases nil_or_snoc D with hDe | ⟨D1, xq, hDe⟩
  · subst hDe
    have hp : b.prev = none := h4
    cases T with
    | nil =>
      have hn : b.next = none := hnext
      refine ⟨b, _, _, h2, h3, hnext, by rw [hp, hn], by rw [hn], ?_, ?_⟩
      swap
      · rfl
      refine represents_unlink s _ [] [] a v h ?_ ?_ ?_ (Nat.le_refl _)
      · rw [if_pos rfl]; rfl
      · intro X1 q vq e; exact absurd e (by simp)
      · intro r vr Y1 e; exact absurd e (by simp)
    | cons y T2 =>
      obtain ⟨r, vr⟩ := y
      have hn : b.next = some r := hnext
      obtain ⟨br, hbr, _⟩ := seg_mem s.heap _ _ _ _ h5 (r, vr) (by simp)
      have hra : r ≠ a := hTa r (by simp)
      have hB : modify { s with head := some r } r (fun x => { x with prev := none }) =
          Except.ok (({ s with head := some r } : allocator).store r { br with prev := none }) :=
        modify_eq _ r br _ hbr
      refine ⟨b, _, _, h2, h3, hnext, by rw [hp, hn], by rw [hn, hp]; exact hB, ?_, ?_⟩
      swap
      · rfl
      refine represents_unlink s _ [] ((r, vr) :: T2) a v h ?_ ?_ ?_ (Nat.le_refl _)
      · rw [if_pos rfl]; rfl
      · intro X1 q vq e; exact absurd e (by simp)
      · intro r0 vr0 Y0 e
        have e1 := List.cons.inj e
        have e2 : r = r0 := congrArg Prod.fst e1.1
        have e3 : T2 = Y0 := e1.2
        subst e2; subst e3
        refine ⟨⟨br, hbr, ?_⟩, ?_⟩
        · rw [free_heap, if_neg hra, store_heap_same]; rfl
        · intro x hx
          have hxT : x ∈ ((r, vr) :: T2).map Prod.fst := List.mem_cons_of_mem _ hx
          have hxr : x ≠ r := fun e =>
            (List.nodup_cons.mp (List.nodup_cons.mp ndT).2).1 (e ▸ hx)
          rw [free_heap, if_neg (hTa x hxT), store_heap_other _ _ _ _ hxr]
  · subst hDe
    obtain ⟨q, vq⟩ := xq
    have hp : b.prev = some q := h4.trans (last_addr_snoc none D1 (q, vq))
    obtain ⟨bq, hbq, _⟩ := seg_mem s.heap _ _ _ _ h1 (q, vq) (by simp)
    have hqa : q ≠ a := hDa q (by simp)
    have hnD : ¬ (D1 ++ [(q, vq)] = []) := by simp
    have hsnoc : ∀ (X1 : List (Nat × block)) (q0 : Nat) (vq0 : block),
        D1 ++ [(q, vq)] = X1 ++ [(q0, vq0)] → X1 = D1 ∧ q0 = q := by
      intro X1 q0 vq0 e
      have := List.append_inj' e rfl
      refine ⟨this.1.symm, ?_⟩
      have h2 := List.cons.inj this.2
      exact (congrArg Prod.fst h2.1).symm
    have hD1q : ∀ x ∈ D1.map Prod.fst, x ≠ q := by
      intro x hx e
      rw [List.map_append] at ndD
      exact (List.nodup_append.mp ndD).2.2 hx (by rw [e]; simp)
    have hD1a : ∀ x ∈ D1.map Prod.fst, x ≠ a := fun x hx =>
      hDa x (by rw [List.map_append]; exact List.mem_append_left _ hx)
    cases T with
    | nil =>
      have hn : b.next = none := hnext
      have hA : modify s q (fun x => { x with next := none }) =
          Except.ok (s.store q { bq with next := none }) := modify_eq s q bq _ hbq
      refine ⟨b, _, _, h2, h3, hnext, by rw [hp, hn]; exact hA, by rw [hn], ?_, ?_⟩
      swap
      · rfl
      refine represents_unlink s _ _ [] a v h ?_ ?_ ?_ (Nat.le_refl _)
      · rw [if_neg hnD]; rfl
      · intro X1 q0 vq0 e
        obtain ⟨e1, e2⟩ := hsnoc X1 q0 vq0 e
        subst e1; subst e2
        refine ⟨⟨bq, hbq, ?_⟩, ?_⟩
        · rw [free_heap, if_neg hqa, store_heap_same]; rfl
        · intro x hx
          rw [free_heap, if_neg (hD1a x hx), store_heap_other _ _ _ _ (hD1q x hx)]
      · intro r vr Y1 e; exact absurd e (by simp)
    | cons y T2 =>
      obtain ⟨r, vr⟩ := y
      have hn : b.next = some r := hnext
      obtain ⟨br, hbr, _⟩ := seg_mem s.heap _ _ _ _ h5 (r, vr) (by simp)
      have hra : r ≠ a := hTa r (by simp)
      have hqr : q ≠ r := hDT q (by simp) r (by simp)
      have hA : modify s q (fun x => { x with next := some r }) =
          Except.ok (s.store q { bq with next := some r }) := modify_eq s q bq _ hbq
      have hB : modify (s.store q { bq with next := some r }) r
          (fun x => { x with prev := some q }) =
          Except.ok ((s.store q { bq with next := some r }).store r
            { br with prev := some q }) :=
        modify_eq _ r br _ ((store_heap_other _ _ _ _ (fun e => hqr e.symm)).trans hbr)
      refine ⟨b, _, _, h2, h3, hnext, by rw [hp, hn]; exact hA, by rw [hn, hp]; exact hB,
        ?_, ?_⟩
      swap
      · rfl
      refine represents_unlink s _ _ ((r, vr) :: T2) a v h ?_ ?_ ?_ (Nat.le_refl _)
      · rw [if_neg hnD]; rfl
      · intro X1 q0 vq0 e
        obtain ⟨e1, e2⟩ := hsnoc X1 q0 vq0 e
        subst e1; subst e2
        refine ⟨⟨bq, hbq, ?_⟩, ?_⟩
        · rw [free_heap, if_neg hqa, store_heap_other _ _ _ _ hqr, store_heap_same]; rfl
        · intro x hx
          rw [free_heap, if_neg (hD1a x hx),
            store_heap_other _ _ _ _
              (hDT x (by rw [List.map_append]; exact List.mem_append_left _ hx) r (by simp)),
            store_heap_other _ _ _ _ (hD1q x hx)]
      · intro r0 vr0 Y0 e
        have e1 := List.cons.inj e
        have e2 : r = r0 := congrArg Prod.fst e1.1
        have e3 : T2 = Y0 := e1.2
        subst e2; subst e3
        refine ⟨⟨br, hbr, ?_⟩, ?_⟩
        · rw [free_heap, if_neg hra, store_heap_same, last_addr_snoc]
        · intro x hx
          have hxT : x ∈ ((r, vr) :: T2).map Prod.fst := List.mem_cons_of_mem _ hx
          have hxr : x ≠ r := fun e =>
            (List.nodup_cons.mp (List.nodup_cons.mp ndT).2).1 (e ▸ hx)
          rw [free_heap, if_neg (hTa x hxT), store_heap_other _ _ _ _ hxr,
            store_heap_other _ _ _ _ (fun e => hDT q (by simp) x hxT e.symm)]

theorem compacted_cons (hole : Int) (x : Nat × block) (rest : List (Nat × block)) :
    compacted hole (x :: rest) =
      if x.2.is_free then compacted (hole + x.2.size) rest
      else (x.1, { x.2 with start := x.2.start - hole }) :: compacted hole rest := rfl

theorem hole_total_cons (hole : Int) (x : Nat × block) (rest : List (Nat × block)) :
    hole_total hole (x :: rest) =
      if x.2.is_free then hole_total (hole + x.2.size) rest else hole_total hole rest := rfl

theorem compact_loop_cons (fuel : Nat) (current : Nat) (hole_size : Int) (s : allocator) :
    compact_loop (fuel + 1) (some current) hole_size s =
      match s.heap current with
      | none => Except.error fault.invalid_pointer
      | some c =>
        if c.is_free then
          (match c.prev with
            | some p => modify s p (fun b => { b with next := c.next })
            | none => Except.ok { s with head := c.next }).bind fun s =>
          (match c.next with
            | some n => modify s n (fun b => { b with prev := c.prev })
            | none => Except.ok s).bind fun s =>
          compact_loop fuel c.next (hole_size + c.size) (s.free current)
        else
          compact_loop fuel c.next hole_size
            (s.store current { c with start := c.start - hole_size }) := rfl

/-- The first loop of `Compact` in the heap does what `compacted` does on the
list, and sums what `hole_total` sums. -/
theorem compact_loop_refines (T : List (Nat × block)) :
    ∀ (fuel : Nat) (hole : Int) (s : allocator) (D : List (Nat × block)),
      represents s (D ++ T) → T.length < fuel →
      ∃ s', compact_loop fuel (first_addr T none) hole s = Except.ok (hole_total hole T, s') ∧
        represents s' (D ++ compacted hole T) ∧ s'.brk = s.brk := by
  induction T with
  | nil =>
    intro fuel hole s D h hf
    cases fuel with
    | zero => simp at hf
    | succ f => exact ⟨s, rfl, h, rfl⟩
  | cons x T1 ih =>
    intro fuel hole s D h hf
    obtain ⟨a, v⟩ := x
    cases fuel with
    | zero => simp at hf
    | succ f =>
      have hf' : T1.length < f := by simpa using hf
      show ∃ s', compact_loop (f + 1) (some a) hole s = _ ∧ _
      rw [compact_loop_cons, compacted_cons, hole_total_cons]
      by_cases hfree : v.is_free = true
      · obtain ⟨b, sA, sB, hb, hv, hnext, hsA, hsB, hrep, hbrk⟩ := compact_unlink s D T1 a v h
        have hbf : b.is_free = true := by rw [← hfree, ← hv]; rfl
        have hbs : b.size = v.size := by rw [← hv]; rfl
        simp only [hb, hbf, if_true, hfree]
        rw [hsA, bind_ok, hsB, bind_ok, hnext, hbs]
        obtain ⟨s', h1, h2, h3⟩ := ih f (hole + v.size) (sB.free a) D hrep hf'
        exact ⟨s', h1, h2, h3.trans hbrk⟩
      · obtain ⟨b, hb, hv, hrep⟩ := represents_update s D T1 a v
          (fun b => { b with start := b.start - hole }) (fun _ => rfl) (fun _ => rfl) h
        have hbf : b.is_free = false := by
          have : b.is_free = v.is_free := by rw [← hv]; rfl
          rw [this]; simpa using hfree
        have hvf : v.is_free = false := by simpa using hfree
        have hview : MemoryBlock.view { b with start := b.start - hole } =
            { v with start := v.start - hole } := by rw [← hv]; rfl
        have hnext : b.next = first_addr T1 none := by
          obtain ⟨b0, _, g2, _, _, g5, _⟩ := represents_mid s D T1 a v h
          rw [hb] at g2
          have hbe := Option.some.inj g2
          subst hbe
          exact first_addr_eq _ _ _ _ _ g5
        simp only [hb, hbf, hvf, Bool.false_eq_true, if_false]
        rw [hnext]
        rw [hview] at hrep
        have hrep' : represents (s.store a { b with start := b.start - hole })
            ((D ++ [(a, { v with start := v.start - hole })]) ++ T1) := by
          rw [List.append_assoc]; exact hrep
        simp only [hbf, hvf, hnext] at hrep'
        obtain ⟨s', h1, h2, h3⟩ := ih f hole _ _ hrep' hf'
        refine ⟨s', h1, ?_, h3⟩
        rw [List.append_assoc] at h2
        exact h2

theorem find_last_cons (fuel : Nat) (current : Nat) (s : allocator) :
    find_last (fuel + 1) (some current) s =
      match s.heap current with
      | none => Except.error fault.invalid_pointer
      | some c =>
        match c.next with
        | none => Except.ok current
        | some n => find_last fuel (some n) s := rfl

/-- The second loop of `Compact` stops at the last block of a list that is not
empty. -/
theorem find_last_refines (s : allocator) (c : Nat) (vc : block) (L : List (Nat × block)) :
    ∀ (fuel : Nat) (p cur : Option Nat), seg s.heap p cur (L ++ [(c, vc)]) none →
      L.length < fuel → find_last fuel cur s = Except.ok c := by
  induction L with
  | nil =>
    intro fuel p cur h hf
    obtain ⟨hc, b, hb, _, _, hrest⟩ := h
    have hn : b.next = none := hrest
    subst hc
    cases fuel with
    | zero => simp at hf
    | succ f =>
      rw [find_last_cons]
      simp only [hb, hn]
  | cons x L1 ih =>
    intro fuel p cur h hf
    obtain ⟨a, v⟩ := x
    obtain ⟨hc, b, hb, _, _, hrest⟩ := h
    subst hc
    cases fuel with
    | zero => simp at hf
    | succ f =>
      have hf' : L1.length < f := by simpa using hf
      rw [find_last_cons]
      simp only [hb]
      cases hbn : b.next with
      | none =>
        rw [hbn] at hrest
        have := seg_first _ _ _ _ _ hrest
        cases L1 with
        | nil => exact absurd this (by simp [first_addr])
        | cons y L2 => exact absurd this (by simp [first_addr])
      | some n =>
        rw [hbn] at hrest
        exact ih f (some a) (some n) hrest hf'

theorem compacted_nil (l : List (Nat × block)) :
    ∀ hole, compacted hole l = [] ↔ ∀ x ∈ l, x.2.is_free = true := by
  induction l with
  | nil => intro hole; simp [compacted]
  | cons x rest ih =>
    intro hole
    rw [compacted_cons]
    by_cases hfree : x.2.is_free = true
    · simp only [hfree, if_true]
      rw [ih]
      simp [hfree]
    · simp only [hfree, Bool.false_eq_true, if_false]
      simp [hfree]

/-- The first loop of `Compact` moves the allocated blocks down so that they
lie one after the other; the hole summed is what is left behind them. -/
theorem contig_compacted (l : List (Nat × block)) :
    ∀ (hole m e : Int), contig m (l.map Prod.snd) e →
      contig (m - hole) ((compacted hole l).map Prod.snd) (e - hole_total hole l) := by
  induction l with
  | nil =>
    intro hole m e h
    have : m = e := h
    subst this
    rfl
  | cons x rest ih =>
    intro hole m e h
    obtain ⟨hx, hrest⟩ := h
    rw [compacted_cons, hole_total_cons]
    by_cases hfree : x.2.is_free = true
    · simp only [hfree, if_true]
      have := ih (hole + x.2.size) _ e hrest
      have he : m + x.2.size - (hole + x.2.size) = m - hole := by omega
      rw [he] at this
      exact this
    · simp only [hfree, Bool.false_eq_true, if_false]
      have := ih hole _ e hrest
      refine ⟨?_, ?_⟩
      · show x.2.start - hole = m - hole
        rw [hx]
      · have he : m + x.2.size - hole = m - hole + x.2.size := by omega
        rw [he] at this
        exact this

/-- `Compact` on a list with an allocated block: the allocated blocks, moved
down, are followed by one new free block, of the size of all the free blocks
there were, at the end of the last allocated block. -/
theorem Compact_refines (s : allocator) (l L : List (Nat × block)) (c : Nat) (vc : block)
    (h : represents s l) (hc : compacted 0 l = L ++ [(c, vc)]) :
    ∃ s', Compact s = Except.ok s' ∧
      represents s' (compacted 0 l ++
        [(s.brk, { start := vc.start + vc.size, size := hole_total 0 l, is_free := true,
                   PID := [] })]) := by
  have h0 : represents (printf s "Compacting memory...\n") ([] ++ l) := h
  obtain ⟨s1, hloop, hrep1, hbrk1⟩ := compact_loop_refines l
    ((printf s "Compacting memory...\n").brk + 1) 0 (printf s "Compacting memory...\n") [] h0
    (represents_length s l h)
  have hhead : (printf s "Compacting memory...\n").head = first_addr l none :=
    seg_first _ _ _ _ _ h.1
  have hbrk : s1.brk = s.brk := hbrk1
  have hrep : represents s1 (L ++ [(c, vc)]) := by
    rw [← hc]; exact hrep1
  have hlen := represents_length s1 _ hrep
  have hfind : find_last ((malloc s1).2.brk + 1) (malloc s1).2.head (malloc s1).2 =
      Except.ok c :=
    find_last_refines (malloc s1).2 c vc L _ none _ hrep.1 (by
      have hb : (malloc s1).2.brk = s1.brk + 1 := rfl
      rw [hb]
      simp at hlen
      omega)
  obtain ⟨bc, g1, g2, g3, g4, g5, m1, _, gc, gX, _⟩ := represents_mid s1 L [] c vc hrep
  have hcb : c ≠ s1.brk := by omega
  have hget : get (malloc s1).2 c = Except.ok bc := get_eq _ c bc g2
  unfold Compact
  simp only []
  rw [hhead, hloop, bind_ok]
  rw [hfind, bind_ok, hget, bind_ok]
  dsimp only
  have hst : ((malloc s1).2.store (malloc s1).1
      { start := bc.start + bc.size, size := hole_total 0 l, is_free := true, PID := [],
        next := none, prev := some c }).heap c = some bc :=
    (store_heap_other _ _ _ _ hcb).trans g2
  rw [modify_eq _ c bc _ hst, bind_ok, hc, ← hbrk]
  refine ⟨_, rfl, ?_⟩
  have hbs : bc.start + bc.size = vc.start + vc.size := by rw [← g3]; rfl
  rw [malloc_fst, hbs]
  refine ⟨?_, ?_, ?_⟩
  · rw [seg_append]
    refine ⟨some s1.brk, ?_, ?_⟩
    · refine seg_set_next s1.heap _ L c vc bc none _ none (some s1.brk) hrep.1 g2
        (store_heap_same _ _ _) ?_
      intro x hx
      have hxc : x ≠ c := fun e => m1 (e ▸ hx)
      have hxb : x ≠ s1.brk := by have := gX x hx; omega
      exact (store_heap_other _ _ _ _ hxc).trans (store_heap_other _ _ _ _ hxb)
    · refine ⟨rfl, _, (store_heap_other _ _ _ _ (fun e => hcb e.symm)).trans
        (store_heap_same _ _ _), rfl, ?_, rfl⟩
      rw [last_addr_snoc]
  · have hnd := hrep.2.1
    rw [List.map_append]
    refine List.nodup_append.mpr ⟨hnd, by simp, ?_⟩
    intro x hx hx2
    have := hrep.2.2 x hx
    simp at hx2
    omega
  · intro x hx
    rw [List.map_append, List.mem_append] at hx
    show x < s1.brk + 1
    rcases hx with hx | hx
    · have := hrep.2.2 x hx; omega
    · simp at hx; omega

/-- `Compact` on a list without an allocated block: the first loop empties
the list, and the second loop reads `head->next` with `head` being `NULL`. -/
theorem Compact_null (s : allocator) (l : List (Nat × block)) (h : represents s l)
    (hc : compacted 0 l = []) : Compact s = Except.error fault.null_dereference := by
  have h0 : represents (printf s "Compacting memory...\n") ([] ++ l) := h
  obtain ⟨s1, hloop, hrep1, _⟩ := compact_loop_refines l
    ((printf s "Compacting memory...\n").brk + 1) 0 (printf s "Compacting memory...\n") [] h0
    (represents_length s l h)
  have hhead : (printf s "Compacting memory...\n").head = first_addr l none :=
    seg_first _ _ _ _ _ h.1
  rw [hc] at hrep1
  have hh1 : (malloc s1).2.head = none := hrep1.1
  unfold Compact
  simp only []
  rw [hhead, hloop, bind_ok]
  rw [hh1]
  rfl

/-- A call of `Compact` that runs to its end leaves a list whose blocks cover
what the blocks of the old list covered. -/
theorem Compact_keeps (s s' : allocator) (l : List (Nat × block)) (h : represents s l)
    (hC : Compact s = Except.ok s') :
    ∃ l', represents s' l' ∧ l' ≠ [] ∧
      ∀ m e, contig m (l.map Prod.snd) e → contig m (l'.map Prod.snd) e := by
  rcases nil_or_snoc (compacted 0 l) with hnil | ⟨L, x, hsnoc⟩
  · rw [Compact_null s l h hnil] at hC
    cases hC
  · obtain ⟨c, vc⟩ := x
    obtain ⟨s2, h2, hrep⟩ := Compact_refines s l L c vc h hsnoc
    rw [h2] at hC
    have hs : s2 = s' := Except.ok.inj hC
    subst hs
    refine ⟨_, hrep, by simp, ?_⟩
    intro m e hh
    have hcomp := contig_compacted l 0 m e hh
    rw [sub_zero] at hcomp
    rw [List.map_append]
    refine (contig_append _ _ _ _).mpr ⟨_, hcomp, ?_⟩
    rw [hsnoc, List.map_append] at hcomp
    obtain ⟨m1, _, hlast⟩ := (contig_append _ _ _ _).mp hcomp
    obtain ⟨q1, q2⟩ := (contig_single _ _ _).mp hlast
    refine (contig_single _ _ _).mpr ⟨?_, ?_⟩
    · show vc.start + vc.size = e - hole_total 0 l
      have q1' : vc.start = m1 := q1
      have q2' : m1 + vc.size = e - hole_total 0 l := q2
      omega
    · show e - hole_total 0 l + hole_total 0 l = e
      omega

/-! ## The states the program reaches -/

/-- The walk from a pointer along `next` meets the blocks of the list. -/
theorem walk_refines (heap : Nat → Option MemoryBlock) (l : List (Nat × block)) :
    ∀ (fuel : Nat) (p cur : Option Nat), seg heap p cur l none → l.length < fuel →
      (walk heap fuel cur).map MemoryBlock.view = l.map Prod.snd := by
  induction l with
  | nil =>
    intro fuel p cur h hf
    have hc : cur = none := h
    subst hc
    cases fuel with
    | zero => simp at hf
    | succ f => rfl
  | cons x rest ih =>
    intro fuel p cur h hf
    obtain ⟨a, v⟩ := x
    obtain ⟨hc, b, hb, hv, _, hrest⟩ := h
    subst hc
    cases fuel with
    | zero => simp at hf
    | succ f =>
      have hf' : rest.length < f := by simpa using hf
      have hw : walk heap (f + 1) (some a) = b :: walk heap f b.next := by
        show (match heap a with
          | none => []
          | some b => b :: walk heap f b.next) = _
        rw [hb]
      rw [hw, List.map_cons, List.map_cons, hv, ih f (some a) b.next hrest hf']

theorem blocks_refines (s : allocator) (l : List (Nat × block)) (h : represents s l) :
    (blocks s).map MemoryBlock.view = l.map Prod.snd :=
  walk_refines s.heap l (s.brk + 1) none s.head h.1 (represents_length s l h)

/-- Every state the program reaches holds a list that is not empty and whose
blocks lie one after the other from 0 to `n`. -/
theorem reachable_contig (n : Int) (s : allocator) (h : reachable n s) :
    ∃ l, represents s l ∧ l ≠ [] ∧ contig 0 (l.map Prod.snd) n := by
  induction h with
  | init =>
    exact ⟨_, represents_init n, by simp, ⟨rfl, by show (0 : Int) + n = n; omega⟩⟩
  | allocate s s' PID size type _ _ hP hA ih =>
    obtain ⟨l, hrep, hne, hc⟩ := ih
    obtain ⟨s2, l', h0, h1, h2, h3⟩ := Allocate_keeps PID size type s l hP hrep hne
    rw [h0] at hA
    have hs := Except.ok.inj hA
    subst hs
    exact ⟨l', h1, h2, h3 0 n hc⟩
  | deallocate s s' PID _ hD ih =>
    obtain ⟨l, hrep, hne, hc⟩ := ih
    obtain ⟨s2, l', h0, h1, h2, h3⟩ := Deallocate_keeps PID s l hrep hne
    rw [h0] at hD
    have hs := Except.ok.inj hD
    subst hs
    exact ⟨l', h1, h2, h3 0 n hc⟩
  | compact s s' _ hC ih =>
    obtain ⟨l, hrep, _, hc⟩ := ih
    obtain ⟨l', h1, h2, h3⟩ := Compact_keeps s s' l hrep hC
    exact ⟨l', h1, h2, h3 0 n hc⟩

/-- In every state reached from `initializeMemory(n)` by calls of `Allocate`
with a positive size and a PID of less than 12 characters, of `Deallocate` and
of `Compact` that run to their end, the blocks met from `head` along `next`
tile the memory: there is a first block and it starts at 0, each block starts
at the start of the block before it plus the size of that block, and the sizes
add up to `n`; and the state holds these blocks as a doubly linked list, the
`prev` of each block being the block whose `next` points to it, and `NULL` for
the first. -/
theorem reachable_tiles (n : Int) (s : allocator) (h : reachable n s) :
    tiles n ((blocks s).map MemoryBlock.view) ∧
      ∃ l, represents s l ∧ l.map Prod.snd = (blocks s).map MemoryBlock.view := by
  obtain ⟨l, hrep, hne, hc⟩ := reachable_contig n s h
  have hb := blocks_refines s l hrep
  refine ⟨?_, l, hrep, hb.symm⟩
  rw [hb]
  exact (tiles_iff_contig n _).mpr ⟨by simpa using hne, hc⟩

/-- C17: `Compact` called in the state after `initializeMemory(100)`, where no
block is allocated, takes the only block out of the list in its first loop,
so that `head` is `NULL`, and then reads `head->next`; the same happens when
a block has been allocated and released before. -/
theorem Compact_without_allocated_block :
    Compact (initializeMemory 100 start_state) = Except.error fault.null_dereference ∧
      ∃ s, ((Allocate "A".toList 10 "F".toList (initializeMemory 100 start_state)).bind
          (Deallocate "A".toList)) = Except.ok s ∧
        (blocks s).map MemoryBlock.view =
          [{ start := 0, size := 100, is_free := true, PID := [] }] ∧
        Compact s = Except.error fault.null_dereference :=
  ⟨rfl, _, rfl, rfl, rfl⟩

/-! ## A PID that does not fit the field -/

/-- A state whose first block points on to no block holds no list. -/
theorem not_represents_of_wild_next (s : allocator) (a w : Nat) (b : MemoryBlock)
    (hh : s.head = some a) (hb : s.heap a = some b) (hn : b.next = some w)
    (hw : s.heap w = none) : ¬ ∃ l, represents s l := by
  rintro ⟨l, hseg, _, _⟩
  rw [hh] at hseg
  cases l with
  | nil => exact absurd hseg (by simp [seg])
  | cons x rest =>
    obtain ⟨a1, v⟩ := x
    obtain ⟨ha, b1, hb1, _, _, hrest⟩ := hseg
    have ha' : a = a1 := Option.some.inj ha
    subst ha'
    rw [hb] at hb1
    have hbe : b = b1 := Option.some.inj hb1
    subst hbe
    rw [hn] at hrest
    cases rest with
    | nil => exact absurd hrest (by simp [seg])
    | cons y rest2 =>
      obtain ⟨w1, v1⟩ := y
      obtain ⟨hw1, b2, hb2, _⟩ := hrest
      have hw' : w = w1 := Option.some.inj hw1
      subst hw'
      rw [hw] at hb2
      exact absurd hb2 (by simp)

/-- C15: the request `rq ABCDEFGHIJKLM 100 F` right after
`initializeMemory(100)` is an exact fit for the only block, which is the
last of the list (`next` is `NULL`).  `Allocate` marks the block and copies
the 13 characters and the terminator into `PID[10]`: the copy runs over the
padding and the first two bytes of `next`, so that the block is left with a
`next` that is not `NULL` and designates no block, where the request was to
mark the block in place. -/
theorem Allocate_overruns_next :
    (initializeMemory 100 start_state).heap 1 =
        some { start := 0, size := 100, is_free := true, PID := [], next := none,
               prev := none } ∧
      ∃ s', Allocate "ABCDEFGHIJKLM".toList 100 "F".toList (initializeMemory 100 start_state) =
          Except.ok s' ∧
        s'.head = some 1 ∧
        s'.heap 1 =
          some { start := 0, size := 100, is_free := false, PID := "ABCDEFGHIJKLM".toList,
                 next := some 0, prev := none } ∧
        s'.heap 0 = none :=
  ⟨rfl, _, rfl, rfl, rfl, rfl⟩

/-- C16: the state after `initializeMemory(100)` and the request
`rq ABCDEFGHIJKLM 100 F`, a call of `Allocate` with a positive size that runs
to its end, holds no list: the `next` of the block at `head` is not `NULL` and
designates no block.  The calls that walk the list after it follow that
pointer. -/
theorem list_lost_after_long_PID :
    ∃ s', Allocate "ABCDEFGHIJKLM".toList 100 "F".toList (initializeMemory 100 start_state) =
        Except.ok s' ∧
      (¬ ∃ l, represents s' l) ∧
      (¬ (tiles 100 ((blocks s').map MemoryBlock.view) ∧
          ∃ l, represents s' l ∧ l.map Prod.snd = (blocks s').map MemoryBlock.view)) ∧
      Allocate "B".toList 10 "F".toList s' = Except.error fault.invalid_pointer ∧
      Deallocate "B".toList s' = Except.error fault.invalid_pointer ∧
      Compact s' = Except.error fault.invalid_pointer := by
  refine ⟨_, rfl, ?_, ?_, rfl, rfl, rfl⟩
  · exact not_represents_of_wild_next _ 1 0 _ rfl rfl rfl rfl
  · exact fun hc =>
      not_represents_of_wild_next _ 1 0 _ rfl rfl rfl rfl (hc.2.imp fun _ hl => hl.1)

end Allocator
